import Mathlib

/-!
# TinyWebServer: buffer, timer heap and HTTP request/response

A shallow embedding of `code/buffer/buffer.cpp`, `code/timer/heaptimer.cpp`,
`code/http/httprequest.cpp`, `code/http/httpresponse.cpp`,
`code/http/httpconn.cpp`, the connection queue of
`code/pool/sqlconnpool.cpp`, the line assembly of `code/log/log.cpp` and the
connection map of `code/server/webserver.cpp`, followed by theorems about the
embedded definitions.

Conventions.
* A C++ `char` / byte is a natural number below 256; a `std::string` or a
  byte range is a `List Nat`.
* `size_t` is a natural number below `2 ^ 64`; every `size_t` operation of the
  source is written with its wrap-around (`szAdd`, `szSub`).
* An operation whose C++ behaviour is undefined (an access outside a
  `std::vector` or `std::string`) or that fails an `assert` returns `none`.
* `std::vector<char>::resize` is given for sizes up to `max_size()`
  (`VECTOR_MAX_SIZE`, `2 ^ 63 - 1`); above it the call throws
  `std::length_error`.  Statements in which the requested size is a free
  number (`EnsureWriteable_postcondition`, `buffer_ops_keep_invariant`) keep
  the size handed to `resize` within that bound.
* A loop of the source is a recursive function with a bound on the number of
  iterations as its first argument; the caller passes a bound the loop cannot
  reach (`siftupLoop_fuel`, `siftdownLoop_fuel`, `tickLoop_fuel`), so `none`
  always stands for undefined behaviour or a failed `assert`.
* System calls and collaborators outside the repository (`readv`, `write`,
  `writev`, `stat`, `open`, `mmap`, `Clock::now()`, the MySQL client) are
  parameters giving their results; callbacks are labels recorded when invoked.
  `parse` takes the result of `UserVerify` as a parameter; `UserVerify` itself
  is given over `SqlWorld`, the outcome of its two SQL statements.
* An `int` is an integer; a conversion to `int` is written with its wrap-around
  (`intOfSize`, `wrapInt32`).  The `int` indices of the form scan are taken as
  unbounded, so statements about it are for bodies shorter than `2 ^ 31`.
* The static `HttpConn::userCount` is passed through `init` and `Close`;
  `ConnTable` holds it together with the connections.
* The section "Reference descriptions" holds definitions that follow the
  wording of the specification, for comparison with the embedded code.
* The two `std::regex` patterns of the request parser are given by the
  functions `matchRequestLine` and `matchHeader`, which compute the
  sub-matches of `regex_match` for these patterns.
-/

set_option autoImplicit false

namespace TinyWebServer

/-! ## Machine arithmetic -/

/-- Number of values of a `size_t` on the 64-bit target. -/
def SIZE_MOD : Nat := 18446744073709551616

/-- Addition of two `size_t` values. -/
def szAdd (a b : Nat) : Nat := (a + b) % SIZE_MOD

/-- Subtraction of two `size_t` values (both below `2 ^ 64`). -/
def szSub (a b : Nat) : Nat := (a + SIZE_MOD - b) % SIZE_MOD

/-- The bytes of a string literal. -/
def bytes (s : String) : List Nat := s.toList.map Char.toNat

/-- Overwrite `src.length` elements of `l` starting at offset `pos`
(`std::copy` / `memmove` / a kernel write into the region); the caller checks
`pos + src.length ≤ l.length`. -/
def writeAt (l : List Nat) (pos : Nat) (src : List Nat) : List Nat :=
  l.take pos ++ src ++ l.drop (pos + src.length)

/-- The `len` elements of `l` starting at offset `pos`. -/
def slice (l : List Nat) (pos len : Nat) : List Nat := (l.drop pos).take len

/-- Largest size of a `std::vector<char>` on the 64-bit target, `max_size()`,
which is `PTRDIFF_MAX = 2^63 - 1`. -/
def VECTOR_MAX_SIZE : Nat := 9223372036854775807

/-- Behaviour of `std::vector<char>::resize(n)` for `n ≤ max_size()`: truncate,
or pad with zero bytes.  For `n` above `VECTOR_MAX_SIZE` the call throws
`std::length_error` and leaves the vector as it was; that outcome is outside
this function, so every statement about a requested size that is a free
number carries the bound `VECTOR_MAX_SIZE` on the size handed to `resize`. -/
def resize (l : List Nat) (n : Nat) : List Nat :=
  l.take n ++ List.replicate (n - l.length) 0

/-! ## Buffer (`code/buffer/buffer.cpp`) -/

/-- The three members of `class Buffer`. -/
structure Buffer where
  buffer_ : List Nat
  readPos_ : Nat
  writePos_ : Nat
deriving DecidableEq, Repr

namespace Buffer

/-- Constructor `Buffer(int initBufferSize)`. -/
def mk0 (initBufferSize : Nat) : Buffer :=
  { buffer_ := List.replicate initBufferSize 0, readPos_ := 0, writePos_ := 0 }

def ReadableBytes (b : Buffer) : Nat := szSub b.writePos_ b.readPos_

def WritableBytes (b : Buffer) : Nat := szSub b.buffer_.length b.writePos_

def PrependableBytes (b : Buffer) : Nat := b.readPos_

/-- The bytes between `Peek()` and `BeginWrite()`. -/
def readable (b : Buffer) : List Nat := slice b.buffer_ b.readPos_ (ReadableBytes b)

/-- `MakeSpace_(len)`: reallocate, or move the unread bytes to offset 0. -/
def MakeSpace_ (b : Buffer) (len : Nat) : Option Buffer :=
  if szAdd (PrependableBytes b) (WritableBytes b) < len then
    some { b with buffer_ := resize b.buffer_ (szAdd (szAdd b.writePos_ len) 1) }
  else
    let readable := ReadableBytes b
    if b.readPos_ + readable ≤ b.buffer_.length then
      some { buffer_ := writeAt b.buffer_ 0 (slice b.buffer_ b.readPos_ readable),
             readPos_ := 0,
             writePos_ := readable }
    else none

/-- `EnsureWriteable(len)`; a failing `assert` is `none`. -/
def EnsureWriteable (b : Buffer) (len : Nat) : Option Buffer :=
  (if len > WritableBytes b then MakeSpace_ b len else some b).bind fun b1 =>
    if WritableBytes b1 ≥ len then some b1 else none

def HasWritten (b : Buffer) (len : Nat) : Buffer :=
  { b with writePos_ := szAdd b.writePos_ len }

/-- `Retrieve(len)`; a failing `assert` is `none`. -/
def Retrieve (b : Buffer) (len : Nat) : Option Buffer :=
  if len ≤ ReadableBytes b then some { b with readPos_ := szAdd b.readPos_ len } else none

/-- `RetrieveUntil(end)`, the pointer `end` given as its offset from `BeginPtr_()`. -/
def RetrieveUntil (b : Buffer) (e : Nat) : Option Buffer :=
  if b.readPos_ ≤ e then Retrieve b (szSub e b.readPos_) else none

def RetrieveAll (b : Buffer) : Buffer :=
  { buffer_ := List.replicate b.buffer_.length 0, readPos_ := 0, writePos_ := 0 }

/-- `RetrieveAllToStr()`: the string copied from the readable region, and the
buffer afterwards. -/
def RetrieveAllToStr (b : Buffer) : Option (List Nat × Buffer) :=
  if b.readPos_ + ReadableBytes b ≤ b.buffer_.length then
    some (readable b, RetrieveAll b)
  else none

/-- `Append(const char* str, size_t len)`, with `str` the `len` bytes pointed to. -/
def Append (b : Buffer) (str : List Nat) : Option Buffer :=
  (EnsureWriteable b str.length).bind fun b1 =>
    if b1.writePos_ + str.length ≤ b1.buffer_.length then
      some (HasWritten { b1 with buffer_ := writeAt b1.buffer_ b1.writePos_ str } str.length)
    else none

/-- `Append(const std::string& str)`. -/
def AppendStr (b : Buffer) (str : List Nat) : Option Buffer := Append b str

/-- `Append(const void* data, size_t len)`. -/
def AppendData (b : Buffer) (data : List Nat) : Option Buffer := Append b data

/-- `Append(const Buffer& buff)`. -/
def AppendBuffer (b : Buffer) (buff : Buffer) : Option Buffer :=
  if buff.readPos_ + ReadableBytes buff ≤ buff.buffer_.length then
    Append b (readable buff)
  else none

/-- Size of the stack array `char buff[65535]` of `ReadFd`. -/
def SPILL_SIZE : Nat := 65535

/-- Outcome of the `readv` call of `ReadFd`: an error with its `errno`, or the
bytes delivered (at most the writable tail plus the spill array). -/
inductive ReadvResult where
  | error (errno : Int)
  | data (d : List Nat)
deriving DecidableEq, Repr

/-- `ReadFd(fd, saveErrno)`: the buffer afterwards, the returned length and the
saved `errno` if any.  The kernel stores the first `writable` bytes in the
tail of the region and the rest in the spill array. -/
def ReadFd (b : Buffer) (r : ReadvResult) : Option (Buffer × Int × Option Int) :=
  let writable := WritableBytes b
  match r with
  | .error errno => some (b, -1, some errno)
  | .data d =>
    if d.length ≤ writable + SPILL_SIZE ∧ b.writePos_ + writable ≤ b.buffer_.length then
      let b1 := { b with buffer_ := writeAt b.buffer_ b.writePos_ (d.take writable) }
      if d.length ≤ writable then
        some ({ b1 with writePos_ := szAdd b1.writePos_ d.length }, (d.length : Int), none)
      else
        (Append { b1 with writePos_ := b1.buffer_.length } (d.drop writable)).map
          fun b2 => (b2, (d.length : Int), none)
    else none

/-- Outcome of the `write` call of `WriteFd`: an error, or the number of bytes
the kernel accepted. -/
inductive WriteResult where
  | error (errno : Int)
  | wrote (n : Nat)
deriving DecidableEq, Repr

/-- `WriteFd(fd, saveErrno)`. -/
def WriteFd (b : Buffer) (r : WriteResult) : Option (Buffer × Int × Option Int) :=
  match r with
  | .error errno => some (b, -1, some errno)
  | .wrote n => (Retrieve b n).map fun b1 => (b1, (n : Int), none)

/-- The invariant `readPos ≤ writePos ≤ capacity`. -/
def Inv (b : Buffer) : Prop := b.readPos_ ≤ b.writePos_ ∧ b.writePos_ ≤ b.buffer_.length

instance (b : Buffer) : Decidable (Inv b) := by unfold Inv; infer_instance

/-- The operations of `Buffer` that change its state. -/
inductive BufOp where
  | appendStr (str : List Nat)
  | appendChars (str : List Nat)
  | appendData (data : List Nat)
  | appendBuffer (buff : Buffer)
  | ensureWriteable (len : Nat)
  | hasWritten (len : Nat)
  | retrieve (len : Nat)
  | retrieveUntil (e : Nat)
  | retrieveAll
  | retrieveAllToStr
  | readFd (r : ReadvResult)
  | writeFd (r : WriteResult)

/-- The buffer after an operation. -/
def BufOp.run : BufOp → Buffer → Option Buffer
  | .appendStr s, b => AppendStr b s
  | .appendChars s, b => Append b s
  | .appendData s, b => AppendData b s
  | .appendBuffer o, b => AppendBuffer b o
  | .ensureWriteable n, b => EnsureWriteable b n
  | .hasWritten n, b => some (HasWritten b n)
  | .retrieve n, b => Retrieve b n
  | .retrieveUntil e, b => RetrieveUntil b e
  | .retrieveAll, b => some (RetrieveAll b)
  | .retrieveAllToStr, b => (RetrieveAllToStr b).map Prod.snd
  | .readFd r, b => (ReadFd b r).map Prod.fst
  | .writeFd r, b => (WriteFd b r).map Prod.fst

/-- What the callers of an operation guarantee: the documented preconditions,
that a system call transfers no more bytes than it was given room for, and
that the requested sizes, together with the write cursor, stay within the
largest size a `std::vector<char>` can have (so that `resize` neither wraps
nor throws). -/
def BufOp.pre : BufOp → Buffer → Prop
  | .appendStr s, b => b.writePos_ + s.length + 1 ≤ VECTOR_MAX_SIZE
  | .appendChars s, b => b.writePos_ + s.length + 1 ≤ VECTOR_MAX_SIZE
  | .appendData s, b => b.writePos_ + s.length + 1 ≤ VECTOR_MAX_SIZE
  | .appendBuffer o, b =>
      Inv o ∧ o.buffer_.length ≤ VECTOR_MAX_SIZE ∧
        b.writePos_ + ReadableBytes o + 1 ≤ VECTOR_MAX_SIZE
  | .ensureWriteable n, b => b.writePos_ + n + 1 ≤ VECTOR_MAX_SIZE
  | .hasWritten n, b => n ≤ WritableBytes b
  | .retrieve n, b => n ≤ ReadableBytes b
  | .retrieveUntil e, b => b.readPos_ ≤ e ∧ e ≤ b.writePos_
  | .retrieveAll, _ => True
  | .retrieveAllToStr, _ => True
  | .readFd (.error _), _ => True
  | .readFd (.data d), b =>
      d.length ≤ WritableBytes b + SPILL_SIZE ∧
        b.buffer_.length + SPILL_SIZE + 1 ≤ VECTOR_MAX_SIZE
  | .writeFd (.error _), _ => True
  | .writeFd (.wrote n), b => n ≤ ReadableBytes b

end Buffer

/-! ## Timer heap (`code/timer/heaptimer.cpp`) -/

/-- Ticks of `Clock` (`std::chrono::high_resolution_clock`, nanoseconds) in one
millisecond. -/
def TICKS_PER_MS : Int := 1000000

/-- `MS(timeout)` converted to the duration type of `Clock`. -/
def MS (timeout : Int) : Int := timeout * TICKS_PER_MS

/-- `std::chrono::duration_cast<MS>(d).count()`: division truncating toward zero. -/
def toMS (d : Int) : Int := Int.tdiv d TICKS_PER_MS

/-- `struct TimerNode`; the callback is represented by a label. -/
structure TimerNode where
  id : Int
  expires : Int
  cb : Nat
deriving DecidableEq, Repr

/-- `std::unordered_map<int, size_t>` as a list of entries with distinct keys. -/
abbrev RefMap := List (Int × Nat)

namespace RefMap

/-- `m.find(k)`. -/
def find (m : RefMap) (k : Int) : Option Nat :=
  match m with
  | [] => none
  | (k1, v) :: rest => if k1 = k then some v else find rest k

/-- `m.erase(k)`. -/
def erase (m : RefMap) (k : Int) : RefMap := m.filter fun e => decide (e.1 ≠ k)

/-- `m[k] = v`. -/
def assign (m : RefMap) (k : Int) (v : Nat) : RefMap := (k, v) :: erase m k

end RefMap

/-- The two members of `class HeapTimer`. -/
structure HeapTimer where
  heap_ : List TimerNode
  ref_ : RefMap
deriving DecidableEq, Repr

namespace HeapTimer

/-- The timer after construction or `clear()`. -/
def empty : HeapTimer := { heap_ := [], ref_ := [] }

/-- `SwapNode_(i, j)`; an index outside `heap_` is `none`. -/
def SwapNode_ (t : HeapTimer) (i j : Nat) : Option HeapTimer :=
  match t.heap_[i]?, t.heap_[j]? with
  | some ni, some nj =>
    some { heap_ := (t.heap_.set i nj).set j ni,
           ref_ := (t.ref_.assign nj.id i).assign ni.id j }
  | _, _ => none

/-- The loop of `siftup_`, entered with `j = (i - 1) / 2` computed on `size_t`;
`while (j >= 0)` never exits by its condition.  Reading `heap_[j]` outside the
vector is `none`.  The first argument bounds the number of iterations. -/
def siftupLoop : Nat → HeapTimer → Nat → Option HeapTimer
  | 0, _, _ => none
  | fuel + 1, t, i =>
    let j := szSub i 1 / 2
    match t.heap_[j]?, t.heap_[i]? with
    | some nj, some ni =>
      if nj.expires < ni.expires then some t
      else (SwapNode_ t i j).bind fun t1 => siftupLoop fuel t1 j
    | _, _ => none

/-- `siftup_(i)`. -/
def siftup_ (t : HeapTimer) (i : Nat) : Option HeapTimer :=
  if i < t.heap_.length then siftupLoop (i + 1) t i else none

/-- The first statement of the body of the loop of `siftdown_`:
`if (child + 1 < n && heap_[child + 1] < heap_[child]) child++;`, giving the
chosen child and its node. -/
def pickChild (t : HeapTimer) (child n : Nat) : Option (Nat × TimerNode) :=
  match t.heap_[child]? with
  | none => none
  | some nl =>
    if szAdd child 1 < n then
      match t.heap_[szAdd child 1]? with
      | none => none
      | some nr => if nr.expires < nl.expires then some (szAdd child 1, nr) else some (child, nl)
    else some (child, nl)

/-- The loop of `siftdown_`: the timer and the final value of `parent`.  The
first argument bounds the number of iterations. -/
def siftdownLoop : Nat → HeapTimer → Nat → Nat → Option (HeapTimer × Nat)
  | 0, _, _, _ => none
  | fuel + 1, t, parent, n =>
    let child := szAdd ((parent * 2) % SIZE_MOD) 1
    if child < n then
      match pickChild t child n, t.heap_[parent]? with
      | some (c, nc), some np =>
        if np.expires < nc.expires then some (t, parent)
        else (SwapNode_ t parent c).bind fun t1 => siftdownLoop fuel t1 c n
      | _, _ => none
    else some (t, parent)

/-- `siftdown_(index, n)`: the timer and the returned flag `parent > index`. -/
def siftdown_ (t : HeapTimer) (index n : Nat) : Option (HeapTimer × Bool) :=
  if index < t.heap_.length then
    (siftdownLoop (n + 1) t index n).map fun r => (r.1, decide (r.2 > index))
  else none

/-- The tail of `add` and `del_`: `if (!siftdown_(i, n)) siftup_(i);`. -/
def siftBoth (t : HeapTimer) (i n : Nat) : Option HeapTimer :=
  (siftdown_ t i n).bind fun r => if r.2 then some r.1 else siftup_ r.1 i

/-- `add(id, timeout, cb)` with `now` the value of `Clock::now()`. -/
def add (t : HeapTimer) (now : Int) (id timeout : Int) (cb : Nat) : Option HeapTimer :=
  if id < 0 then none
  else
    match t.ref_.find id with
    | none =>
      let i := t.heap_.length
      siftup_ { heap_ := t.heap_ ++ [{ id := id, expires := now + MS timeout, cb := cb }],
                ref_ := t.ref_.assign id i } i
    | some i =>
      match t.heap_[i]? with
      | none => none
      | some node =>
        let t1 : HeapTimer :=
          { t with heap_ := t.heap_.set i { node with expires := now + MS timeout, cb := cb } }
        siftBoth t1 i t1.heap_.length

/-- `del_(index)`. -/
def del_ (t : HeapTimer) (index : Nat) : Option HeapTimer :=
  if t.heap_.length = 0 ∨ ¬ index < t.heap_.length then none
  else
    let n := szSub t.heap_.length 1
    (if index < n then (SwapNode_ t index n).bind fun t1 => siftBoth t1 index n
     else some t).bind fun t3 =>
      match t3.heap_.getLast? with
      | none => none
      | some last => some { heap_ := t3.heap_.dropLast, ref_ := t3.ref_.erase last.id }

/-- `doWork(id)`: the timer afterwards and the nodes whose callback was invoked. -/
def doWork (t : HeapTimer) (id : Int) : Option (HeapTimer × List TimerNode) :=
  if t.heap_.length = 0 then some (t, [])
  else
    match t.ref_.find id with
    | none => some (t, [])
    | some i =>
      match t.heap_[i]? with
      | none => none
      | some node => (del_ t i).map fun t1 => (t1, [node])

/-- `adjust(id, timeout)` with `now` the value of `Clock::now()`. -/
def adjust (t : HeapTimer) (now : Int) (id timeout : Int) : Option HeapTimer :=
  if t.heap_.length = 0 then none
  else
    match t.ref_.find id with
    | none => none
    | some i =>
      match t.heap_[i]? with
      | none => none
      | some node =>
        let t1 : HeapTimer :=
          { t with heap_ := t.heap_.set i { node with expires := now + MS timeout } }
        (siftdown_ t1 i t1.heap_.length).map Prod.fst

/-- `pop()`. -/
def pop (t : HeapTimer) : Option HeapTimer :=
  if t.heap_.length = 0 then none else del_ t 0

/-- The loop of `tick`.  `clock k` is the value of the `k`-th call of
`Clock::now()`; the result holds the timer, the nodes whose callback was
invoked, in order, and the number of clock readings taken so far. -/
def tickLoop : Nat → HeapTimer → (Nat → Int) → Nat → List TimerNode →
    Option (HeapTimer × List TimerNode × Nat)
  | 0, _, _, _, _ => none
  | fuel + 1, t, clock, k, fired =>
    match t.heap_.head? with
    | none => some (t, fired, k)
    | some node =>
      if toMS (node.expires - clock k) > 0 then some (t, fired, k + 1)
      else (pop t).bind fun t1 => tickLoop fuel t1 clock (k + 1) (fired ++ [node])

/-- `tick()`. -/
def tick (t : HeapTimer) (clock : Nat → Int) : Option (HeapTimer × List TimerNode × Nat) :=
  if t.heap_.length = 0 then some (t, [], 0)
  else tickLoop (t.heap_.length + 1) t clock 0 []

/-- `clear()`. -/
def clear (_t : HeapTimer) : HeapTimer := { heap_ := [], ref_ := [] }

/-- Conversion of a signed 64-bit count to `size_t`. -/
def sizeOfInt (z : Int) : Nat := (z % (SIZE_MOD : Int)).toNat

/-- Conversion of a `size_t` to the 32-bit `int` returned by `GetNextTick`. -/
def intOfSize (n : Nat) : Int :=
  if n % 4294967296 < 2147483648 then ((n % 4294967296 : Nat) : Int)
  else ((n % 4294967296 : Nat) : Int) - 4294967296

/-- `GetNextTick()`: the timer, the nodes whose callback was invoked, and the
returned `int`.  The local `res` is a `size_t`. -/
def GetNextTick (t : HeapTimer) (clock : Nat → Int) : Option (HeapTimer × List TimerNode × Int) :=
  (tick t clock).bind fun r =>
    let t1 := r.1
    let k := r.2.2
    let res0 : Nat := sizeOfInt (-1)
    let res1 : Nat :=
      match t1.heap_.head? with
      | none => res0
      | some node =>
        let res := sizeOfInt (toMS (node.expires - clock k))
        if res < 0 then 0 else res
    some (t1, r.2.1, intOfSize res1)

/-- The expiration stored at position `i` (0 outside the vector). -/
def expAt (h : List TimerNode) (i : Nat) : Int := ((h[i]?).map TimerNode.expires).getD 0

/-- Min-heap order on the first `n` positions: `heap[(i-1)/2].expires ≤ heap[i].expires`
for every `1 ≤ i < n`. -/
def MinHeapUpTo (h : List TimerNode) (n : Nat) : Prop :=
  ∀ i, i < n → 1 ≤ i → expAt h ((i - 1) / 2) ≤ expAt h i

instance (h : List TimerNode) (n : Nat) : Decidable (MinHeapUpTo h n) := by
  unfold MinHeapUpTo; infer_instance

/-- Min-heap order on the whole vector. -/
def MinHeap (h : List TimerNode) : Prop := MinHeapUpTo h h.length

instance (h : List TimerNode) : Decidable (MinHeap h) := by
  unfold MinHeap; infer_instance

/-- The public operations of `HeapTimer` that change the timer, with the clock
readings they take. -/
inductive TimerOp where
  | add (now : Int) (id timeout : Int) (cb : Nat)
  | adjust (now : Int) (id timeout : Int)
  | doWork (id : Int)
  | pop
  | tick (clock : Nat → Int)
  | clear

/-- The timer after an operation. -/
def TimerOp.run : TimerOp → HeapTimer → Option HeapTimer
  | .add now id timeout cb, t => HeapTimer.add t now id timeout cb
  | .adjust now id timeout, t => HeapTimer.adjust t now id timeout
  | .doWork id, t => (HeapTimer.doWork t id).map fun r => r.1
  | .pop, t => HeapTimer.pop t
  | .tick clock, t => (HeapTimer.tick t clock).map fun r => r.1
  | .clear, t => some (HeapTimer.clear t)

/-- Largest length of `heap_` considered: below it `(0 - 1) / 2`, computed on
`size_t`, is an index outside the vector, and `2 * i + 2` does not wrap. -/
def HEAP_MAX : Nat := 9223372036854775807

/-- Heap order on the first `n` positions except for the edge between `i` and
its parent; the children of `i` are not below the parent of `i`. -/
def UpInv (h : List TimerNode) (i n : Nat) : Prop :=
  (∀ k, k < n → 1 ≤ k → k ≠ i → expAt h ((k - 1) / 2) ≤ expAt h k) ∧
  (∀ k, k < n → 1 ≤ k → (k - 1) / 2 = i → 1 ≤ i → expAt h ((i - 1) / 2) ≤ expAt h k)

/-- Heap order on the first `n` positions except for the edges between `p` and
its children; the children of `p` are not below the parent of `p`. -/
def DownInv (h : List TimerNode) (p n : Nat) : Prop :=
  (∀ k, k < n → 1 ≤ k → (k - 1) / 2 ≠ p → expAt h ((k - 1) / 2) ≤ expAt h k) ∧
  (∀ k, k < n → 1 ≤ k → (k - 1) / 2 = p → 1 ≤ p → expAt h ((p - 1) / 2) ≤ expAt h k)

/-- Heap order on the first `n` positions except for the edges at `i`; the
children of `i` are not below the parent of `i`. -/
def AlmostHeap (h : List TimerNode) (i n : Nat) : Prop :=
  (∀ k, k < n → 1 ≤ k → k ≠ i → (k - 1) / 2 ≠ i → expAt h ((k - 1) / 2) ≤ expAt h k) ∧
  (∀ k, k < n → 1 ≤ k → (k - 1) / 2 = i → 1 ≤ i → expAt h ((i - 1) / 2) ≤ expAt h k)

/-- Index consistency in the form used by the proofs: every position is
recorded under its node's id, and every entry points at a node with its key. -/
def IndexInv (t : HeapTimer) : Prop :=
  (∀ i node, t.heap_[i]? = some node → t.ref_.find node.id = some i) ∧
  (∀ id i, t.ref_.find id = some i → ∃ node, t.heap_[i]? = some node ∧ node.id = id) ∧
  (t.ref_.map Prod.fst).Nodup

/-- Index consistency as the timer's users see it: `ref_` has each key once,
`heap_` holds each id once, the keys of `ref_` are exactly the ids stored in
`heap_`, and `heap_[ref_[id]].id == id` for every entry `(id, ref_[id])`. -/
def IndexConsistent (t : HeapTimer) : Prop :=
  (t.ref_.map Prod.fst).Nodup ∧ (t.heap_.map TimerNode.id).Nodup ∧
  (∀ id ∈ t.ref_.map Prod.fst, id ∈ t.heap_.map TimerNode.id) ∧
  (∀ id ∈ t.heap_.map TimerNode.id, id ∈ t.ref_.map Prod.fst) ∧
  (∀ e ∈ t.ref_, (t.heap_[e.2]?).map TimerNode.id = some e.1)

instance (t : HeapTimer) : Decidable (IndexConsistent t) := by
  unfold IndexConsistent; infer_instance

/-- What the sifting loops leave alone: the length, the positions from `n` on
and the multiset of nodes. -/
def Frame (h0 : List TimerNode) (n : Nat) (t : HeapTimer) : Prop :=
  t.heap_.length = h0.length ∧ (∀ k, n ≤ k → t.heap_[k]? = h0[k]?) ∧ List.Perm t.heap_ h0

end HeapTimer

/-! ## HTTP request (`code/http/httprequest.cpp`) -/

/-- A `std::string`. -/
abbrev Str := List Nat

/-- `std::unordered_map<std::string, std::string>` as a list of entries with
distinct keys. -/
abbrev StrMap := List (Str × Str)

namespace StrMap

/-- `m.find(k)`. -/
def find (m : StrMap) (k : Str) : Option Str :=
  match m with
  | [] => none
  | (k1, v) :: rest => if k1 = k then some v else find rest k

/-- `m.count(k)`. -/
def count (m : StrMap) (k : Str) : Nat := if (find m k).isSome then 1 else 0

/-- `m[k] = v`. -/
def assign (m : StrMap) (k v : Str) : StrMap :=
  (k, v) :: m.filter fun e => decide (e.1 ≠ k)

/-- Reading `m[k]`: the value, and the map, which gets an empty entry when the
key was absent. -/
def index (m : StrMap) (k : Str) : Str × StrMap :=
  match find m k with
  | some v => (v, m)
  | none => ([], assign m k [])

end StrMap

/-- `enum PARSE_STATE`. -/
inductive PARSE_STATE where
  | REQUEST_LINE
  | HEADERS
  | BODY
  | FINISH
deriving DecidableEq, Repr

/-- The members of `class HttpRequest`. -/
structure HttpRequest where
  state_ : PARSE_STATE
  method_ : Str
  path_ : Str
  version_ : Str
  body_ : Str
  header_ : StrMap
  post_ : StrMap
deriving DecidableEq, Repr

namespace HttpRequest

/-- `DEFAULT_HTML`. -/
def DEFAULT_HTML : List Str :=
  [bytes "/index", bytes "/register", bytes "/login", bytes "/welcome", bytes "/video",
   bytes "/picture"]

/-- `DEFAULT_HTML_TAG`. -/
def DEFAULT_HTML_TAG : List (Str × Int) :=
  [(bytes "/register.html", 0), (bytes "/login.html", 1)]

/-- The value of a `char` as an `int` (`char` is signed on the target). -/
def charToInt (c : Nat) : Int := if c < 128 then (c : Int) else (c : Int) - 256

/-- Conversion of an `int` to a `char`, kept as its byte. -/
def intToChar (z : Int) : Nat := (z % 256).toNat

/-- `ConverHex(ch)`. -/
def ConverHex (ch : Nat) : Int :=
  let c := charToInt ch
  if c ≥ 65 ∧ c ≤ 70 then c - 65 + 10
  else if c ≥ 97 ∧ c ≤ 102 then c - 97 + 10
  else if c ≥ 48 ∧ c ≤ 57 then c - 48
  else c

/-- `Init()`. -/
def Init (_r : HttpRequest) : HttpRequest :=
  { state_ := .REQUEST_LINE, method_ := [], path_ := [], version_ := [], body_ := [],
    header_ := [], post_ := [] }

/-- `IsKeepAlive()`. -/
def IsKeepAlive (r : HttpRequest) : Bool :=
  match r.header_.find (bytes "Connection") with
  | some v => decide (v = bytes "keep-alive") && decide (r.version_ = bytes "1.1")
  | none => false

/-- The pieces of `s` between occurrences of the byte `sep`. -/
def splitOnByte (sep : Nat) : Str → List Str
  | [] => [[]]
  | c :: rest =>
    if c = sep then [] :: splitOnByte sep rest
    else
      match splitOnByte sep rest with
      | [] => [[c]]
      | p :: ps => (c :: p) :: ps

/-- `regex_match(line, "^([^ ]*) ([^ ]*) HTTP/([^ ]*)$")`: the three
sub-matches.  The line matches when it has exactly two spaces and its third
piece starts with `HTTP/`. -/
def matchRequestLine (line : Str) : Option (Str × Str × Str) :=
  match splitOnByte 32 line with
  | [m, t, w] => if w.take 5 = bytes "HTTP/" then some (m, t, w.drop 5) else none
  | _ => none

/-- `regex_match(line, "^([^:]*): ?(.*)$")`: the two sub-matches.  The first is
the text before the first `:`; one space after the `:` is skipped when there
is one (` ?` is greedy); `.` matches every byte except CR and LF. -/
def matchHeader (line : Str) : Option (Str × Str) :=
  let name := line.takeWhile fun c => decide (c ≠ 58)
  match line.drop name.length with
  | [] => none
  | _ :: rest =>
    let value := match rest with
      | 32 :: v => v
      | _ => rest
    if value.all fun c => decide (c ≠ 13 ∧ c ≠ 10) then some (name, value) else none

/-- `ParseRequestLine_(line)`: `none` is the return value `false`. -/
def ParseRequestLine_ (r : HttpRequest) (line : Str) : Option HttpRequest :=
  match matchRequestLine line with
  | some (m, t, v) => some { r with method_ := m, path_ := t, version_ := v, state_ := .HEADERS }
  | none => none

/-- `ParseHeader_(line)`. -/
def ParseHeader_ (r : HttpRequest) (line : Str) : HttpRequest :=
  match matchHeader line with
  | some (k, v) => { r with header_ := r.header_.assign k v }
  | none => { r with state_ := .BODY }

/-- The value `ParsePath_` gives `path_`. -/
def rewritePath (path : Str) : Str :=
  if path = bytes "/" then bytes "/index.html"
  else if DEFAULT_HTML.contains path then path ++ bytes ".html"
  else path

/-- `ParsePath_()`. -/
def ParsePath_ (r : HttpRequest) : HttpRequest := { r with path_ := rewritePath r.path_ }

/-- Reading `body_[pos]`: the byte, the terminating `\0` at `pos == size()`,
undefined beyond. -/
def strAt (s : Str) (pos : Nat) : Option Nat :=
  if pos < s.length then s[pos]? else if pos = s.length then some 0 else none

/-- The state of the scan of `ParseFromUrlencoded_`. -/
structure FormScan where
  body : Str
  post : StrMap
  key : Str
  i : Nat
  j : Nat
deriving DecidableEq, Repr

/-- The `for` loop of `ParseFromUrlencoded_` (`n = body_.size()`); writing a
byte at or beyond `body_.size()` is `none`.  The first argument bounds the
number of iterations. -/
def formLoop : Nat → Nat → FormScan → Option FormScan
  | 0, _, _ => none
  | fuel + 1, n, s =>
    if s.i < n then
      match s.body[s.i]? with
      | none => none
      | some ch =>
        let step : Option FormScan :=
          if ch = 61 then
            some { s with key := slice s.body s.j (s.i - s.j), j := s.i + 1 }
          else if ch = 43 then
            some { s with body := s.body.set s.i 32 }
          else if ch = 37 then
            match strAt s.body (s.i + 1), strAt s.body (s.i + 2) with
            | some a, some b =>
              let num : Int := ConverHex a * 16 + ConverHex b
              if s.i + 2 < s.body.length then
                some { s with
                  body := (s.body.set (s.i + 2) (intToChar (Int.tmod num 10 + 48))).set (s.i + 1)
                    (intToChar (Int.tdiv num 10 + 48)),
                  i := s.i + 2 }
              else none
            | _, _ => none
          else if ch = 38 then
            some { s with post := s.post.assign s.key (slice s.body s.j (s.i - s.j)),
                          j := s.i + 1 }
          else some s
        step.bind fun s1 => formLoop fuel n { s1 with i := s1.i + 1 }
    else some s

/-- `ParseFromUrlencoded_()`. -/
def ParseFromUrlencoded_ (r : HttpRequest) : Option HttpRequest :=
  if r.body_.length = 0 then some r
  else
    (formLoop (r.body_.length + 1) r.body_.length
        { body := r.body_, post := r.post_, key := [], i := 0, j := 0 }).bind fun s =>
      if s.j ≤ s.i then
        if s.post.count s.key = 0 ∧ s.j < s.i then
          some { r with body_ := s.body,
                        post_ := s.post.assign s.key (slice s.body s.j (s.i - s.j)) }
        else some { r with body_ := s.body, post_ := s.post }
      else none

/-- `GetPost(key)`; the `assert(key != "")` failing is `none`. -/
def GetPost (r : HttpRequest) (key : Str) : Option Str :=
  if key = [] then none
  else if r.post_.count key = 1 then r.post_.find key else some []

/-- `ParsePost_()`; `verify name pwd isLogin` is the result of `UserVerify`. -/
def ParsePost_ (verify : Str → Str → Bool → Bool) (r : HttpRequest) : Option HttpRequest :=
  if r.method_ = bytes "POST" then
    let ct := r.header_.index (bytes "Content-Type")
    let r1 := { r with header_ := ct.2 }
    if ct.1 = bytes "application/x-www-form-urlencoded" then
      (ParseFromUrlencoded_ r1).bind fun r2 =>
        match DEFAULT_HTML_TAG.lookup r2.path_ with
        | some tag =>
          let u := r2.post_.index (bytes "username")
          let p := StrMap.index u.2 (bytes "password")
          let r3 := { r2 with post_ := p.2 }
          if verify u.1 p.1 (decide (tag = 1)) then some { r3 with path_ := bytes "/welcome.html" }
          else some { r3 with path_ := bytes "/error.html" }
        | none => some r2
    else some r1
  else some r

/-- `ParseBody_(line)`. -/
def ParseBody_ (verify : Str → Str → Bool → Bool) (r : HttpRequest) (line : Str) :
    Option HttpRequest :=
  (ParsePost_ verify { r with body_ := line }).map fun r1 => { r1 with state_ := .FINISH }

/-- `std::search(first, last, CRLF, CRLF + 2)`: the offset of the first CR LF
pair, or the length when there is none. -/
def findCRLF : Str → Nat
  | [] => 0
  | [_] => 1
  | a :: b :: rest => if a = 13 ∧ b = 10 then 0 else findCRLF (b :: rest) + 1

/-- The `while` loop of `parse`: the request, the buffer and the returned
`bool`.  The first argument bounds the number of iterations. -/
def parseLoop (verify : Str → Str → Bool → Bool) :
    Nat → HttpRequest → Buffer → Option (HttpRequest × Buffer × Bool)
  | 0, _, _ => none
  | fuel + 1, r, buff =>
    if buff.ReadableBytes ≠ 0 ∧ r.state_ ≠ .FINISH then
      if buff.readPos_ + buff.ReadableBytes ≤ buff.buffer_.length then
        let region := buff.readable
        let pos := findCRLF region
        let line := region.take pos
        let stepped : Option (Option HttpRequest) :=
          match r.state_ with
          | .REQUEST_LINE =>
            match ParseRequestLine_ r line with
            | none => some none
            | some r1 => some (some (ParsePath_ r1))
          | .HEADERS =>
            let r1 := ParseHeader_ r line
            some (some (if buff.ReadableBytes ≤ 2 then { r1 with state_ := .FINISH } else r1))
          | .BODY => (ParseBody_ verify r line).map some
          | .FINISH => some (some r)
        match stepped with
        | none => none
        | some none => some (r, buff, false)
        | some (some r2) =>
          if pos = region.length then some (r2, buff, true)
          else
            (buff.RetrieveUntil (szAdd (buff.readPos_ + pos) 2)).bind fun b1 =>
              parseLoop verify fuel r2 b1
      else none
    else some (r, buff, true)

/-- `parse(buff)`. -/
def parse (verify : Str → Str → Bool → Bool) (r : HttpRequest) (buff : Buffer) :
    Option (HttpRequest × Buffer × Bool) :=
  if buff.ReadableBytes ≤ 0 then some (r, buff, false)
  else parseLoop verify (buff.ReadableBytes + 1) r buff

end HttpRequest

/-! ## HTTP response (`code/http/httpresponse.cpp`) -/

/-- The fields of `struct stat` the response reads. -/
structure FileStat where
  isDir : Bool
  otherRead : Bool
  size : Nat
deriving DecidableEq, Repr

/-- The file system as the response sees it: `stat` (`none` when it fails),
whether `open(path, O_RDONLY)` succeeds, and the bytes `mmap` gives for the
opened file (`none` for `MAP_FAILED`). -/
structure FileSys where
  stat : Str → Option FileStat
  canOpen : Str → Bool
  mmap : Str → Nat → Option (List Nat)

/-- The members of `class HttpResponse`. -/
structure HttpResponse where
  code_ : Int
  isKeepAlive_ : Bool
  path_ : Str
  srcDir_ : Str
  mmFile_ : Option (List Nat)
  mmFileStat_ : FileStat
deriving DecidableEq, Repr

namespace HttpResponse

/-- `SUFFIX_TYPE`. -/
def SUFFIX_TYPE : List (Str × Str) :=
  [(bytes ".html", bytes "text/html"), (bytes ".xml", bytes "text/xml"),
   (bytes ".xhtml", bytes "application/xhtml+xml"), (bytes ".txt", bytes "text/plain"),
   (bytes ".rtf", bytes "application/rtf"), (bytes ".pdf", bytes "application/pdf"),
   (bytes ".word", bytes "application/nsword"), (bytes ".png", bytes "image/png"),
   (bytes ".gif", bytes "image/gif"), (bytes ".jpg", bytes "image/jpeg"),
   (bytes ".jpeg", bytes "image/jpeg"), (bytes ".au", bytes "audio/basic"),
   (bytes ".mpeg", bytes "video/mpeg"), (bytes ".mpg", bytes "video/mpeg"),
   (bytes ".avi", bytes "video/x-msvideo"), (bytes ".gz", bytes "application/x-gzip"),
   (bytes ".tar", bytes "application/x-tar"), (bytes ".css", bytes "text/css "),
   (bytes ".js", bytes "text/javascript ")]

/-- `CODE_STATUS`. -/
def CODE_STATUS : List (Int × Str) :=
  [(200, bytes "OK"), (400, bytes "Bad Request"), (403, bytes "Forbidden"),
   (404, bytes "Not Found")]

/-- `CODE_PATH`. -/
def CODE_PATH : List (Int × Str) :=
  [(400, bytes "/400.html"), (403, bytes "/403.html"), (404, bytes "/404.html")]

/-- `std::to_string` of an integer. -/
def to_string (z : Int) : Str := bytes (toString z)

/-- The response after its constructor. -/
def new : HttpResponse :=
  { code_ := -1, isKeepAlive_ := false, path_ := [], srcDir_ := [], mmFile_ := none,
    mmFileStat_ := { isDir := false, otherRead := false, size := 0 } }

/-- `Init(srcDir, path, isKeepAlive, code)`; the `assert(srcDir != "")` failing
is `none`. -/
def Init (_r : HttpResponse) (srcDir path : Str) (isKeepAlive : Bool) (code : Int) :
    Option HttpResponse :=
  if srcDir = [] then none
  else some { code_ := code, isKeepAlive_ := isKeepAlive, path_ := path, srcDir_ := srcDir,
              mmFile_ := none, mmFileStat_ := { isDir := false, otherRead := false, size := 0 } }

/-- `ErrorHtml_()`. -/
def ErrorHtml_ (fs : FileSys) (r : HttpResponse) : HttpResponse :=
  match CODE_PATH.lookup r.code_ with
  | some page =>
    match fs.stat (r.srcDir_ ++ page) with
    | some st => { r with path_ := page, mmFileStat_ := st }
    | none => { r with path_ := page }
  | none => r

/-- `AddStateLine_(buff)`. -/
def AddStateLine_ (r : HttpResponse) (buff : Buffer) : Option (HttpResponse × Buffer) :=
  let r1 : HttpResponse :=
    match CODE_STATUS.lookup r.code_ with
    | some _ => r
    | none => { r with code_ := 400 }
  let status : Str := (CODE_STATUS.lookup r1.code_).getD []
  (buff.AppendStr (bytes "HTTP/1.1 " ++ to_string r1.code_ ++ bytes " " ++ status ++ bytes "\r\n")).map
    fun b => (r1, b)

/-- The position of the last occurrence of the byte `c` (`find_last_of`). -/
def findLastOf (s : Str) (c : Nat) : Option Nat :=
  match (s.reverse.indexOf? c) with
  | some k => some (s.length - 1 - k)
  | none => none

/-- `GetFileType_()`. -/
def GetFileType_ (r : HttpResponse) : Str :=
  match findLastOf r.path_ 46 with
  | none => bytes "text/plain"
  | some idx =>
    match SUFFIX_TYPE.lookup (r.path_.drop idx) with
    | some t => t
    | none => bytes "text/plain"

/-- `AddHeader_(buff)`. -/
def AddHeader_ (r : HttpResponse) (buff : Buffer) : Option Buffer :=
  (buff.AppendStr (bytes "Connection: ")).bind fun b1 =>
    (if r.isKeepAlive_ then
      (b1.AppendStr (bytes "keep-alive\r\n")).bind fun b2 =>
        b2.AppendStr (bytes "keep-alive: max=6, timeout=120\r\n")
     else b1.AppendStr (bytes "close\r\n")).bind fun b3 =>
      b3.AppendStr (bytes "Content-type: " ++ GetFileType_ r ++ bytes "\r\n")

/-- `ErrorContent(buff, message)`. -/
def ErrorContent (r : HttpResponse) (buff : Buffer) (message : Str) : Option Buffer :=
  let status : Str :=
    match CODE_STATUS.lookup r.code_ with
    | some st => st
    | none => bytes "Bad Request"
  let body : Str :=
    bytes "<html><title>Error</title>" ++ bytes "<body bgcolor=\"ffffff\">" ++
      (to_string r.code_ ++ bytes " : " ++ status ++ bytes "\n") ++
      (bytes "<p>" ++ message ++ bytes "</p>") ++
      bytes "<hr><em>TinyWebServer</em></body></html>"
  (buff.AppendStr (bytes "Content-length: " ++ to_string body.length ++ bytes "\r\n\r\n")).bind
    fun b1 => b1.AppendStr body

/-- `AddContent_(buff)`. -/
def AddContent_ (fs : FileSys) (r : HttpResponse) (buff : Buffer) :
    Option (HttpResponse × Buffer) :=
  if fs.canOpen (r.srcDir_ ++ r.path_) then
    match fs.mmap (r.srcDir_ ++ r.path_) r.mmFileStat_.size with
    | none => (ErrorContent r buff (bytes "File NotFound!")).map fun b => (r, b)
    | some file =>
      (buff.AppendStr
          (bytes "Content-length: " ++ to_string r.mmFileStat_.size ++ bytes "\r\n\r\n")).map
        fun b => ({ r with mmFile_ := some file }, b)
  else (ErrorContent r buff (bytes "File NotFound!")).map fun b => (r, b)

/-- `MakeResponse(buff)`. -/
def MakeResponse (fs : FileSys) (r : HttpResponse) (buff : Buffer) :
    Option (HttpResponse × Buffer) :=
  let r1 : HttpResponse :=
    match fs.stat (r.srcDir_ ++ r.path_) with
    | none => { r with code_ := 404 }
    | some st =>
      if st.isDir then { r with code_ := 404, mmFileStat_ := st }
      else if ¬ st.otherRead then { r with code_ := 403, mmFileStat_ := st }
      else if r.code_ = -1 then { r with code_ := 200, mmFileStat_ := st }
      else { r with mmFileStat_ := st }
  let r2 := ErrorHtml_ fs r1
  (AddStateLine_ r2 buff).bind fun p =>
    (AddHeader_ p.1 p.2).bind fun b2 => AddContent_ fs p.1 b2

/-- `FileLen()`. -/
def FileLen (r : HttpResponse) : Nat := r.mmFileStat_.size

end HttpResponse

/-! ## HTTP connection (`code/http/httpconn.cpp`) -/

/-- One slot of the vectored-write descriptor: `iov_base` as an offset into the
region it points into, and `iov_len`. -/
structure IoVec where
  base : Nat
  len : Nat
deriving DecidableEq, Repr

/-- The members of `class HttpConn` (the peer address `addr_` is left out). -/
structure HttpConn where
  iovCnt_ : Nat
  iov0 : IoVec
  iov1 : IoVec
  readBuff_ : Buffer
  writeBuff_ : Buffer
  request_ : HttpRequest
  response_ : HttpResponse
  fd_ : Int
  isClose_ : Bool
deriving DecidableEq, Repr

namespace HttpConn

/-- `process()` with `srcDir` the static source root: the connection afterwards
and the returned `bool`. -/
def process (fs : FileSys) (verify : Str → Str → Bool → Bool) (srcDir : Str) (c : HttpConn) :
    Option (HttpConn × Bool) :=
  let req0 := c.request_.Init
  if c.readBuff_.ReadableBytes ≤ 0 then some ({ c with request_ := req0 }, false)
  else
    (HttpRequest.parse verify req0 c.readBuff_).bind fun pr =>
      let req := pr.1
      let rbuf := pr.2.1
      (if pr.2.2 then c.response_.Init srcDir req.path_ req.IsKeepAlive 200
       else c.response_.Init srcDir req.path_ false 400).bind fun resp0 =>
        (resp0.MakeResponse fs c.writeBuff_).bind fun mr =>
          let resp := mr.1
          let wbuf := mr.2
          let c1 : HttpConn :=
            { c with request_ := req, readBuff_ := rbuf, response_ := resp, writeBuff_ := wbuf,
                     iov0 := { base := wbuf.readPos_, len := wbuf.ReadableBytes },
                     iovCnt_ := 1 }
          if resp.FileLen > 0 ∧ resp.mmFile_.isSome then
            some ({ c1 with iov1 := { base := 0, len := resp.FileLen }, iovCnt_ := 2 }, true)
          else some (c1, true)

/-- Conversion of an integer to a 32-bit `int` (also the wrap-around of
`std::atomic<int>` arithmetic). -/
def wrapInt32 (z : Int) : Int := (z + 2147483648) % 4294967296 - 2147483648

/-- `ToWriteBytes()`: the `size_t` sum of the two lengths, returned as `int`. -/
def ToWriteBytes (c : HttpConn) : Int := wrapInt32 (szAdd c.iov0.len c.iov1.len)

/-- The body of the `do` loop of `write` after `writev` has returned `len > 0`. -/
def writeStep (c : HttpConn) (len : Nat) : Option HttpConn :=
  if szAdd c.iov0.len c.iov1.len = 0 then some c
  else if len > c.iov0.len then
    let c1 : HttpConn :=
      { c with iov1 := { base := c.iov1.base + szSub len c.iov0.len,
                         len := szSub c.iov1.len (szSub len c.iov0.len) } }
    if c1.iov0.len ≠ 0 then
      some { c1 with writeBuff_ := c1.writeBuff_.RetrieveAll, iov0 := { c1.iov0 with len := 0 } }
    else some c1
  else
    (c.writeBuff_.Retrieve len).map fun wb =>
      { c with iov0 := { base := c.iov0.base + len, len := szSub c.iov0.len len },
               writeBuff_ := wb }

/-- The bytes the two slots describe: slot 0 points into the write buffer,
slot 1 into the mapped file. -/
def slotBytes (c : HttpConn) : List Nat :=
  slice c.writeBuff_.buffer_ c.iov0.base c.iov0.len ++
    slice (c.response_.mmFile_.getD []) c.iov1.base c.iov1.len

/-- `init(fd, addr)` with the static `userCount` passed through; the
`assert(fd > 0)` failing is `none`. -/
def init (c : HttpConn) (userCount : Int) (fd : Int) : Option (HttpConn × Int) :=
  if fd > 0 then
    some ({ c with fd_ := fd, writeBuff_ := c.writeBuff_.RetrieveAll,
                   readBuff_ := c.readBuff_.RetrieveAll, isClose_ := false },
          wrapInt32 (userCount + 1))
  else none

/-- `Close()` with the static `userCount` passed through. -/
def Close (c : HttpConn) (userCount : Int) : HttpConn × Int :=
  let c1 : HttpConn := { c with response_ := { c.response_ with mmFile_ := none } }
  if c1.isClose_ = false then ({ c1 with isClose_ := true }, wrapInt32 (userCount - 1))
  else (c1, userCount)

end HttpConn

/-- The static `HttpConn::userCount` and a set of connections. -/
structure ConnTable where
  userCount : Int
  conns : List HttpConn
deriving DecidableEq, Repr

/-- A call of `init` or `Close` on the connection at position `i`. -/
inductive ConnCall where
  | init (i : Nat) (fd : Int)
  | close (i : Nat)
deriving DecidableEq, Repr

namespace ConnTable

/-- The table after a call; `none` when there is no such connection or an
`assert` fails. -/
def step (s : ConnTable) : ConnCall → Option ConnTable
  | .init i fd =>
    match s.conns[i]? with
    | none => none
    | some c => (c.init s.userCount fd).map fun r => { userCount := r.2, conns := s.conns.set i r.1 }
  | .close i =>
    match s.conns[i]? with
    | none => none
    | some c => some { userCount := (c.Close s.userCount).2, conns := s.conns.set i (c.Close s.userCount).1 }

/-- The table after a sequence of calls. -/
def run (s : ConnTable) : List ConnCall → Option ConnTable
  | [] => some s
  | call :: rest => (s.step call).bind fun s1 => run s1 rest

/-- The sequence applies `init` only to a connection that is closed at that
moment. -/
def InitOnClosed (s : ConnTable) : List ConnCall → Prop
  | [] => True
  | call :: rest =>
    (match call with
      | .init i _ => ((s.conns[i]?).map fun c => c.isClose_) = some true
      | .close _ => True) ∧
    match s.step call with
    | some s1 => InitOnClosed s1 rest
    | none => True

/-- The number of connections whose closed flag is `false`. -/
def openCount (s : ConnTable) : Nat := (s.conns.filter fun c => !c.isClose_).length

end ConnTable

/-! ## User verification (`HttpRequest::UserVerify`) and the SQL pool -/

/-- `SqlConnPool`: the queue of free connection handles. -/
structure SqlConnPool where
  connQue_ : List Nat
deriving DecidableEq, Repr

namespace SqlConnPool

/-- `GetConn()`: `nullptr` (`none`) when the queue is empty. -/
def GetConn (p : SqlConnPool) : Option Nat × SqlConnPool :=
  match p.connQue_ with
  | [] => (none, p)
  | conn :: rest => (some conn, { connQue_ := rest })

/-- `FreeConn(conn)`. -/
def FreeConn (p : SqlConnPool) (conn : Nat) : SqlConnPool := { connQue_ := p.connQue_ ++ [conn] }

end SqlConnPool

/-- The database as `UserVerify` sees it: the rows `(username, password)` the
SELECT statement yields (`none` when `mysql_query` fails), and whether the
INSERT statement succeeds, each depending on the statement text. -/
structure SqlWorld where
  select : Str → Option (List (Str × Str))
  insertOk : Str → Bool

namespace HttpRequest

/-- The bytes `%s` prints for `s.c_str()`: up to the first NUL. -/
def cstr (s : Str) : Str := s.takeWhile fun c => decide (c ≠ 0)

/-- `snprintf(order, 256, ...)`: at most 255 bytes are kept. -/
def snprintf256 (s : Str) : Str := s.take 255

/-- `UserVerify(name, pwd, isLogin)`: the returned flag and the pool afterwards;
`assert(sql)` failing is `none`.  `SqlConnRAII(&sql, ...)` is a temporary: it
takes a connection and its destructor returns it at the end of the statement. -/
def UserVerify (db : SqlWorld) (pool : SqlConnPool) (name pwd : Str) (isLogin : Bool) :
    Option (Bool × SqlConnPool) :=
  if name = [] ∨ pwd = [] then some (false, pool)
  else
    match pool.GetConn with
    | (none, _) => none
    | (some sql, p1) =>
      let p2 := p1.FreeConn sql
      let flag0 : Bool := if ¬ isLogin then true else false
      let order := snprintf256
        (bytes "SELECT username, password FROM user WHERE username='" ++ cstr name ++
          bytes "' LIMIT 1")
      match db.select order with
      | none => some (false, p2)
      | some rows =>
        let flag1 : Bool :=
          rows.foldl (fun _flag row => if isLogin then decide (pwd = row.2) else false) flag0
        let flag2 : Bool :=
          if ¬ isLogin ∧ flag1 = true then
            let order2 := snprintf256
              (bytes "INSERT INTO user(username, password) VALUES('" ++ cstr name ++
                bytes "','" ++ cstr pwd ++ bytes "')")
            let _afterError : Bool := if db.insertOk order2 then flag1 else false
            true
          else flag1
        some (flag2, p2.FreeConn sql)

end HttpRequest

/-! ## Well-formed requests -/

/-- The value of the last header line named `x`, if there is one. -/
def lastValue : List (Str × Str) → Str → Option Str
  | [], _ => none
  | h :: rest, x =>
    match lastValue rest x with
    | some v => some v
    | none => if h.1 = x then some h.2 else none

/-! ## Example inputs -/

/-- A buffer whose readable bytes are `s`, with no room left. -/
def Buffer.ofBytes (s : Str) : Buffer := { buffer_ := s, readPos_ := 0, writePos_ := s.length }

/-- A `UserVerify` that rejects every user. -/
def rejectAll : Str → Str → Bool → Bool := fun _ _ _ => false

/-- A file system in which the source root `/srv/resources/` is a directory that
holds a world-readable `404.html` of nine bytes and nothing else. -/
def rootWith404 : FileSys :=
  { stat := fun p =>
      if p = bytes "/srv/resources/" then some { isDir := true, otherRead := true, size := 4096 }
      else if p = bytes "/srv/resources//404.html" then
        some { isDir := false, otherRead := true, size := 9 }
      else none,
    canOpen := fun p => decide (p = bytes "/srv/resources//404.html"),
    mmap := fun p _ =>
      if p = bytes "/srv/resources//404.html" then some (bytes "not found") else none }

/-- A connection after construction whose read buffer holds `s`. -/
def HttpConn.withInput (s : Str) : HttpConn :=
  { iovCnt_ := 0, iov0 := { base := 0, len := 0 }, iov1 := { base := 0, len := 0 },
    readBuff_ := Buffer.ofBytes s, writeBuff_ := Buffer.mk0 1024,
    request_ := HttpRequest.Init
      { state_ := .REQUEST_LINE, method_ := [], path_ := [], version_ := [], body_ := [],
        header_ := [], post_ := [] },
    response_ := HttpResponse.new,
    fd_ := -1,
    isClose_ := true }

/-- A file system in which `/srv/www/index.html` is a world-readable regular
file holding `HELLO`, and nothing else exists. -/
def siteWithIndex : FileSys :=
  { stat := fun p =>
      if p = bytes "/srv/www/index.html" then some { isDir := false, otherRead := true, size := 5 }
      else none,
    canOpen := fun p => decide (p = bytes "/srv/www/index.html"),
    mmap := fun p _ => if p = bytes "/srv/www/index.html" then some (bytes "HELLO") else none }

/-- The call names a connection of a table of `n` connections and, for `init`,
a descriptor that passes `assert(fd > 0)`. -/
def ConnCall.InRange (n : Nat) : ConnCall → Prop
  | .init i fd => i < n ∧ 0 < fd
  | .close i => i < n

instance (n : Nat) (call : ConnCall) : Decidable (call.InRange n) := by
  cases call <;> unfold ConnCall.InRange <;> infer_instance

instance (s : ConnTable) (calls : List ConnCall) : Decidable (s.InitOnClosed calls) := by
  induction calls generalizing s with
  | nil => unfold ConnTable.InitOnClosed; infer_instance
  | cons call rest ih =>
    unfold ConnTable.InitOnClosed
    cases call with
    | init i fd =>
      cases h : s.step (.init i fd) with
      | none => simp only; infer_instance
      | some s1 => simp only; exact @instDecidableAnd _ _ _ (ih s1)
    | close i =>
      cases h : s.step (.close i) with
      | none => simp only; infer_instance
      | some s1 => simp only; exact @instDecidableAnd _ _ _ (ih s1)

/-- A table of `n` connections after construction, with `userCount = 0`. -/
def ConnTable.fresh (n : Nat) : ConnTable :=
  { userCount := 0, conns := List.replicate n (HttpConn.withInput []) }

/-- A connection ready to send a mapped file of `2^31` bytes whose response
head has already been sent: slot 0 is empty, slot 1 is the whole file. -/
def HttpConn.sendingLargeFile : HttpConn :=
  { HttpConn.withInput [] with
    iovCnt_ := 2,
    iov1 := { base := 0, len := 2147483648 },
    response_ :=
      { HttpResponse.new with
        code_ := 200, srcDir_ := bytes "/srv/www", path_ := bytes "/big.bin",
        mmFile_ := some (List.replicate 2147483648 0),
        mmFileStat_ := { isDir := false, otherRead := true, size := 2147483648 } },
    fd_ := 5,
    isClose_ := false }

/-- A connection about to send the 4 readable bytes of its write buffer
(slot 0) and a mapped file of 3 bytes (slot 1). -/
def HttpConn.sendingSmallFile : HttpConn :=
  { HttpConn.withInput [] with
    iovCnt_ := 2,
    iov0 := { base := 1, len := 4 },
    iov1 := { base := 0, len := 3 },
    writeBuff_ := { buffer_ := [0, 72, 69, 65, 68, 0, 0, 0], readPos_ := 1, writePos_ := 5 },
    response_ := { HttpResponse.new with mmFile_ := some [97, 98, 99] },
    fd_ := 5,
    isClose_ := false }

/-! ## Reference descriptions -/

/-- The path rewrite as described: `/` becomes `/index.html`, each of the six
default pages gets `.html` appended, every other path stays as it is. -/
def defaultPage (path : Str) : Str :=
  if path = bytes "/" then bytes "/index.html"
  else if path = bytes "/index" then bytes "/index.html"
  else if path = bytes "/register" then bytes "/register.html"
  else if path = bytes "/login" then bytes "/login.html"
  else if path = bytes "/welcome" then bytes "/welcome.html"
  else if path = bytes "/video" then bytes "/video.html"
  else if path = bytes "/picture" then bytes "/picture.html"
  else path

/-- The status selection as described, from the code given to `Init` and the
outcome of `stat`. -/
def selectedCode (c : Int) (st : Option FileStat) : Int :=
  match st with
  | none => 404
  | some f =>
    if f.isDir then 404
    else if f.otherRead = false then 403
    else if c = -1 then 200
    else c

/-- The code of the status line: a code without a reason phrase becomes 400. -/
def statusCode (c : Int) : Int :=
  if c = 200 ∨ c = 400 ∨ c = 403 ∨ c = 404 then c else 400

/-- The suffix of `p` that starts at its last `.`, if `p` has one. -/
def lastDotSuffix : Str → Option Str
  | [] => none
  | c :: rest =>
    match lastDotSuffix rest with
    | some s => some s
    | none => if c = 46 then some (c :: rest) else none

/-- The MIME type as described: the table entry of the suffix from the last `.`,
`text/plain` when there is no `.` or no entry. -/
def mimeOf (p : Str) : Str :=
  match lastDotSuffix p with
  | none => bytes "text/plain"
  | some suffix =>
    match HttpResponse.SUFFIX_TYPE.lookup suffix with
    | some t => t
    | none => bytes "text/plain"

/-- The head of a 200 response as described. -/
def responseHead (keepAlive : Bool) (p : Str) (size : Nat) : Str :=
  bytes "HTTP/1.1 200 OK\r\n" ++
  (if keepAlive then bytes "Connection: keep-alive\r\nkeep-alive: max=6, timeout=120\r\n"
   else bytes "Connection: close\r\n") ++
  (bytes "Content-type: " ++ mimeOf p ++ bytes "\r\n") ++
  (bytes "Content-length: " ++ HttpResponse.to_string size ++ bytes "\r\n\r\n")

/-- The form body `k1=v1&...&kn=vn`, given as the pairs closed by `&` and the
last pair. -/
def formBody : List (Str × Str) → Str × Str → Str
  | [], last => last.1 ++ 61 :: last.2
  | p :: rest, last => p.1 ++ 61 :: (p.2 ++ 38 :: formBody rest last)

/-- No byte of `s` is `=`, `&`, `+` or `%`. -/
def PlainText (s : Str) : Prop := ∀ c ∈ s, c ≠ 61 ∧ c ≠ 38 ∧ c ≠ 43 ∧ c ≠ 37

instance (s : Str) : Decidable (PlainText s) := by unfold PlainText; infer_instance

/-- The value the form scan keeps for the key `k`: the value of the last pair
with key `k` among the pairs closed by `&`; when there is none, the value of
the last pair if that has the key `k`; otherwise the empty string. -/
def formValue (init : List (Str × Str)) (last : Str × Str) (k : Str) : Str :=
  match lastValue init k with
  | some v => v
  | none => if last.1 = k then last.2 else []

/-! ## The write task (`HttpConn::write`, `WebServer::OnWrite_`) -/

/-- Outcome of one `writev` call: `-1` with its `errno`, or the number of bytes
sent (0 only when both slots are empty). -/
inductive WritevResult where
  | error (errno : Int)
  | wrote (n : Nat)
deriving DecidableEq, Repr

/-- What `OnWrite_` does with the connection after `write`: `OnProcess(client)`,
`ModFd(fd, connEvent_ | EPOLLOUT)`, or `CloseConn_(client)`. -/
inductive WriteAction where
  | process
  | rearmWrite
  | close
deriving DecidableEq, Repr

/-- The value of `EAGAIN`. -/
def EAGAIN : Int := 11

namespace HttpConn

/-- `write(saveErrno)`: the connection afterwards, the returned `len` and the
value stored through `saveErrno`, if any.  The list gives the outcomes of the
successive `writev` calls (it has to hold one for every call the loop makes);
`errno0` is the value of `errno` before the first call. -/
def write (isET : Bool) (errno0 : Int) : List WritevResult → HttpConn →
    Option (HttpConn × Int × Option Int)
  | [], _ => none
  | .error errno :: _, c => some (c, -1, some errno)
  | .wrote len :: rest, c =>
    if len = 0 then some (c, 0, some errno0)
    else if szAdd c.iov0.len c.iov1.len = 0 then some (c, len, none)
    else
      (c.writeStep len).bind fun c1 =>
        if isET ∨ c1.ToWriteBytes > 10240 then write isET errno0 rest c1
        else some (c1, len, none)

/-- `WebServer::OnWrite_(client)`: the connection after `write` and the action
taken.  `int ret` receives the `ssize_t` result, `writeErrno` starts at 0. -/
def OnWrite_ (isET : Bool) (errno0 : Int) (results : List WritevResult) (c : HttpConn) :
    Option (HttpConn × WriteAction) :=
  (c.write isET errno0 results).map fun r =>
    let ret : Int := wrapInt32 r.2.1
    let writeErrno : Int := r.2.2.getD 0
    if r.1.ToWriteBytes = 0 then
      if r.1.request_.IsKeepAlive then (r.1, WriteAction.process) else (r.1, WriteAction.close)
    else if ret < 0 then
      if writeErrno = EAGAIN then (r.1, WriteAction.rearmWrite) else (r.1, WriteAction.close)
    else (r.1, WriteAction.close)

/-- A connection about to send the 4 readable bytes of its write buffer
(slot 0) and a mapped file of 20000 bytes (slot 1). -/
def sendingFile20000 : HttpConn :=
  { HttpConn.withInput [] with
    iovCnt_ := 2,
    iov0 := { base := 1, len := 4 },
    iov1 := { base := 0, len := 20000 },
    writeBuff_ := { buffer_ := [0, 72, 69, 65, 68, 0, 0, 0], readPos_ := 1, writePos_ := 5 },
    response_ :=
      { HttpResponse.new with
        code_ := 200, srcDir_ := bytes "/srv/www", path_ := bytes "/big.bin",
        mmFile_ := some (List.replicate 20000 0),
        mmFileStat_ := { isDir := false, otherRead := true, size := 20000 } },
    fd_ := 5,
    isClose_ := false }

end HttpConn

/-! ## Log line assembly (`Log::write`, `code/log/log.cpp`) -/

namespace Log

/-- `snprintf(buff_.BeginWrite(), size, ...)` and `vsnprintf` for a formatted
text `text`: at most `size - 1` bytes of the text and a NUL are stored at the
write position, and the value returned is the length of the whole text.
Storing outside the region is `none`. -/
def snprintfAt (b : Buffer) (size : Nat) (text : Str) : Option (Buffer × Int) :=
  if size = 0 then some (b, HttpConn.wrapInt32 text.length)
  else
    if b.writePos_ + (text.take (size - 1) ++ [0]).length ≤ b.buffer_.length then
      some ({ b with buffer_ := writeAt b.buffer_ b.writePos_ (text.take (size - 1) ++ [0]) },
            HttpConn.wrapInt32 text.length)
    else none

/-- `AppendLogLevelTitle_(level)`. -/
def AppendLogLevelTitle_ (b : Buffer) (level : Int) : Option Buffer :=
  if level = 0 then b.Append (bytes "[debug]: ")
  else if level = 1 then b.Append (bytes "[info] : ")
  else if level = 2 then b.Append (bytes "[warn] : ")
  else if level = 3 then b.Append (bytes "[error]: ")
  else b.Append (bytes "[info] : ")

/-- The first part of the block of `write` that builds the line in `buff_`: the
time stamp (`stamp` is the formatted date and time), `HasWritten(n)`, and the
level title. -/
def beforeMessage (b : Buffer) (level : Int) (stamp : Str) : Option Buffer :=
  (snprintfAt b 128 stamp).bind fun r =>
    AppendLogLevelTitle_ (r.1.HasWritten (HeapTimer.sizeOfInt r.2)) level

/-- The call `vsnprintf(buff_.BeginWrite(), buff_.WritableBytes(), format, vaList)`,
with `msg` the formatted message: the buffer and the returned `m`. -/
def formatMessage (b : Buffer) (msg : Str) : Option (Buffer × Int) :=
  snprintfAt b b.WritableBytes msg

/-- The block of `write` that builds the line and hands it on: the line given to
the queue (`RetrieveAllToStr()`) or to `fputs` (the bytes from `Peek()` up to
the first NUL), and `buff_` after `RetrieveAll()`. -/
def write (b : Buffer) (level : Int) (stamp msg : Str) (isAsync : Bool) : Option (Str × Buffer) :=
  (beforeMessage b level stamp).bind fun b1 =>
    (formatMessage b1 msg).bind fun r =>
      ((r.1.HasWritten (HeapTimer.sizeOfInt r.2)).Append [10, 0]).bind fun b2 =>
        if isAsync then
          b2.RetrieveAllToStr.map fun s => (s.1, s.2.RetrieveAll)
        else
          some ((b2.buffer_.drop b2.readPos_).takeWhile (fun c => decide (c ≠ 0)), b2.RetrieveAll)

end Log

/-! ## Server connection map (`WebServer::AddClient_`, `WebServer::CloseConn_`) -/

/-- The connection after `HttpConn()`; `iovCnt_` and `iov_`, which the
constructor leaves unset, are taken as zero. -/
def HttpConn.new : HttpConn :=
  { iovCnt_ := 0, iov0 := { base := 0, len := 0 }, iov1 := { base := 0, len := 0 },
    readBuff_ := Buffer.mk0 1024, writeBuff_ := Buffer.mk0 1024,
    request_ := HttpRequest.Init
      { state_ := .REQUEST_LINE, method_ := [], path_ := [], version_ := [], body_ := [],
        header_ := [], post_ := [] },
    response_ := HttpResponse.new,
    fd_ := -1,
    isClose_ := true }

/-- `std::unordered_map<int, HttpConn>` as a list of entries with distinct keys. -/
abbrev ConnMap := List (Int × HttpConn)

namespace ConnMap

/-- `m.find(fd)`. -/
def find (m : ConnMap) (fd : Int) : Option HttpConn :=
  match m with
  | [] => none
  | (k, c) :: rest => if k = fd then some c else find rest fd

/-- Storing `c` in the element `m[fd]`, which is created when absent. -/
def assign (m : ConnMap) (fd : Int) (c : HttpConn) : ConnMap :=
  match find m fd with
  | some _ => m.map fun e => if e.1 = fd then (fd, c) else e
  | none => (fd, c) :: m

end ConnMap

/-- The members of `class WebServer` that `AddClient_` and `CloseConn_` change,
with the static `HttpConn::userCount`.  The calls of `epoller_` and
`SetFdNonblock` change none of them and are left out. -/
structure WebServer where
  timeoutMS_ : Int
  timer_ : HeapTimer
  users_ : ConnMap
  userCount : Int
deriving DecidableEq, Repr

/-- A call of `AddClient_(fd, addr)` (with the reading of `Clock::now()` inside
`timer_->add`) or of `CloseConn_(&users_[fd])`. -/
inductive ServerCall where
  | addClient (fd : Int) (now : Int)
  | closeConn (fd : Int)
deriving DecidableEq, Repr

namespace WebServer

/-- The server after its constructor, for a given idle timeout. -/
def start (timeoutMS : Int) : WebServer :=
  { timeoutMS_ := timeoutMS, timer_ := HeapTimer.empty, users_ := [], userCount := 0 }

/-- `AddClient_(fd, addr)`; the callback bound to `CloseConn_(&users_[fd])` is
labelled by `fd`. -/
def AddClient_ (w : WebServer) (fd : Int) (now : Int) : Option WebServer :=
  if fd > 0 then
    (((w.users_.find fd).getD HttpConn.new).init w.userCount fd).bind fun r =>
      (if w.timeoutMS_ > 0 then w.timer_.add now fd w.timeoutMS_ fd.toNat
       else some w.timer_).map fun t1 =>
        { w with users_ := w.users_.assign fd r.1, userCount := r.2, timer_ := t1 }
  else none

/-- `CloseConn_(client)` with `client` the element `users_[fd]` of the map. -/
def CloseConn_ (w : WebServer) (fd : Int) : Option WebServer :=
  match w.users_.find fd with
  | none => none
  | some c =>
    some { w with users_ := w.users_.assign fd (c.Close w.userCount).1,
                  userCount := (c.Close w.userCount).2 }

/-- The server after a call. -/
def step (w : WebServer) : ServerCall → Option WebServer
  | .addClient fd now => w.AddClient_ fd now
  | .closeConn fd => w.CloseConn_ fd

/-- The server after a sequence of calls. -/
def run (w : WebServer) : List ServerCall → Option WebServer
  | [] => some w
  | call :: rest => (w.step call).bind fun w1 => run w1 rest

end WebServer

/-! # Theorems -/

/-! ## Machine arithmetic and byte ranges -/

theorem szSub_of_le {a b : Nat} (h : b ≤ a) (ha : a < SIZE_MOD) : szSub a b = a - b := by
  unfold szSub SIZE_MOD at *
  omega

theorem szAdd_of_lt {a b : Nat} (h : a + b < SIZE_MOD) : szAdd a b = a + b := by
  unfold szAdd SIZE_MOD at *
  omega

theorem length_writeAt (l : List Nat) (pos : Nat) (src : List Nat)
    (h : pos + src.length ≤ l.length) : (writeAt l pos src).length = l.length := by
  simp [writeAt]
  omega

theorem length_slice (l : List Nat) (pos len : Nat) (h : pos + len ≤ l.length) :
    (slice l pos len).length = len := by
  simp [slice]
  omega

theorem length_resize (l : List Nat) (n : Nat) : (resize l n).length = n := by
  simp [resize]
  omega

theorem slice_writeAt_same (l : List Nat) (pos : Nat) (src : List Nat)
    (h : pos + src.length ≤ l.length) : slice (writeAt l pos src) pos src.length = src := by
  have hp : pos ≤ l.length := by omega
  simp [slice, writeAt, List.drop_append_eq_append_drop, List.length_take, Nat.min_eq_left hp]

theorem slice_writeAt_before (l : List Nat) (pos : Nat) (src : List Nat) (p n : Nat)
    (h : pos + src.length ≤ l.length) (hb : p + n ≤ pos) :
    slice (writeAt l pos src) p n = slice l p n := by
  have hp : pos ≤ l.length := by omega
  unfold slice writeAt
  rw [List.append_assoc, List.drop_append_of_le_length (by simp; omega),
    List.take_append_of_le_length (by simp; omega), List.drop_take]
  rw [List.take_take]
  congr 1
  omega

theorem slice_append (l : List Nat) (p n m : Nat) :
    slice l p (n + m) = slice l p n ++ slice l (p + n) m := by
  unfold slice
  rw [List.take_add, List.drop_drop]

theorem slice_resize (l : List Nat) (k p n : Nat) (h : p + n ≤ l.length) (hk : l.length ≤ k) :
    slice (resize l k) p n = slice l p n := by
  unfold slice resize
  rw [List.take_of_length_le hk, List.drop_append_of_le_length (by omega),
    List.take_append_of_le_length (by simp; omega)]

/-! ## Buffer -/

namespace Buffer

theorem MakeSpace_spec (b : Buffer) (len : Nat) (hinv : Inv b)
    (hcap : b.buffer_.length < SIZE_MOD) (hfit : b.writePos_ + len + 1 < SIZE_MOD) :
    ∃ b1, MakeSpace_ b len = some b1 ∧ Inv b1 ∧ b1.buffer_.length < SIZE_MOD ∧
      (WritableBytes b < len → len ≤ WritableBytes b1) ∧ readable b1 = readable b ∧
      b1.writePos_ ≤ b.writePos_ := by
  obtain ⟨h1, h2⟩ := hinv
  have hw : WritableBytes b = b.buffer_.length - b.writePos_ := szSub_of_le h2 hcap
  have hr : ReadableBytes b = b.writePos_ - b.readPos_ := szSub_of_le h1 (by omega)
  have hp : szAdd (PrependableBytes b) (WritableBytes b)
      = b.readPos_ + (b.buffer_.length - b.writePos_) := by
    rw [hw]; exact szAdd_of_lt (by unfold PrependableBytes; omega)
  unfold MakeSpace_
  rw [hp]
  by_cases hc : b.readPos_ + (b.buffer_.length - b.writePos_) < len
  · rw [if_pos hc]
    have hn : szAdd (szAdd b.writePos_ len) 1 = b.writePos_ + len + 1 := by
      have e1 : szAdd b.writePos_ len = b.writePos_ + len := szAdd_of_lt (by omega)
      rw [e1]
      exact szAdd_of_lt (by omega)
    refine ⟨_, rfl, ?_, ?_, ?_, ?_, ?_⟩
    · simp only [Inv, length_resize, hn]; omega
    · simp only [length_resize, hn]; omega
    · intro _
      simp only [WritableBytes, length_resize, hn]
      rw [szSub_of_le (by omega) (by omega)]; omega
    · simp only [readable, ReadableBytes]
      rw [hn]
      exact slice_resize _ _ _ _ (by rw [szSub_of_le h1 (by omega)]; omega) (by omega)
    · exact Nat.le_refl _
  · rw [if_neg hc]
    simp only []
    have hle : b.readPos_ + ReadableBytes b ≤ b.buffer_.length := by omega
    rw [if_pos hle]
    have hsl : (slice b.buffer_ b.readPos_ (ReadableBytes b)).length = ReadableBytes b :=
      length_slice _ _ _ hle
    have hlen : (writeAt b.buffer_ 0 (slice b.buffer_ b.readPos_ (ReadableBytes b))).length
        = b.buffer_.length := length_writeAt _ _ _ (by rw [hsl]; omega)
    refine ⟨_, rfl, ?_, ?_, ?_, ?_, ?_⟩
    · simp only [Inv, hlen]; omega
    · simp only [hlen]; exact hcap
    · intro _
      simp only [WritableBytes, hlen]
      rw [szSub_of_le (by omega) hcap]; omega
    · simp only [readable, ReadableBytes]
      rw [szSub_of_le (Nat.zero_le _) (by rw [szSub_of_le h1 (by omega)]; omega)]
      simp only [Nat.sub_zero]
      have := slice_writeAt_same b.buffer_ 0 (slice b.buffer_ b.readPos_ (szSub b.writePos_ b.readPos_))
        (by have := hsl; simp only [ReadableBytes] at this; rw [this]; simp only [ReadableBytes] at hle; omega)
      have hsl2 := hsl
      simp only [ReadableBytes] at hsl2
      rw [hsl2] at this
      exact this
    · simp only []; omega

theorem EnsureWriteable_spec (b : Buffer) (len : Nat) (hinv : Inv b)
    (hcap : b.buffer_.length < SIZE_MOD) (hfit : b.writePos_ + len + 1 < SIZE_MOD) :
    ∃ b1, EnsureWriteable b len = some b1 ∧ Inv b1 ∧ b1.buffer_.length < SIZE_MOD ∧
      len ≤ WritableBytes b1 ∧ readable b1 = readable b ∧ b1.writePos_ ≤ b.writePos_ := by
  unfold EnsureWriteable
  by_cases hc : len > WritableBytes b
  · obtain ⟨b1, he, hi, hcap1, hw, hr, hle⟩ := MakeSpace_spec b len hinv hcap hfit
    rw [if_pos hc, he]
    have hw1 := hw hc
    refine ⟨b1, ?_, hi, hcap1, hw1, hr, hle⟩
    simp only [Option.some_bind, ge_iff_le, hw1, if_true]
  · rw [if_neg hc]
    have hw1 : len ≤ WritableBytes b := by omega
    refine ⟨b, ?_, hinv, hcap, hw1, rfl, Nat.le_refl _⟩
    simp only [Option.some_bind, ge_iff_le, hw1, if_true]

theorem Append_spec (b : Buffer) (str : List Nat) (hinv : Inv b)
    (hcap : b.buffer_.length < SIZE_MOD) (hfit : b.writePos_ + str.length + 1 < SIZE_MOD) :
    ∃ b2, Append b str = some b2 ∧ Inv b2 ∧ b2.buffer_.length < SIZE_MOD ∧
      readable b2 = readable b ++ str := by
  obtain ⟨b1, he, ⟨h1, h2⟩, hcap1, hw, hr, hle⟩ :=
    EnsureWriteable_spec b str.length hinv hcap hfit
  have hwb : WritableBytes b1 = b1.buffer_.length - b1.writePos_ := szSub_of_le h2 hcap1
  have hroom : b1.writePos_ + str.length ≤ b1.buffer_.length := by omega
  have hlen : (writeAt b1.buffer_ b1.writePos_ str).length = b1.buffer_.length :=
    length_writeAt _ _ _ hroom
  have hadd : szAdd b1.writePos_ str.length = b1.writePos_ + str.length :=
    szAdd_of_lt (by omega)
  unfold Append
  rw [he]
  simp only [Option.some_bind, hroom, if_true]
  refine ⟨_, rfl, ?_, ?_, ?_⟩
  · simp only [Inv, HasWritten, hlen, hadd]; omega
  · simp only [HasWritten, hlen]; exact hcap1
  · rw [← hr]
    simp only [readable, ReadableBytes, HasWritten, hadd]
    rw [szSub_of_le (by omega) (by omega), szSub_of_le h1 (by omega)]
    have : b1.writePos_ + str.length - b1.readPos_ = (b1.writePos_ - b1.readPos_) + str.length := by
      omega
    rw [this, slice_append]
    have e1 : b1.readPos_ + (b1.writePos_ - b1.readPos_) = b1.writePos_ := by omega
    rw [e1, slice_writeAt_same _ _ _ hroom, slice_writeAt_before _ _ _ _ _ hroom (by omega)]

theorem readable_extend (b : Buffer) (src : List Nat) (hinv : Inv b)
    (hcap : b.buffer_.length < SIZE_MOD) (hroom : b.writePos_ + src.length ≤ b.buffer_.length) :
    readable { b with buffer_ := writeAt b.buffer_ b.writePos_ src,
                      writePos_ := b.writePos_ + src.length } = readable b ++ src := by
  obtain ⟨h1, h2⟩ := hinv
  simp only [readable, ReadableBytes]
  rw [szSub_of_le (by omega) (by omega), szSub_of_le h1 (by omega)]
  have : b.writePos_ + src.length - b.readPos_ = (b.writePos_ - b.readPos_) + src.length := by
    omega
  rw [this, slice_append]
  have e1 : b.readPos_ + (b.writePos_ - b.readPos_) = b.writePos_ := by omega
  rw [e1, slice_writeAt_same _ _ _ hroom, slice_writeAt_before _ _ _ _ _ hroom (by omega)]

theorem ReadableBytes_eq_length (b : Buffer) (hinv : Inv b) (hcap : b.buffer_.length < SIZE_MOD) :
    ReadableBytes b = (readable b).length := by
  obtain ⟨h1, h2⟩ := hinv
  have hr : ReadableBytes b = b.writePos_ - b.readPos_ := szSub_of_le h1 (by omega)
  rw [readable, length_slice _ _ _ (by omega)]

theorem RetrieveAllToStr_spec (b : Buffer) (hinv : Inv b) (hcap : b.buffer_.length < SIZE_MOD) :
    RetrieveAllToStr b = some (readable b, RetrieveAll b) ∧ Inv (RetrieveAll b) ∧
      (RetrieveAll b).buffer_.length < SIZE_MOD ∧ ReadableBytes (RetrieveAll b) = 0 := by
  obtain ⟨h1, h2⟩ := hinv
  have hr : ReadableBytes b = b.writePos_ - b.readPos_ := szSub_of_le h1 (by omega)
  refine ⟨?_, ?_, ?_, ?_⟩
  · unfold RetrieveAllToStr
    rw [if_pos (by omega)]
  · simp [Inv, RetrieveAll]
  · simp only [RetrieveAll, List.length_replicate]; exact hcap
  · simp [RetrieveAll, ReadableBytes, szSub, SIZE_MOD]

theorem Retrieve_spec (b : Buffer) (n : Nat) (hinv : Inv b) (hcap : b.buffer_.length < SIZE_MOD)
    (hn : n ≤ ReadableBytes b) :
    ∃ b1, Retrieve b n = some b1 ∧ Inv b1 ∧ b1.buffer_.length < SIZE_MOD ∧
      readable b1 = (readable b).drop n := by
  obtain ⟨h1, h2⟩ := hinv
  have hr : ReadableBytes b = b.writePos_ - b.readPos_ := szSub_of_le h1 (by omega)
  have hadd : szAdd b.readPos_ n = b.readPos_ + n := szAdd_of_lt (by omega)
  unfold Retrieve
  rw [if_pos hn]
  refine ⟨_, rfl, ?_, hcap, ?_⟩
  · simp only [Inv, hadd]; omega
  · simp only [readable, ReadableBytes, hadd]
    rw [szSub_of_le (by omega) (by omega), szSub_of_le h1 (by omega)]
    simp only [slice, List.drop_take, List.drop_drop]
    congr 1
    omega

theorem ReadFd_data_spec (b : Buffer) (d : List Nat) (hinv : Inv b)
    (hcap : b.buffer_.length < SIZE_MOD)
    (hd : d.length ≤ WritableBytes b + SPILL_SIZE)
    (hfit : b.buffer_.length + SPILL_SIZE + 1 < SIZE_MOD) :
    ∃ b2, ReadFd b (.data d) = some (b2, (d.length : Int), none) ∧ Inv b2 ∧
      b2.buffer_.length < SIZE_MOD ∧ readable b2 = readable b ++ d := by
  have hinv0 := hinv
  obtain ⟨h1, h2⟩ := hinv
  have hw : WritableBytes b = b.buffer_.length - b.writePos_ := szSub_of_le h2 hcap
  have hspill : SPILL_SIZE = 65535 := rfl
  unfold ReadFd
  simp only []
  rw [if_pos ⟨hd, by omega⟩]
  by_cases hc : d.length ≤ WritableBytes b
  · rw [if_pos hc, List.take_of_length_le hc]
    have hroom : b.writePos_ + d.length ≤ b.buffer_.length := by omega
    have hadd : szAdd b.writePos_ d.length = b.writePos_ + d.length := szAdd_of_lt (by omega)
    simp only [hadd]
    refine ⟨_, rfl, ?_, ?_, readable_extend b d hinv0 hcap hroom⟩
    · simp only [Inv, length_writeAt _ _ _ hroom]; omega
    · simp only [length_writeAt _ _ _ hroom]; exact hcap
  · rw [if_neg hc]
    have htl : (d.take (WritableBytes b)).length = WritableBytes b := by
      rw [List.length_take]; omega
    have hroom : b.writePos_ + (d.take (WritableBytes b)).length ≤ b.buffer_.length := by omega
    have hlen := length_writeAt b.buffer_ b.writePos_ (d.take (WritableBytes b)) hroom
    have hext := readable_extend b (d.take (WritableBytes b)) hinv0 hcap hroom
    have hwp : b.writePos_ + (d.take (WritableBytes b)).length = b.buffer_.length := by omega
    rw [hwp] at hext
    have hdl : (d.drop (WritableBytes b)).length ≤ SPILL_SIZE := by
      rw [List.length_drop]; omega
    obtain ⟨b2, he, hi2, hcap2, hr2⟩ :=
      Append_spec { b with buffer_ := writeAt b.buffer_ b.writePos_ (d.take (WritableBytes b)),
                           writePos_ := b.buffer_.length } (d.drop (WritableBytes b))
        (by simp only [Inv, hlen]; omega) (by simp only [hlen]; exact hcap)
        (by simp only []; omega)
    simp only [hlen]
    rw [he]
    refine ⟨b2, rfl, hi2, hcap2, ?_⟩
    rw [hr2, hext, List.append_assoc, List.take_append_drop]

/-- C5 (buffer round trip): on a buffer satisfying the invariant whose readable
content is `R`, `Append(X)` followed by `RetrieveAllToStr()` returns `R ++ X`
(which is `X` when nothing was readable) and leaves `ReadableBytes() == 0`,
for `X` of any length that fits a `size_t` together with the write cursor. -/
theorem append_retrieveAllToStr_roundtrip (b : Buffer) (X : List Nat) (hinv : Inv b)
    (hcap : b.buffer_.length < SIZE_MOD) (hfit : b.writePos_ + X.length + 1 < SIZE_MOD) :
    ∃ b1 b2, Append b X = some b1 ∧ RetrieveAllToStr b1 = some (readable b ++ X, b2) ∧
      ReadableBytes b2 = 0 ∧ (ReadableBytes b = 0 → readable b ++ X = X) := by
  obtain ⟨b1, he, hi, hc, hr⟩ := Append_spec b X hinv hcap hfit
  obtain ⟨hs, _, _, hz⟩ := RetrieveAllToStr_spec b1 hi hc
  refine ⟨b1, RetrieveAll b1, he, ?_, hz, ?_⟩
  · rw [hs, hr]
  · intro h0
    have hl := ReadableBytes_eq_length b hinv hcap
    rw [h0] at hl
    rw [List.eq_nil_of_length_eq_zero hl.symm, List.nil_append]

/-- Witness for C5: four bytes appended to a three-byte buffer holding one
unread byte. -/
theorem append_retrieveAllToStr_roundtrip_witness :
    ∃ b1 b2, Append { buffer_ := [1, 2, 3], readPos_ := 1, writePos_ := 2 } [7, 8, 9, 10] = some b1 ∧
      RetrieveAllToStr b1
        = some (readable { buffer_ := [1, 2, 3], readPos_ := 1, writePos_ := 2 } ++ [7, 8, 9, 10], b2) ∧
      ReadableBytes b2 = 0 ∧
      (ReadableBytes { buffer_ := [1, 2, 3], readPos_ := 1, writePos_ := 2 } = 0 →
        readable { buffer_ := [1, 2, 3], readPos_ := 1, writePos_ := 2 } ++ [7, 8, 9, 10]
          = [7, 8, 9, 10]) :=
  append_retrieveAllToStr_roundtrip { buffer_ := [1, 2, 3], readPos_ := 1, writePos_ := 2 }
    [7, 8, 9, 10] (by decide) (by decide) (by decide)

/-- C6 (scatter read): on a buffer satisfying the invariant with readable
content `R` and a writable tail of `w` bytes, a successful `readv` that
delivers `D` (at most `w + 65535` bytes, the first `min(|D|, w)` into the
tail, the rest into the spill array) makes `ReadFd` return `|D|` and the
readable content become `R ++ D`, whether `|D| ≤ w` or `|D| > w`. -/
theorem ReadFd_delivers_all (b : Buffer) (D : List Nat) (hinv : Inv b)
    (hcap : b.buffer_.length < SIZE_MOD)
    (hD : D.length ≤ WritableBytes b + SPILL_SIZE)
    (hfit : b.buffer_.length + SPILL_SIZE + 1 < SIZE_MOD) :
    ∃ b2, ReadFd b (.data D) = some (b2, (D.length : Int), none) ∧
      readable b2 = readable b ++ D := by
  obtain ⟨b2, he, _, _, hr⟩ := ReadFd_data_spec b D hinv hcap hD hfit
  exact ⟨b2, he, hr⟩

/-- Witness for C6: five bytes delivered to a buffer with a one-byte tail. -/
theorem ReadFd_delivers_all_witness :
    ∃ b2, ReadFd { buffer_ := [1, 2, 3], readPos_ := 1, writePos_ := 2 } (.data [7, 8, 9, 10, 11])
        = some (b2, (([7, 8, 9, 10, 11] : List Nat).length : Int), none) ∧
      readable b2
        = readable { buffer_ := [1, 2, 3], readPos_ := 1, writePos_ := 2 } ++ [7, 8, 9, 10, 11] :=
  ReadFd_delivers_all { buffer_ := [1, 2, 3], readPos_ := 1, writePos_ := 2 } [7, 8, 9, 10, 11]
    (by decide) (by decide) (by decide) (by decide)

/-- `Append` with the growth of the write position. -/
theorem Append_bound (b : Buffer) (str : List Nat) (hinv : Inv b)
    (hcap : b.buffer_.length < SIZE_MOD) (hfit : b.writePos_ + str.length + 1 < SIZE_MOD) :
    ∃ b2, AppendStr b str = some b2 ∧ Inv b2 ∧ b2.buffer_.length < SIZE_MOD ∧
      readable b2 = readable b ++ str ∧ b2.writePos_ ≤ b.writePos_ + str.length := by
  obtain ⟨b1, he, ⟨h1, h2⟩, hcap1, hw, hr, hle⟩ :=
    EnsureWriteable_spec b str.length hinv hcap hfit
  have hwb : WritableBytes b1 = b1.buffer_.length - b1.writePos_ := szSub_of_le h2 hcap1
  have hroom : b1.writePos_ + str.length ≤ b1.buffer_.length := by omega
  have hadd : szAdd b1.writePos_ str.length = b1.writePos_ + str.length :=
    szAdd_of_lt (by omega)
  obtain ⟨b2, ha, hi2, hc2, hr2⟩ := Append_spec b str hinv hcap hfit
  refine ⟨b2, ha, hi2, hc2, hr2, ?_⟩
  unfold Append at ha
  rw [he] at ha
  simp only [Option.some_bind, hroom, if_true] at ha
  have e := Option.some.inj ha
  rw [← e]
  simp only [HasWritten, hadd]
  omega

/-- Two appends in a row. -/
theorem Append_bound2 (b : Buffer) (s1 s2 : List Nat) (hinv : Inv b)
    (hcap : b.buffer_.length < SIZE_MOD)
    (hfit : b.writePos_ + (s1.length + s2.length) + 1 < SIZE_MOD) :
    ∃ b2, (AppendStr b s1).bind (fun b1 => AppendStr b1 s2) = some b2 ∧ Inv b2 ∧
      b2.buffer_.length < SIZE_MOD ∧
      readable b2 = readable b ++ (s1 ++ s2) ∧
      b2.writePos_ ≤ b.writePos_ + (s1.length + s2.length) := by
  obtain ⟨b1, h1, i1, c1, r1, w1⟩ := Append_bound b s1 hinv hcap (by omega)
  obtain ⟨b2, h2, i2, c2, r2, w2⟩ := Append_bound b1 s2 i1 c1 (by omega)
  refine ⟨b2, ?_, i2, c2, ?_, by omega⟩
  · rw [h1]; exact h2
  · rw [r2, r1, List.append_assoc]

end Buffer

/-! ## Timer heap -/

namespace RefMap

theorem find_erase (m : RefMap) (k x : Int) :
    find (erase m k) x = if k = x then none else find m x := by
  induction m with
  | nil => simp [erase, find]
  | cons e rest ih =>
    obtain ⟨k1, v⟩ := e
    unfold erase at ih ⊢
    by_cases h1 : k1 = k
    · subst h1
      simp only [List.filter_cons, ne_eq, not_true_eq_false, decide_False, Bool.false_eq_true,
        if_false]
      rw [ih]
      by_cases h2 : k1 = x
      · simp [h2]
      · simp [h2, find]
    · simp only [List.filter_cons, ne_eq, h1, not_false_eq_true, decide_True, if_true]
      simp only [find]
      rw [ih]
      by_cases h2 : k1 = x
      · have : ¬ k = x := by rw [← h2]; exact fun h => h1 h.symm
        simp [h2, this]
      · simp [h2]

theorem find_assign (m : RefMap) (k : Int) (v : Nat) (x : Int) :
    find (assign m k v) x = if k = x then some v else find m x := by
  unfold assign
  simp only [find]
  by_cases h : k = x
  · simp [h]
  · simp [h, find_erase]

theorem keys_erase_sublist (m : RefMap) (k : Int) :
    List.Sublist ((erase m k).map Prod.fst) (m.map Prod.fst) :=
  List.Sublist.map _ (List.filter_sublist m)

theorem not_mem_keys_erase (m : RefMap) (k : Int) : k ∉ (erase m k).map Prod.fst := by
  intro h
  obtain ⟨e, he, hk⟩ := List.mem_map.mp h
  unfold erase at he
  have := (List.mem_filter.mp he).2
  simp only [ne_eq, decide_not, Bool.not_eq_eq_eq_not, Bool.not_true, decide_eq_false_iff_not] at this
  exact this hk

theorem nodup_erase (m : RefMap) (k : Int) (h : (m.map Prod.fst).Nodup) :
    ((erase m k).map Prod.fst).Nodup :=
  List.Nodup.sublist (keys_erase_sublist m k) h

theorem nodup_assign (m : RefMap) (k : Int) (v : Nat) (h : (m.map Prod.fst).Nodup) :
    ((assign m k v).map Prod.fst).Nodup := by
  unfold assign
  rw [List.map_cons, List.nodup_cons]
  exact ⟨not_mem_keys_erase m k, nodup_erase m k h⟩

theorem mem_keys_iff (m : RefMap) (x : Int) :
    x ∈ m.map Prod.fst ↔ ∃ v, find m x = some v := by
  induction m with
  | nil => simp [find]
  | cons e rest ih =>
    obtain ⟨k1, v1⟩ := e
    rw [List.map_cons, List.mem_cons]
    simp only [find]
    by_cases h : k1 = x
    · simp [h]
    · rw [if_neg h, ← ih]
      constructor
      · rintro (h1 | h1)
        · exact absurd h1.symm h
        · exact h1
      · intro h1
        exact Or.inr h1

end RefMap

namespace HeapTimer

theorem szSub_one_div (i : Nat) (h1 : 1 ≤ i) (h : i < SIZE_MOD) : szSub i 1 / 2 = (i - 1) / 2 := by
  rw [szSub_of_le h1 h]

theorem szSub_zero_one_div : szSub 0 1 / 2 = 9223372036854775807 := by decide

theorem getElem?_swap (h : List TimerNode) (i j k : Nat) (ni nj : TimerNode)
    (hi : h[i]? = some ni) (hj : h[j]? = some nj) :
    ((h.set i nj).set j ni)[k]? = if k = j then some ni else if k = i then some nj else h[k]? := by
  have hil : i < h.length := by
    by_contra hc
    rw [List.getElem?_eq_none (by omega)] at hi
    exact Option.noConfusion hi
  have hjl : j < h.length := by
    by_contra hc
    rw [List.getElem?_eq_none (by omega)] at hj
    exact Option.noConfusion hj
  rw [List.getElem?_set, List.getElem?_set]
  simp only [List.length_set]
  by_cases hkj : k = j
  · subst hkj; simp [hjl]
  · by_cases hki : k = i
    · subst hki
      have : ¬ j = k := fun h => hkj h.symm
      simp [hil, this, hkj]
    · have h1 : ¬ j = k := fun h => hkj h.symm
      have h2 : ¬ i = k := fun h => hki h.symm
      simp [h1, h2, hkj, hki]

theorem expAt_swap (h : List TimerNode) (i j k : Nat) (ni nj : TimerNode)
    (hi : h[i]? = some ni) (hj : h[j]? = some nj) :
    expAt ((h.set i nj).set j ni) k =
      if k = j then expAt h i else if k = i then expAt h j else expAt h k := by
  unfold expAt
  rw [getElem?_swap h i j k ni nj hi hj]
  by_cases hkj : k = j
  · simp [hkj, hi]
  · by_cases hki : k = i
    · subst hki
      simp [hkj, hj]
    · simp [hkj, hki]

theorem SwapNode_eq (t t1 : HeapTimer) (i j : Nat) (h : SwapNode_ t i j = some t1) :
    ∃ ni nj, t.heap_[i]? = some ni ∧ t.heap_[j]? = some nj ∧
      t1.heap_ = (t.heap_.set i nj).set j ni ∧
      t1.ref_ = (t.ref_.assign nj.id i).assign ni.id j := by
  unfold SwapNode_ at h
  cases hi : t.heap_[i]? with
  | none => simp [hi] at h
  | some ni =>
    cases hj : t.heap_[j]? with
    | none => simp [hi, hj] at h
    | some nj =>
      simp only [hi, hj, Option.some.injEq] at h
      exact ⟨ni, nj, rfl, rfl, by rw [← h], by rw [← h]⟩



theorem getElem?_lt {α : Type} (h : List α) (i : Nat) (a : α) (hi : h[i]? = some a) :
    i < h.length := by
  by_contra hc
  rw [List.getElem?_eq_none (by omega)] at hi
  exact Option.noConfusion hi

theorem expAt_of_get (h : List TimerNode) (i : Nat) (a : TimerNode) (hi : h[i]? = some a) :
    expAt h i = a.expires := by
  simp [expAt, hi]

theorem siftupLoop_induct (P : HeapTimer → Nat → Prop) (Q : HeapTimer → Prop)
    (hbreak : ∀ t i nj ni, P t i → t.heap_[szSub i 1 / 2]? = some nj → t.heap_[i]? = some ni →
      nj.expires < ni.expires → Q t)
    (hstep : ∀ t i nj ni t1, P t i → t.heap_[szSub i 1 / 2]? = some nj →
      t.heap_[i]? = some ni → ¬ nj.expires < ni.expires →
      SwapNode_ t i (szSub i 1 / 2) = some t1 → P t1 (szSub i 1 / 2)) :
    ∀ fuel t i t1, P t i → siftupLoop fuel t i = some t1 → Q t1 := by
  intro fuel
  induction fuel with
  | zero => intro t i t1 _ h; simp [siftupLoop] at h
  | succ fuel ih =>
    intro t i t1 hP h
    unfold siftupLoop at h
    simp only [] at h
    cases hj : t.heap_[szSub i 1 / 2]? with
    | none => simp [hj] at h
    | some nj =>
      cases hi : t.heap_[i]? with
      | none => simp [hj, hi] at h
      | some ni =>
        simp only [hj, hi] at h
        by_cases hlt : nj.expires < ni.expires
        · rw [if_pos hlt] at h
          cases h
          exact hbreak t i nj ni hP hj hi hlt
        · rw [if_neg hlt] at h
          cases hs : SwapNode_ t i (szSub i 1 / 2) with
          | none => simp [hs] at h
          | some t2 =>
            simp only [hs, Option.some_bind] at h
            exact ih t2 _ t1 (hstep t i nj ni t2 hP hj hi hlt hs) h

theorem parent_facts (t : HeapTimer) (i : Nat) (nj : TimerNode)
    (hlen : t.heap_.length ≤ HEAP_MAX) (hi : i < t.heap_.length)
    (hj : t.heap_[szSub i 1 / 2]? = some nj) :
    1 ≤ i ∧ szSub i 1 / 2 = (i - 1) / 2 := by
  have hjl := getElem?_lt _ _ _ hj
  have hm : HEAP_MAX = 9223372036854775807 := rfl
  have hs : SIZE_MOD = 18446744073709551616 := rfl
  by_cases h0 : i = 0
  · subst h0
    rw [szSub_zero_one_div] at hjl
    omega
  · exact ⟨by omega, szSub_one_div i (by omega) (by omega)⟩

theorem siftupLoop_order (n : Nat) (fuel : Nat) (t : HeapTimer) (i : Nat) (t1 : HeapTimer)
    (hi : i < n) (hn : n ≤ t.heap_.length) (hlen : t.heap_.length ≤ HEAP_MAX)
    (hU : UpInv t.heap_ i n) (h : siftupLoop fuel t i = some t1) :
    MinHeapUpTo t1.heap_ n := by
  refine siftupLoop_induct
    (fun t i => i < n ∧ n ≤ t.heap_.length ∧ t.heap_.length ≤ HEAP_MAX ∧ UpInv t.heap_ i n)
    (fun t => MinHeapUpTo t.heap_ n) ?_ ?_ fuel t i t1 ⟨hi, hn, hlen, hU⟩ h
  · rintro t i nj ni ⟨hi, hn, hlen, hU1, hU2⟩ hj hii hlt
    obtain ⟨h1, hp⟩ := parent_facts t i nj hlen (by omega) hj
    rw [hp] at hj
    intro k hk hk1
    by_cases hki : k = i
    · subst hki
      rw [expAt_of_get _ _ _ hj, expAt_of_get _ _ _ hii]
      omega
    · exact hU1 k hk hk1 hki
  · rintro t i nj ni t1 ⟨hi, hn, hlen, hU1, hU2⟩ hj hii hlt hs
    obtain ⟨h1, hp⟩ := parent_facts t i nj hlen (by omega) hj
    rw [hp] at hj hs ⊢
    obtain ⟨ni', nj', hi', hj', hheap, _⟩ := SwapNode_eq _ _ _ _ hs
    rw [hii] at hi'; cases hi'
    rw [hj] at hj'; cases hj'
    have hle : expAt t.heap_ i ≤ expAt t.heap_ ((i - 1) / 2) := by
      rw [expAt_of_get _ _ _ hj, expAt_of_get _ _ _ hii]; omega
    have hex := fun k => expAt_swap t.heap_ i ((i - 1) / 2) k ni nj hii hj
    have hl1 : t1.heap_.length = t.heap_.length := by rw [hheap]; simp
    refine ⟨by omega, by omega, by omega, ?_, ?_⟩
    · intro k hk hk1 hkj
      rw [hheap, hex k, hex ((k - 1) / 2)]
      rw [if_neg hkj]
      by_cases hki : k = i
      · have hpk : (k - 1) / 2 = (i - 1) / 2 := by rw [hki]
        rw [if_pos hpk, if_pos hki]
        exact hle
      · rw [if_neg hki]
        have hk' := hU1 k hk hk1 hki
        by_cases hpj : (k - 1) / 2 = (i - 1) / 2
        · rw [if_pos hpj]
          rw [hpj] at hk'
          omega
        · rw [if_neg hpj]
          by_cases hpi : (k - 1) / 2 = i
          · rw [if_pos hpi]
            exact hU2 k hk hk1 hpi h1
          · rw [if_neg hpi]
            exact hk'
    · intro k hk hk1 hpk hj1
      rw [hheap, hex k, hex (((i - 1) / 2 - 1) / 2)]
      rw [if_neg (by omega), if_neg (by omega), if_neg (by omega)]
      have hjj := hU1 ((i - 1) / 2) (by omega) hj1 (by omega)
      by_cases hki : k = i
      · rw [if_pos hki]
        exact hjj
      · rw [if_neg hki]
        have hk' := hU1 k hk hk1 hki
        rw [hpk] at hk'
        omega

theorem swap_perm (h : List TimerNode) (i j : Nat) (ni nj : TimerNode)
    (hi : h[i]? = some ni) (hj : h[j]? = some nj) :
    List.Perm ((h.set i nj).set j ni) h := by
  have hil : i < h.length := by
    by_contra hc
    rw [List.getElem?_eq_none (by omega)] at hi
    exact Option.noConfusion hi
  have hjl : j < h.length := by
    by_contra hc
    rw [List.getElem?_eq_none (by omega)] at hj
    exact Option.noConfusion hj
  have hi' : h[i] = ni := by
    rw [List.getElem?_eq_getElem hil] at hi; exact Option.some.inj hi
  have hj' : h[j] = nj := by
    rw [List.getElem?_eq_getElem hjl] at hj; exact Option.some.inj hj
  rw [List.perm_iff_count]
  intro b
  rw [List.count_set _ _ _ _ (by simp; exact hjl), List.count_set _ _ _ _ hil]
  have hmem : ni ∈ h := by rw [← hi']; exact List.getElem_mem _
  have hc : (if ni == b then 1 else 0) ≤ List.count b h := by
    by_cases hb : ni = b
    · subst hb
      simp only [beq_self_eq_true, if_true]
      exact List.count_pos_iff.mpr hmem
    · have : (ni == b) = false := by simpa using hb
      simp [this]
  have hjl2 : j < (h.set i nj).length := by simp; exact hjl
  have hsj : (h.set i nj)[j] = nj := by
    rw [List.getElem_set]
    split
    · rfl
    · exact hj'
  rw [hsj, hi']
  omega

/-- The index computed by `child = parent * 2 + 1` on `size_t`. -/
theorem child_eq (p : Nat) (hp : p < HEAP_MAX) : szAdd ((p * 2) % SIZE_MOD) 1 = 2 * p + 1 := by
  unfold szAdd SIZE_MOD
  unfold HEAP_MAX at hp
  omega

theorem pickChild_spec (t : HeapTimer) (child n c : Nat) (nc : TimerNode)
    (hc : child + 1 < SIZE_MOD) (h : pickChild t child n = some (c, nc)) :
    t.heap_[c]? = some nc ∧ (c = child ∨ (c = child + 1 ∧ child + 1 < n)) ∧
      expAt t.heap_ c ≤ expAt t.heap_ child ∧
      (child + 1 < n → expAt t.heap_ c ≤ expAt t.heap_ (child + 1)) := by
  have hadd : szAdd child 1 = child + 1 := szAdd_of_lt hc
  unfold pickChild at h
  rw [hadd] at h
  cases hl : t.heap_[child]? with
  | none => simp [hl] at h
  | some nl =>
    simp only [hl] at h
    by_cases hn : child + 1 < n
    · rw [if_pos hn] at h
      cases hr : t.heap_[child + 1]? with
      | none => simp [hr] at h
      | some nr =>
        simp only [hr] at h
        by_cases hlt : nr.expires < nl.expires
        · rw [if_pos hlt] at h
          simp only [Option.some.injEq, Prod.mk.injEq] at h
          obtain ⟨h1, h2⟩ := h
          subst h1; subst h2
          refine ⟨hr, Or.inr ⟨rfl, hn⟩, ?_, fun _ => Int.le_refl _⟩
          rw [expAt_of_get _ _ _ hr, expAt_of_get _ _ _ hl]; omega
        · rw [if_neg hlt] at h
          simp only [Option.some.injEq, Prod.mk.injEq] at h
          obtain ⟨h1, h2⟩ := h
          subst h1; subst h2
          refine ⟨hl, Or.inl rfl, Int.le_refl _, fun _ => ?_⟩
          rw [expAt_of_get _ _ _ hr, expAt_of_get _ _ _ hl]; omega
    · rw [if_neg hn] at h
      simp only [Option.some.injEq, Prod.mk.injEq] at h
      obtain ⟨h1, h2⟩ := h
      subst h1; subst h2
      exact ⟨hl, Or.inl rfl, Int.le_refl _, fun h' => absurd h' hn⟩

theorem siftdownLoop_induct (n : Nat) (P Q : HeapTimer → Nat → Prop)
    (hdone : ∀ t p, P t p → ¬ szAdd ((p * 2) % SIZE_MOD) 1 < n → Q t p)
    (hbreak : ∀ t p c nc np, P t p → szAdd ((p * 2) % SIZE_MOD) 1 < n →
      pickChild t (szAdd ((p * 2) % SIZE_MOD) 1) n = some (c, nc) → t.heap_[p]? = some np →
      np.expires < nc.expires → Q t p)
    (hstep : ∀ t p c nc np t1, P t p → szAdd ((p * 2) % SIZE_MOD) 1 < n →
      pickChild t (szAdd ((p * 2) % SIZE_MOD) 1) n = some (c, nc) → t.heap_[p]? = some np →
      ¬ np.expires < nc.expires → SwapNode_ t p c = some t1 → P t1 c) :
    ∀ fuel t p r, P t p → siftdownLoop fuel t p n = some r → Q r.1 r.2 := by
  intro fuel
  induction fuel with
  | zero => intro t p r _ h; simp [siftdownLoop] at h
  | succ fuel ih =>
    intro t p r hP h
    unfold siftdownLoop at h
    simp only [] at h
    by_cases hc : szAdd ((p * 2) % SIZE_MOD) 1 < n
    · rw [if_pos hc] at h
      cases hpk : pickChild t (szAdd ((p * 2) % SIZE_MOD) 1) n with
      | none => simp [hpk] at h
      | some cn =>
        obtain ⟨c, nc⟩ := cn
        cases hp : t.heap_[p]? with
        | none => simp [hpk, hp] at h
        | some np =>
          simp only [hpk, hp] at h
          by_cases hlt : np.expires < nc.expires
          · rw [if_pos hlt] at h
            cases h
            exact hbreak t p c nc np hP hc hpk hp hlt
          · rw [if_neg hlt] at h
            cases hs : SwapNode_ t p c with
            | none => simp [hs] at h
            | some t2 =>
              simp only [hs, Option.some_bind] at h
              exact ih t2 c r (hstep t p c nc np t2 hP hc hpk hp hlt hs) h
    · rw [if_neg hc] at h
      cases h
      exact hdone t p hP hc

theorem siftdownLoop_order (n fuel : Nat) (t : HeapTimer) (p : Nat) (r : HeapTimer × Nat)
    (hp : p < n) (hn : n ≤ t.heap_.length) (hlen : t.heap_.length ≤ HEAP_MAX)
    (hD : DownInv t.heap_ p n) (h : siftdownLoop fuel t p n = some r) :
    MinHeapUpTo r.1.heap_ n := by
  have hm : HEAP_MAX = 9223372036854775807 := rfl
  have hsz : SIZE_MOD = 18446744073709551616 := rfl
  refine siftdownLoop_induct n
    (fun t p => p < n ∧ n ≤ t.heap_.length ∧ t.heap_.length ≤ HEAP_MAX ∧ DownInv t.heap_ p n)
    (fun t _ => MinHeapUpTo t.heap_ n) ?_ ?_ ?_ fuel t p r ⟨hp, hn, hlen, hD⟩ h
  · rintro t p ⟨hp, hn, hlen, hD1, hD2⟩ hc
    rw [child_eq p (by omega)] at hc
    intro k hk hk1
    exact hD1 k hk hk1 (by omega)
  · rintro t p c nc np ⟨hp, hn, hlen, hD1, hD2⟩ hc hpk hpp hlt
    rw [child_eq p (by omega)] at hc hpk
    obtain ⟨hcc, hcase, hm1, hm2⟩ := pickChild_spec t _ n c nc (by omega) hpk
    have hpc : expAt t.heap_ p < expAt t.heap_ c := by
      rw [expAt_of_get _ _ _ hpp, expAt_of_get _ _ _ hcc]; exact hlt
    intro k hk hk1
    by_cases hkp : (k - 1) / 2 = p
    · rw [hkp]
      have hk2 : k = 2 * p + 1 ∨ k = 2 * p + 1 + 1 := by omega
      rcases hk2 with hk2 | hk2
      · rw [hk2]; omega
      · rw [hk2]; have := hm2 (by omega); omega
    · exact hD1 k hk hk1 hkp
  · rintro t p c nc np t1 ⟨hp, hn, hlen, hD1, hD2⟩ hc hpk hpp hlt hs
    rw [child_eq p (by omega)] at hc hpk
    obtain ⟨hcc, hcase, hm1, hm2⟩ := pickChild_spec t _ n c nc (by omega) hpk
    have hcp : expAt t.heap_ c ≤ expAt t.heap_ p := by
      rw [expAt_of_get _ _ _ hpp, expAt_of_get _ _ _ hcc]; omega
    obtain ⟨np', nc', hp', hc', hheap, _⟩ := SwapNode_eq _ _ _ _ hs
    rw [hpp] at hp'; cases hp'
    rw [hcc] at hc'; cases hc'
    have hex := fun k => expAt_swap t.heap_ p c k np nc hpp hcc
    have hl1 : t1.heap_.length = t.heap_.length := by rw [hheap]; simp
    have hcn : c < n := by omega
    have hcpar : (c - 1) / 2 = p := by omega
    refine ⟨hcn, by omega, by omega, ?_, ?_⟩
    · intro k hk hk1 hkc
      rw [hheap, hex k, hex ((k - 1) / 2), if_neg hkc]
      by_cases hkeqc : k = c
      · have : (k - 1) / 2 = p := by rw [hkeqc]; exact hcpar
        rw [if_pos hkeqc, if_pos this]
        exact hcp
      · rw [if_neg hkeqc]
        by_cases hkp : k = p
        · rw [if_pos hkp]
          have h1p : 1 ≤ p := by omega
          have hne : ¬ (k - 1) / 2 = p := by omega
          rw [if_neg hne]
          have := hD2 c hcn (by omega) hcpar h1p
          rw [hkp]
          exact this
        · rw [if_neg hkp]
          by_cases hpkp : (k - 1) / 2 = p
          · rw [if_pos hpkp]
            have hk2 : k = 2 * p + 1 ∨ k = 2 * p + 1 + 1 := by omega
            rcases hk2 with hk2 | hk2
            · rw [hk2]; exact hm1
            · rw [hk2]; exact hm2 (by omega)
          · rw [if_neg hpkp]
            exact hD1 k hk hk1 hpkp
    · intro k hk hk1 hpk' hc1
      rw [hheap, hex k, hex ((c - 1) / 2)]
      rw [if_neg (by omega), if_pos hcpar, if_neg (by omega), if_neg (by omega)]
      have := hD1 k hk hk1 (by omega)
      rw [hpk'] at this
      exact this

theorem SwapNode_index (t t1 : HeapTimer) (i j : Nat) (hI : IndexInv t)
    (hs : SwapNode_ t i j = some t1) : IndexInv t1 := by
  obtain ⟨ni, nj, hi, hj, hheap, href⟩ := SwapNode_eq _ _ _ _ hs
  obtain ⟨h1, h2, h3⟩ := hI
  have hget := fun k => getElem?_swap t.heap_ i j k ni nj hi hj
  have hfind : ∀ x, t1.ref_.find x =
      if ni.id = x then some j else if nj.id = x then some i else t.ref_.find x := by
    intro x
    rw [href, RefMap.find_assign, RefMap.find_assign]
  have hni := h1 i ni hi
  have hnj := h1 j nj hj
  refine ⟨?_, ?_, ?_⟩
  · intro k node hk
    rw [hheap, hget k] at hk
    rw [hfind]
    by_cases hkj : k = j
    · rw [if_pos hkj] at hk
      have hnode : ni = node := Option.some.inj hk
      rw [← hnode, if_pos rfl, hkj]
    · rw [if_neg hkj] at hk
      by_cases hki : k = i
      · rw [if_pos hki] at hk
        have hnode : nj = node := Option.some.inj hk
        rw [← hnode]
        have hne : ¬ ni.id = nj.id := by
          intro he
          rw [he] at hni
          rw [hni] at hnj
          have hij : i = j := Option.some.inj hnj
          exact hkj (hki.trans hij)
        rw [if_neg hne, if_pos rfl, hki]
      · rw [if_neg hki] at hk
        have hk' := h1 k node hk
        have hne1 : ¬ ni.id = node.id := by
          intro he
          rw [he] at hni
          rw [hni] at hk'
          exact hki (Option.some.inj hk').symm
        have hne2 : ¬ nj.id = node.id := by
          intro he
          rw [he] at hnj
          rw [hnj] at hk'
          exact hkj (Option.some.inj hk').symm
        rw [if_neg hne1, if_neg hne2]
        exact hk'
  · intro x v hx
    rw [hfind] at hx
    rw [hheap]
    by_cases hxi : ni.id = x
    · rw [if_pos hxi] at hx
      have hv : j = v := Option.some.inj hx
      exact ⟨ni, by rw [hget, ← hv]; simp, hxi⟩
    · rw [if_neg hxi] at hx
      by_cases hxj : nj.id = x
      · rw [if_pos hxj] at hx
        have hv : i = v := Option.some.inj hx
        have hij : ¬ v = j := by
          intro he
          rw [← hv] at he
          rw [he] at hi
          rw [hi] at hj
          have hnn : ni = nj := Option.some.inj hj
          rw [hnn] at hxi
          exact hxi hxj
        exact ⟨nj, by rw [hget, if_neg hij, if_pos hv.symm], hxj⟩
      · rw [if_neg hxj] at hx
        obtain ⟨node, hn1, hn2⟩ := h2 x v hx
        have hvi : ¬ v = i := by
          intro he
          rw [he, hi] at hn1
          have hnn : ni = node := Option.some.inj hn1
          rw [hnn] at hxi
          exact hxi hn2
        have hvj : ¬ v = j := by
          intro he
          rw [he, hj] at hn1
          have hnn : nj = node := Option.some.inj hn1
          rw [hnn] at hxj
          exact hxj hn2
        exact ⟨node, by rw [hget, if_neg hvj, if_neg hvi]; exact hn1, hn2⟩
  · rw [href]
    exact RefMap.nodup_assign _ _ _ (RefMap.nodup_assign _ _ _ h3)

theorem SwapNode_frame (h0 : List TimerNode) (n : Nat) (t t1 : HeapTimer) (i j : Nat)
    (hi : i < n) (hj : j < n) (hF : Frame h0 n t) (hs : SwapNode_ t i j = some t1) :
    Frame h0 n t1 := by
  obtain ⟨hl, hk, hp⟩ := hF
  obtain ⟨ni, nj, hgi, hgj, hheap, _⟩ := SwapNode_eq _ _ _ _ hs
  refine ⟨?_, ?_, ?_⟩
  · rw [hheap]; simp [hl]
  · intro k hnk
    rw [hheap, getElem?_swap _ _ _ _ _ _ hgi hgj, if_neg (by omega), if_neg (by omega)]
    exact hk k hnk
  · rw [hheap]
    exact (swap_perm _ _ _ _ _ hgi hgj).trans hp

theorem siftupLoop_frame (n fuel : Nat) (t : HeapTimer) (i : Nat) (t1 : HeapTimer)
    (h0 : List TimerNode) (hi : i < n) (hlen : t.heap_.length ≤ HEAP_MAX)
    (hF : Frame h0 n t) (h : siftupLoop fuel t i = some t1) : Frame h0 n t1 := by
  refine siftupLoop_induct
    (fun t i => i < n ∧ t.heap_.length ≤ HEAP_MAX ∧ Frame h0 n t)
    (fun t => Frame h0 n t) ?_ ?_ fuel t i t1 ⟨hi, hlen, hF⟩ h
  · rintro t i nj ni ⟨_, _, hF⟩ _ _ _
    exact hF
  · rintro t i nj ni t1 ⟨hi, hlen, hF⟩ hj hii hlt hs
    obtain ⟨h1, hp⟩ := parent_facts t i nj hlen (getElem?_lt _ _ _ hii) hj
    have hF1 := SwapNode_frame h0 n t t1 i _ hi (by rw [hp]; omega) hF hs
    refine ⟨by rw [hp]; omega, ?_, hF1⟩
    rw [hF1.1, ← hF.1]; exact hlen

theorem siftupLoop_index (fuel : Nat) (t : HeapTimer) (i : Nat) (t1 : HeapTimer)
    (hI : IndexInv t) (h : siftupLoop fuel t i = some t1) : IndexInv t1 := by
  refine siftupLoop_induct (fun t _ => IndexInv t) (fun t => IndexInv t) ?_ ?_ fuel t i t1 hI h
  · intro t i nj ni hI _ _ _
    exact hI
  · intro t i nj ni t1 hI _ _ _ hs
    exact SwapNode_index t t1 _ _ hI hs

theorem siftdownLoop_frame (n fuel : Nat) (t : HeapTimer) (p : Nat) (r : HeapTimer × Nat)
    (h0 : List TimerNode) (hp : p < n) (hlen : t.heap_.length ≤ HEAP_MAX)
    (hn : n ≤ t.heap_.length)
    (hF : Frame h0 n t) (h : siftdownLoop fuel t p n = some r) :
    Frame h0 n r.1 ∧ p ≤ r.2 := by
  have hm : HEAP_MAX = 9223372036854775807 := rfl
  refine siftdownLoop_induct n
    (fun t q => p ≤ q ∧ q < n ∧ n ≤ t.heap_.length ∧ t.heap_.length ≤ HEAP_MAX ∧ Frame h0 n t)
    (fun t q => Frame h0 n t ∧ p ≤ q) ?_ ?_ ?_ fuel t p r ⟨Nat.le_refl _, hp, hn, hlen, hF⟩ h
  · rintro t q ⟨hpq, _, _, _, hF⟩ _
    exact ⟨hF, hpq⟩
  · rintro t q c nc np ⟨hpq, _, _, _, hF⟩ _ _ _ _
    exact ⟨hF, hpq⟩
  · rintro t q c nc np t1 ⟨hpq, hq, hn, hlen, hF⟩ hc hpk hpp hlt hs
    rw [child_eq q (by omega)] at hc hpk
    obtain ⟨hcc, hcase, hm1, hm2⟩ := pickChild_spec t _ n c nc (by unfold SIZE_MOD; omega) hpk
    have hcn : c < n := by omega
    have hF1 := SwapNode_frame h0 n t t1 q c hq hcn hF hs
    refine ⟨by omega, hcn, ?_, ?_, hF1⟩
    · rw [hF1.1, ← hF.1]; exact hn
    · rw [hF1.1, ← hF.1]; exact hlen

theorem siftdownLoop_index (n fuel : Nat) (t : HeapTimer) (p : Nat) (r : HeapTimer × Nat)
    (hI : IndexInv t) (h : siftdownLoop fuel t p n = some r) : IndexInv r.1 := by
  refine siftdownLoop_induct n (fun t _ => IndexInv t) (fun t _ => IndexInv t) ?_ ?_ ?_
    fuel t p r hI h
  · intro t p hI _
    exact hI
  · intro t p c nc np hI _ _ _ _
    exact hI
  · intro t p c nc np t1 hI _ _ _ _ hs
    exact SwapNode_index t t1 _ _ hI hs

theorem Frame_refl (t : HeapTimer) (n : Nat) : Frame t.heap_ n t :=
  ⟨rfl, fun _ _ => rfl, List.Perm.refl _⟩

theorem siftup_spec (n : Nat) (t : HeapTimer) (i : Nat) (t1 : HeapTimer) (h0 : List TimerNode)
    (hi : i < n) (hn : n ≤ t.heap_.length) (hlen : t.heap_.length ≤ HEAP_MAX)
    (hU : UpInv t.heap_ i n) (hF : Frame h0 n t) (h : siftup_ t i = some t1) :
    MinHeapUpTo t1.heap_ n ∧ Frame h0 n t1 := by
  unfold siftup_ at h
  rw [if_pos (by omega)] at h
  exact ⟨siftupLoop_order n _ t i t1 hi hn hlen hU h, siftupLoop_frame n _ t i t1 h0 hi hlen hF h⟩

theorem siftup_index (t : HeapTimer) (i : Nat) (t1 : HeapTimer) (hI : IndexInv t)
    (h : siftup_ t i = some t1) : IndexInv t1 := by
  unfold siftup_ at h
  by_cases hi : i < t.heap_.length
  · rw [if_pos hi] at h
    exact siftupLoop_index _ t i t1 hI h
  · rw [if_neg hi] at h
    exact Option.noConfusion h

theorem siftdown_spec (n : Nat) (t : HeapTimer) (i : Nat) (r : HeapTimer × Bool)
    (h0 : List TimerNode)
    (hi : i < n) (hn : n ≤ t.heap_.length) (hlen : t.heap_.length ≤ HEAP_MAX)
    (hD : DownInv t.heap_ i n) (hF : Frame h0 n t) (h : siftdown_ t i n = some r) :
    MinHeapUpTo r.1.heap_ n ∧ Frame h0 n r.1 := by
  unfold siftdown_ at h
  rw [if_pos (by omega)] at h
  cases hl : siftdownLoop (n + 1) t i n with
  | none => simp [hl] at h
  | some r1 =>
    simp only [hl, Option.map_some', Option.some.injEq] at h
    rw [← h]
    exact ⟨siftdownLoop_order n _ t i r1 hi hn hlen hD hl,
      (siftdownLoop_frame n _ t i r1 h0 hi hlen hn hF hl).1⟩

theorem siftdown_index (n : Nat) (t : HeapTimer) (i : Nat) (r : HeapTimer × Bool)
    (hI : IndexInv t) (h : siftdown_ t i n = some r) : IndexInv r.1 := by
  unfold siftdown_ at h
  by_cases hi : i < t.heap_.length
  · rw [if_pos hi] at h
    cases hl : siftdownLoop (n + 1) t i n with
    | none => simp [hl] at h
    | some r1 =>
      simp only [hl, Option.map_some', Option.some.injEq] at h
      rw [← h]
      exact siftdownLoop_index n _ t i r1 hI hl
  · rw [if_neg hi] at h
    exact Option.noConfusion h

/-- When the node at `i` is strictly earlier than its parent and the heap is
otherwise ordered, `siftdown_` leaves the heap as it is and returns `false`. -/
theorem siftdown_noop (n : Nat) (t : HeapTimer) (i : Nat) (r : HeapTimer × Bool)
    (hi : i < n) (hn : n ≤ t.heap_.length) (hlen : t.heap_.length ≤ HEAP_MAX)
    (hA : AlmostHeap t.heap_ i n) (h1 : 1 ≤ i)
    (hlt : expAt t.heap_ i < expAt t.heap_ ((i - 1) / 2))
    (h : siftdown_ t i n = some r) : r = (t, false) := by
  have hm : HEAP_MAX = 9223372036854775807 := rfl
  unfold siftdown_ at h
  rw [if_pos (by omega)] at h
  unfold siftdownLoop at h
  simp only [] at h
  rw [child_eq i (by omega)] at h
  by_cases hc : 2 * i + 1 < n
  · rw [if_pos hc] at h
    cases hpk : pickChild t (2 * i + 1) n with
    | none => simp [hpk] at h
    | some cn =>
      obtain ⟨c, nc⟩ := cn
      cases hp : t.heap_[i]? with
      | none => simp [hpk, hp] at h
      | some np =>
        simp only [hpk, hp] at h
        obtain ⟨hcc, hcase, _, _⟩ := pickChild_spec t _ n c nc (by unfold SIZE_MOD; omega) hpk
        have hck : expAt t.heap_ ((i - 1) / 2) ≤ expAt t.heap_ c :=
          hA.2 c (by omega) (by omega) (by omega) h1
        have : np.expires < nc.expires := by
          rw [← expAt_of_get _ _ _ hp, ← expAt_of_get _ _ _ hcc]; omega
        rw [if_pos this] at h
        simp only [Option.map_some', Option.some.injEq] at h
        rw [← h]
        simp
  · rw [if_neg hc] at h
    simp only [Option.map_some', Option.some.injEq] at h
    rw [← h]
    simp

theorem siftBoth_spec (n : Nat) (t : HeapTimer) (i : Nat) (t1 : HeapTimer)
    (h0 : List TimerNode)
    (hi : i < n) (hn : n ≤ t.heap_.length) (hlen : t.heap_.length ≤ HEAP_MAX)
    (hA : AlmostHeap t.heap_ i n) (hF : Frame h0 n t) (h : siftBoth t i n = some t1) :
    MinHeapUpTo t1.heap_ n ∧ Frame h0 n t1 := by
  unfold siftBoth at h
  cases hd : siftdown_ t i n with
  | none => simp [hd] at h
  | some r =>
    simp only [hd, Option.some_bind] at h
    by_cases hedge : 1 ≤ i ∧ expAt t.heap_ i < expAt t.heap_ ((i - 1) / 2)
    · obtain ⟨h1, hlt⟩ := hedge
      have hr := siftdown_noop n t i r hi hn hlen hA h1 hlt hd
      rw [hr] at h
      simp only [Bool.false_eq_true, if_false] at h
      refine siftup_spec n t i t1 h0 hi hn hlen ⟨?_, hA.2⟩ hF h
      intro k hk hk1 hki
      by_cases hpk : (k - 1) / 2 = i
      · have := hA.2 k hk hk1 hpk h1
        rw [hpk]; omega
      · exact hA.1 k hk hk1 hki hpk
    · have hD : DownInv t.heap_ i n := by
        refine ⟨?_, hA.2⟩
        intro k hk hk1 hpk
        by_cases hki : k = i
        · rw [hki]
          rw [hki] at hk1
          have : ¬ expAt t.heap_ i < expAt t.heap_ ((i - 1) / 2) := fun hc => hedge ⟨hk1, hc⟩
          omega
        · exact hA.1 k hk hk1 hki hpk
      obtain ⟨hM, hF1⟩ := siftdown_spec n t i r h0 hi hn hlen hD hF hd
      by_cases hmv : r.2 = true
      · rw [if_pos hmv] at h
        cases h
        exact ⟨hM, hF1⟩
      · rw [if_neg hmv] at h
        have hl1 : r.1.heap_.length = t.heap_.length := by rw [hF1.1, hF.1]
        refine siftup_spec n r.1 i t1 h0 hi (by omega) (by omega) ⟨?_, ?_⟩ hF1 h
        · intro k hk hk1 _
          exact hM k hk hk1
        · intro k hk hk1 hpk h1
          have a := hM k hk hk1
          have b := hM i hi h1
          rw [hpk] at a
          omega

theorem siftBoth_index (n : Nat) (t : HeapTimer) (i : Nat) (t1 : HeapTimer)
    (hI : IndexInv t) (h : siftBoth t i n = some t1) : IndexInv t1 := by
  unfold siftBoth at h
  cases hd : siftdown_ t i n with
  | none => simp [hd] at h
  | some r =>
    simp only [hd, Option.some_bind] at h
    have hI1 := siftdown_index n t i r hI hd
    by_cases hmv : r.2 = true
    · rw [if_pos hmv] at h
      cases h
      exact hI1
    · rw [if_neg hmv] at h
      exact siftup_index r.1 i t1 hI1 h

theorem expAt_set_ne (h : List TimerNode) (i k : Nat) (a : TimerNode) (hk : k ≠ i) :
    expAt (h.set i a) k = expAt h k := by
  unfold expAt
  rw [List.getElem?_set, if_neg (fun e => hk e.symm)]

theorem expAt_dropLast (h : List TimerNode) (k : Nat) (hk : k < h.length - 1) :
    expAt h.dropLast k = expAt h k := by
  unfold expAt
  rw [List.getElem?_dropLast, if_pos hk]

theorem expAt_append_left (h : List TimerNode) (a : TimerNode) (k : Nat) (hk : k < h.length) :
    expAt (h ++ [a]) k = expAt h k := by
  unfold expAt
  rw [List.getElem?_append_left hk]

/-- The last step of `del_`: `ref_.erase(heap_.back().id); heap_.pop_back();`. -/
theorem popBack_spec (t3 t1 : HeapTimer) (last : TimerNode) (n : Nat)
    (hn : t3.heap_.length = n + 1) (hM : MinHeapUpTo t3.heap_ n)
    (hlast : t3.heap_.getLast? = some last)
    (h1 : t1 = { heap_ := t3.heap_.dropLast, ref_ := t3.ref_.erase last.id }) :
    MinHeap t1.heap_ ∧ t1.heap_.length = n ∧ t1.heap_ ++ [last] = t3.heap_ ∧
      t3.heap_[n]? = some last := by
  have hl : t1.heap_.length = n := by rw [h1]; simp [hn]
  refine ⟨?_, hl, ?_, ?_⟩
  · unfold MinHeap
    rw [hl]
    intro k hk hk1
    rw [h1]
    simp only []
    rw [expAt_dropLast _ _ (by omega), expAt_dropLast _ _ (by omega)]
    exact hM k hk hk1
  · rw [h1]
    exact List.dropLast_append_getLast? last hlast
  · rw [List.getLast?_eq_getElem?, hn] at hlast
    exact hlast

theorem popBack_index (t3 : HeapTimer) (last : TimerNode) (hI : IndexInv t3)
    (hlast : t3.heap_.getLast? = some last) :
    IndexInv { heap_ := t3.heap_.dropLast, ref_ := t3.ref_.erase last.id } := by
  obtain ⟨h1, h2, h3⟩ := hI
  rw [List.getLast?_eq_getElem?] at hlast
  have hll := getElem?_lt _ _ _ hlast
  have hfl := h1 _ _ hlast
  refine ⟨?_, ?_, ?_⟩
  · intro k node hk
    simp only [] at hk ⊢
    rw [List.getElem?_dropLast] at hk
    by_cases hkl : k < t3.heap_.length - 1
    · rw [if_pos hkl] at hk
      have hf := h1 k node hk
      rw [RefMap.find_erase]
      have hne : ¬ last.id = node.id := by
        intro he
        rw [he, hf] at hfl
        have := Option.some.inj hfl
        omega
      rw [if_neg hne]
      exact hf
    · rw [if_neg hkl] at hk
      exact Option.noConfusion hk
  · intro x v hx
    simp only [] at hx ⊢
    rw [RefMap.find_erase] at hx
    by_cases hxl : last.id = x
    · rw [if_pos hxl] at hx
      exact Option.noConfusion hx
    · rw [if_neg hxl] at hx
      obtain ⟨node, hn1, hn2⟩ := h2 x v hx
      have hvl := getElem?_lt _ _ _ hn1
      have hv : v ≠ t3.heap_.length - 1 := by
        intro he
        rw [he, hlast] at hn1
        have := Option.some.inj hn1
        rw [this] at hxl
        exact hxl hn2
      refine ⟨node, ?_, hn2⟩
      rw [List.getElem?_dropLast, if_pos (by omega)]
      exact hn1
  · exact RefMap.nodup_erase _ _ h3

theorem del_unfold (t t1 : HeapTimer) (index : Nat) (hlen : t.heap_.length ≤ HEAP_MAX)
    (h : del_ t index = some t1) :
    index < t.heap_.length ∧ ∃ t3 last,
      ((index < t.heap_.length - 1 ∧ ∃ ts, SwapNode_ t index (t.heap_.length - 1) = some ts ∧
          siftBoth ts index (t.heap_.length - 1) = some t3) ∨
        (index = t.heap_.length - 1 ∧ t3 = t)) ∧
      t3.heap_.getLast? = some last ∧
      t1 = { heap_ := t3.heap_.dropLast, ref_ := t3.ref_.erase last.id } := by
  have hm : HEAP_MAX = 9223372036854775807 := rfl
  have hsz : SIZE_MOD = 18446744073709551616 := rfl
  unfold del_ at h
  by_cases hc : t.heap_.length = 0 ∨ ¬ index < t.heap_.length
  · rw [if_pos hc] at h
    exact Option.noConfusion h
  · rw [if_neg hc] at h
    have hidx : index < t.heap_.length := by
      by_contra hcc
      exact hc (Or.inr hcc)
    simp only [] at h
    rw [szSub_of_le (by omega) (by omega)] at h
    refine ⟨hidx, ?_⟩
    by_cases hi : index < t.heap_.length - 1
    · rw [if_pos hi] at h
      cases hs : SwapNode_ t index (t.heap_.length - 1) with
      | none => simp [hs] at h
      | some ts =>
        simp only [hs, Option.some_bind] at h
        cases hb : siftBoth ts index (t.heap_.length - 1) with
        | none => simp [hb] at h
        | some t3 =>
          simp only [hb, Option.some_bind] at h
          cases hl : t3.heap_.getLast? with
          | none => simp [hl] at h
          | some last =>
            simp only [hl, Option.some.injEq] at h
            exact ⟨t3, last, Or.inl ⟨hi, ts, rfl, hb⟩, hl, h.symm⟩
    · rw [if_neg hi] at h
      simp only [Option.some_bind] at h
      cases hl : t.heap_.getLast? with
      | none => simp [hl] at h
      | some last =>
        simp only [hl, Option.some.injEq] at h
        exact ⟨t, last, Or.inr ⟨by omega, rfl⟩, hl, h.symm⟩

theorem del_spec (t t1 : HeapTimer) (index : Nat) (hlen : t.heap_.length ≤ HEAP_MAX)
    (hM : MinHeap t.heap_) (h : del_ t index = some t1) :
    MinHeap t1.heap_ ∧ t1.heap_.length + 1 = t.heap_.length ∧
      ∃ node, t.heap_[index]? = some node ∧ List.Perm (t1.heap_ ++ [node]) t.heap_ := by
  obtain ⟨hidx, t3, last, hcase, hlast, ht1⟩ := del_unfold t t1 index hlen h
  rcases hcase with ⟨hi, ts, hs, hb⟩ | ⟨hi, ht3⟩
  · obtain ⟨ni, nn, hgi, hgn, hheap, _⟩ := SwapNode_eq _ _ _ _ hs
    have hex := fun k => expAt_swap t.heap_ index (t.heap_.length - 1) k ni nn hgi hgn
    have hlts : ts.heap_.length = t.heap_.length := by rw [hheap]; simp
    have hA : AlmostHeap ts.heap_ index (t.heap_.length - 1) := by
      constructor
      · intro k hk hk1 hki hpk
        have e1 : ¬ k = t.heap_.length - 1 := by omega
        have e2 : ¬ (k - 1) / 2 = t.heap_.length - 1 := by omega
        rw [hheap, hex k, hex ((k - 1) / 2), if_neg e1, if_neg hki, if_neg e2, if_neg hpk]
        exact hM k (by omega) hk1
      · intro k hk hk1 hpk h1
        have e1 : ¬ k = t.heap_.length - 1 := by omega
        have e2 : ¬ k = index := by omega
        have e3 : ¬ (index - 1) / 2 = t.heap_.length - 1 := by omega
        have e4 : ¬ (index - 1) / 2 = index := by omega
        rw [hheap, hex k, hex ((index - 1) / 2), if_neg e1, if_neg e2, if_neg e3, if_neg e4]
        have a := hM k (by omega) hk1
        have b := hM index (by omega) h1
        rw [hpk] at a
        omega
    obtain ⟨hM3, hF3⟩ := siftBoth_spec (t.heap_.length - 1) ts index t3 ts.heap_ hi
      (by omega) (by omega) hA (Frame_refl ts _) hb
    obtain ⟨hF1, hF2, hF3⟩ := hF3
    obtain ⟨hM1, hl1, happ, hget⟩ := popBack_spec t3 t1 last (t.heap_.length - 1)
      (by omega) hM3 hlast ht1
    refine ⟨hM1, by omega, ni, hgi, ?_⟩
    have hlast_eq : last = ni := by
      have := hF2 (t.heap_.length - 1) (Nat.le_refl _)
      rw [hget, hheap, getElem?_swap _ _ _ _ _ _ hgi hgn, if_pos rfl] at this
      exact Option.some.inj this
    rw [← hlast_eq, happ]
    refine hF3.trans ?_
    rw [hheap]
    exact swap_perm _ _ _ _ _ hgi hgn
  · rw [ht3] at hlast ht1
    have hMn : MinHeapUpTo t.heap_ (t.heap_.length - 1) := fun k hk hk1 => hM k (by omega) hk1
    obtain ⟨hM1, hl1, happ, hget⟩ := popBack_spec t t1 last (t.heap_.length - 1)
      (by omega) hMn hlast ht1
    refine ⟨hM1, by omega, last, by rw [hi]; exact hget, ?_⟩
    rw [happ]

theorem del_index (t t1 : HeapTimer) (index : Nat) (hlen : t.heap_.length ≤ HEAP_MAX)
    (hI : IndexInv t) (h : del_ t index = some t1) : IndexInv t1 := by
  obtain ⟨hidx, t3, last, hcase, hlast, ht1⟩ := del_unfold t t1 index hlen h
  have hI3 : IndexInv t3 := by
    rcases hcase with ⟨hi, ts, hs, hb⟩ | ⟨hi, ht3⟩
    · exact siftBoth_index _ ts index t3 (SwapNode_index t ts _ _ hI hs) hb
    · rw [ht3]; exact hI
  rw [ht1]
  exact popBack_index t3 last hI3 hlast

theorem add_unfold (t t1 : HeapTimer) (now id timeout : Int) (cb : Nat)
    (h : add t now id timeout cb = some t1) :
    (t.ref_.find id = none ∧
      siftup_ { heap_ := t.heap_ ++ [{ id := id, expires := now + MS timeout, cb := cb }],
                ref_ := t.ref_.assign id t.heap_.length } t.heap_.length = some t1) ∨
    (∃ i node, t.ref_.find id = some i ∧ t.heap_[i]? = some node ∧
      siftBoth { t with heap_ := t.heap_.set i { node with expires := now + MS timeout, cb := cb } }
        i t.heap_.length = some t1) := by
  unfold add at h
  by_cases hid : id < 0
  · rw [if_pos hid] at h
    exact Option.noConfusion h
  · rw [if_neg hid] at h
    cases hf : t.ref_.find id with
    | none =>
      simp only [hf] at h
      exact Or.inl ⟨rfl, h⟩
    | some i =>
      simp only [hf] at h
      cases hg : t.heap_[i]? with
      | none => simp [hg] at h
      | some node =>
        simp only [hg, List.length_set] at h
        exact Or.inr ⟨i, node, rfl, hg, h⟩

theorem AlmostHeap_set (h : List TimerNode) (i : Nat) (a : TimerNode) (hM : MinHeap h)
    (hi : i < h.length) : AlmostHeap (h.set i a) i h.length := by
  constructor
  · intro k hk hk1 hki hpk
    rw [expAt_set_ne _ _ _ _ hki, expAt_set_ne _ _ _ _ hpk]
    exact hM k hk hk1
  · intro k hk hk1 hpk h1
    have e1 : k ≠ i := by omega
    have e2 : (i - 1) / 2 ≠ i := by omega
    rw [expAt_set_ne _ _ _ _ e1, expAt_set_ne _ _ _ _ e2]
    have a := hM k hk hk1
    have b := hM i hi h1
    rw [hpk] at a
    omega

theorem add_order (t t1 : HeapTimer) (now id timeout : Int) (cb : Nat)
    (hlen : t.heap_.length < HEAP_MAX) (hM : MinHeap t.heap_)
    (h : add t now id timeout cb = some t1) :
    MinHeap t1.heap_ ∧ t.heap_.length ≤ t1.heap_.length ∧ t1.heap_.length ≤ t.heap_.length + 1 := by
  rcases add_unfold t t1 now id timeout cb h with ⟨_, hs⟩ | ⟨i, node, _, hg, hs⟩
  · have hU : UpInv (t.heap_ ++ [{ id := id, expires := now + MS timeout, cb := cb }])
        t.heap_.length (t.heap_.length + 1) := by
      constructor
      · intro k hk hk1 hki
        rw [expAt_append_left _ _ _ (by omega), expAt_append_left _ _ _ (by omega)]
        exact hM k (by omega) hk1
      · intro k hk hk1 hpk h1
        omega
    obtain ⟨hM1, hF1, _, _⟩ := siftup_spec (t.heap_.length + 1) _ _ t1 _ (by omega)
      (by simp) (by simp; omega) hU (Frame_refl _ _) hs
    simp only [List.length_append, List.length_singleton] at hF1
    unfold MinHeap
    rw [hF1]
    exact ⟨hM1, by omega, by omega⟩
  · have hil := getElem?_lt _ _ _ hg
    obtain ⟨hM1, hF1, _, _⟩ := siftBoth_spec t.heap_.length _ i t1 _ hil (by simp)
      (by simp; omega) (AlmostHeap_set _ _ _ hM hil) (Frame_refl _ _) hs
    simp only [List.length_set] at hF1
    unfold MinHeap
    rw [hF1]
    exact ⟨hM1, by omega, by omega⟩

theorem IndexInv_set (t : HeapTimer) (i : Nat) (node a : TimerNode) (hI : IndexInv t)
    (hg : t.heap_[i]? = some node) (hid : a.id = node.id) :
    IndexInv { t with heap_ := t.heap_.set i a } := by
  obtain ⟨h1, h2, h3⟩ := hI
  have hil := getElem?_lt _ _ _ hg
  refine ⟨?_, ?_, ?_⟩
  · intro k nd hk
    simp only [] at hk ⊢
    rw [List.getElem?_set] at hk
    by_cases hik : i = k
    · rw [if_pos hik, if_pos hil] at hk
      have := Option.some.inj hk
      rw [← this, hid, ← hik]
      exact h1 i node hg
    · rw [if_neg hik] at hk
      exact h1 k nd hk
  · intro x v hx
    simp only [] at hx ⊢
    obtain ⟨nd, hn1, hn2⟩ := h2 x v hx
    rw [List.getElem?_set]
    by_cases hiv : i = v
    · rw [if_pos hiv, if_pos hil]
      refine ⟨a, rfl, ?_⟩
      rw [← hiv, hg] at hn1
      rw [hid, Option.some.inj hn1]
      exact hn2
    · rw [if_neg hiv]
      exact ⟨nd, hn1, hn2⟩
  · exact h3

theorem add_index (t t1 : HeapTimer) (now id timeout : Int) (cb : Nat) (hI : IndexInv t)
    (h : add t now id timeout cb = some t1) : IndexInv t1 := by
  rcases add_unfold t t1 now id timeout cb h with ⟨hnone, hs⟩ | ⟨i, node, _, hg, hs⟩
  · refine siftup_index _ _ t1 ?_ hs
    obtain ⟨h1, h2, h3⟩ := hI
    refine ⟨?_, ?_, ?_⟩
    · intro k nd hk
      simp only [] at hk ⊢
      rw [RefMap.find_assign]
      by_cases hkl : k < t.heap_.length
      · rw [List.getElem?_append_left hkl] at hk
        have hf := h1 k nd hk
        have hne : ¬ id = nd.id := by
          intro he
          rw [he, hf] at hnone
          exact Option.noConfusion hnone
        rw [if_neg hne]
        exact hf
      · rw [List.getElem?_append_right (by omega)] at hk
        have hk0 : k - t.heap_.length = 0 := by
          by_contra hc
          rw [List.getElem?_eq_none (by simp; omega)] at hk
          exact Option.noConfusion hk
        rw [hk0] at hk
        simp only [List.getElem?_cons_zero, Option.some.injEq] at hk
        rw [← hk]
        simp only [if_true]
        congr 1
        omega
    · intro x v hx
      simp only [] at hx ⊢
      rw [RefMap.find_assign] at hx
      by_cases hxi : id = x
      · rw [if_pos hxi] at hx
        have hv := Option.some.inj hx
        refine ⟨{ id := id, expires := now + MS timeout, cb := cb }, ?_, hxi⟩
        rw [← hv, List.getElem?_append_right (Nat.le_refl _)]
        simp
      · rw [if_neg hxi] at hx
        obtain ⟨nd, hn1, hn2⟩ := h2 x v hx
        exact ⟨nd, by rw [List.getElem?_append_left (getElem?_lt _ _ _ hn1)]; exact hn1, hn2⟩
    · exact RefMap.nodup_assign _ _ _ h3
  · exact siftBoth_index _ _ i t1
      (IndexInv_set t i node { node with expires := now + MS timeout, cb := cb } hI hg rfl) hs

theorem adjust_index (t t1 : HeapTimer) (now id timeout : Int) (hI : IndexInv t)
    (h : adjust t now id timeout = some t1) : IndexInv t1 := by
  unfold adjust at h
  by_cases h0 : t.heap_.length = 0
  · rw [if_pos h0] at h
    exact Option.noConfusion h
  · rw [if_neg h0] at h
    cases hf : t.ref_.find id with
    | none => simp [hf] at h
    | some i =>
      simp only [hf] at h
      cases hg : t.heap_[i]? with
      | none => simp [hg] at h
      | some node =>
        simp only [hg, List.length_set] at h
        cases hd : siftdown_ { t with heap_ := t.heap_.set i { node with expires := now + MS timeout } }
            i t.heap_.length with
        | none => rw [hd] at h; exact Option.noConfusion h
        | some r =>
          rw [hd] at h
          simp only [Option.map_some', Option.some.injEq] at h
          rw [← h]
          exact siftdown_index _ _ i r
            (IndexInv_set t i node { node with expires := now + MS timeout } hI hg rfl) hd

theorem pop_eq (t t1 : HeapTimer) (h : pop t = some t1) : del_ t 0 = some t1 := by
  unfold pop at h
  by_cases h0 : t.heap_.length = 0
  · rw [if_pos h0] at h
    exact Option.noConfusion h
  · rw [if_neg h0] at h
    exact h

theorem doWork_unfold (t : HeapTimer) (id : Int) (r : HeapTimer × List TimerNode)
    (h : doWork t id = some r) :
    r = (t, []) ∨ ∃ i node, t.ref_.find id = some i ∧ t.heap_[i]? = some node ∧
      del_ t i = some r.1 ∧ r.2 = [node] := by
  unfold doWork at h
  by_cases h0 : t.heap_.length = 0
  · rw [if_pos h0] at h
    exact Or.inl (Option.some.inj h).symm
  · rw [if_neg h0] at h
    cases hf : t.ref_.find id with
    | none =>
      simp only [hf] at h
      exact Or.inl (Option.some.inj h).symm
    | some i =>
      simp only [hf] at h
      cases hg : t.heap_[i]? with
      | none => simp [hg] at h
      | some node =>
        simp only [hg] at h
        cases hd : del_ t i with
        | none => simp [hd] at h
        | some t2 =>
          simp only [hd, Option.map_some', Option.some.injEq] at h
          refine Or.inr ⟨i, node, rfl, hg, ?_, ?_⟩
          · rw [← h]; exact hd
          · rw [← h]

theorem toMS_eq (d : Int) :
    toMS d = if 0 ≤ d then d / 1000000 else -((-d) / 1000000) := by
  unfold toMS TICKS_PER_MS
  by_cases h : 0 ≤ d
  · rw [if_pos h, Int.tdiv_eq_ediv h (by decide)]
  · rw [if_neg h]
    have : d = -(-d) := by omega
    rw [this, Int.neg_tdiv, Int.tdiv_eq_ediv (by omega) (by decide)]
    simp

theorem toMS_mono (a b : Int) (h : a ≤ b) : toMS a ≤ toMS b := by
  rw [toMS_eq, toMS_eq]
  split <;> split <;> omega

theorem toMS_pos_iff (d : Int) : 0 < toMS d ↔ 1000000 ≤ d := by
  rw [toMS_eq]
  split <;> omega

/-- In a min-heap the root is not later than any node. -/
theorem root_le (h : List TimerNode) (hM : MinHeap h) (k : Nat) (hk : k < h.length) :
    expAt h 0 ≤ expAt h k := by
  induction k using Nat.strong_induction_on with
  | _ k ih =>
    by_cases h0 : k = 0
    · rw [h0]
    · have a := hM k hk (by omega)
      have b := ih ((k - 1) / 2) (by omega) (by omega)
      omega

theorem root_le_mem (h : List TimerNode) (hM : MinHeap h) (root node : TimerNode)
    (hr : h.head? = some root) (hn : node ∈ h) : root.expires ≤ node.expires := by
  obtain ⟨k, hk, hget⟩ := List.getElem_of_mem hn
  have := root_le h hM k hk
  rw [List.head?_eq_getElem?] at hr
  rw [expAt_of_get _ _ _ hr, expAt_of_get _ k node (by rw [List.getElem?_eq_getElem hk, hget])] at this
  exact this

theorem siftBoth_frame (n : Nat) (t : HeapTimer) (i : Nat) (t1 : HeapTimer)
    (h0 : List TimerNode) (hi : i < n) (hn : n ≤ t.heap_.length)
    (hlen : t.heap_.length ≤ HEAP_MAX) (hF : Frame h0 n t) (h : siftBoth t i n = some t1) :
    Frame h0 n t1 := by
  unfold siftBoth at h
  cases hd : siftdown_ t i n with
  | none => simp [hd] at h
  | some r =>
    simp only [hd, Option.some_bind] at h
    have hF1 : Frame h0 n r.1 := by
      unfold siftdown_ at hd
      rw [if_pos (by omega)] at hd
      cases hl : siftdownLoop (n + 1) t i n with
      | none => simp [hl] at hd
      | some r1 =>
        simp only [hl, Option.map_some', Option.some.injEq] at hd
        rw [← hd]
        exact (siftdownLoop_frame n _ t i r1 h0 hi hlen hn hF hl).1
    by_cases hmv : r.2 = true
    · rw [if_pos hmv] at h
      cases h
      exact hF1
    · rw [if_neg hmv] at h
      unfold siftup_ at h
      have hl1 : r.1.heap_.length = t.heap_.length := by rw [hF1.1, hF.1]
      rw [if_pos (by omega)] at h
      exact siftupLoop_frame n _ r.1 i t1 h0 hi (by omega) hF1 h

theorem del_length (t t1 : HeapTimer) (index : Nat) (hlen : t.heap_.length ≤ HEAP_MAX)
    (h : del_ t index = some t1) : t1.heap_.length + 1 = t.heap_.length := by
  obtain ⟨hidx, t3, last, hcase, hlast, ht1⟩ := del_unfold t t1 index hlen h
  rw [ht1]
  simp only [List.length_dropLast]
  rcases hcase with ⟨hi, ts, hs, hb⟩ | ⟨_, ht3⟩
  · obtain ⟨ni, nn, hgi, hgn, hheap, _⟩ := SwapNode_eq _ _ _ _ hs
    have hlts : ts.heap_.length = t.heap_.length := by rw [hheap]; simp
    have hF := siftBoth_frame (t.heap_.length - 1) ts index t3 ts.heap_ hi (by omega) (by omega)
      (Frame_refl ts _) hb
    rw [hF.1, hlts]; omega
  · rw [ht3]; omega

/-- The loop of `tick`: order, length, and the account of the fired nodes. -/
theorem tickLoop_spec (fuel : Nat) : ∀ (t : HeapTimer) (clock : Nat → Int) (k : Nat)
    (fired : List TimerNode) (r : HeapTimer × List TimerNode × Nat),
    t.heap_.length ≤ HEAP_MAX → MinHeap t.heap_ → tickLoop fuel t clock k fired = some r →
    MinHeap r.1.heap_ ∧ r.1.heap_.length ≤ t.heap_.length ∧
      ∃ newly, r.2.1 = fired ++ newly ∧ List.Perm (newly ++ r.1.heap_) t.heap_ ∧
        (∀ node ∈ newly, ∃ j, k ≤ j ∧ j < r.2.2 ∧ toMS (node.expires - clock j) ≤ 0) ∧
        (r.1.heap_ = [] ∨
          (1 ≤ r.2.2 ∧ ∀ node ∈ r.1.heap_, 0 < toMS (node.expires - clock (r.2.2 - 1)))) ∧
        k ≤ r.2.2 := by
  induction fuel with
  | zero => intro t clock k fired r _ _ h; simp [tickLoop] at h
  | succ fuel ih =>
    intro t clock k fired r hlen hM h
    unfold tickLoop at h
    cases hh : t.heap_.head? with
    | none =>
      simp only [hh, Option.some.injEq] at h
      rw [← h]
      have hnil : t.heap_ = [] := List.head?_eq_none_iff.mp hh
      refine ⟨hM, Nat.le_refl _, [], by simp, by simp, by simp, Or.inl hnil, Nat.le_refl _⟩
    | some node =>
      simp only [hh] at h
      by_cases hc : toMS (node.expires - clock k) > 0
      · rw [if_pos hc] at h
        simp only [Option.some.injEq] at h
        rw [← h]
        refine ⟨hM, Nat.le_refl _, [], by simp, by simp, by simp, Or.inr ⟨by simp, ?_⟩, by simp⟩
        intro nd hnd
        simp only [Nat.add_sub_cancel]
        have hle := root_le_mem t.heap_ hM node nd hh hnd
        have := toMS_mono (node.expires - clock k) (nd.expires - clock k) (by omega)
        omega
      · rw [if_neg hc] at h
        cases hp : pop t with
        | none => simp [hp] at h
        | some t1 =>
          simp only [hp, Option.some_bind] at h
          have hd := pop_eq t t1 hp
          obtain ⟨hM1, hl1, nd, hg, hperm⟩ := del_spec t t1 0 hlen hM hd
          rw [List.head?_eq_getElem?] at hh
          rw [hh] at hg
          have hnd : node = nd := Option.some.inj hg
          obtain ⟨hMr, hlr, newly, hfired, hperm2, hexp, hrest, hk⟩ :=
            ih t1 clock (k + 1) (fired ++ [node]) r (by omega) hM1 h
          refine ⟨hMr, by omega, node :: newly, ?_, ?_, ?_, hrest, by omega⟩
          · rw [hfired]; simp
          · rw [hnd]
            refine List.Perm.trans ?_ hperm
            rw [List.cons_append]
            refine List.Perm.trans (List.Perm.cons nd hperm2) ?_
            exact (List.perm_append_singleton nd t1.heap_).symm
          · intro x hx
            rcases List.mem_cons.mp hx with hx | hx
            · rw [hx]
              exact ⟨k, Nat.le_refl _, by omega, by omega⟩
            · obtain ⟨j, hj1, hj2, hj3⟩ := hexp x hx
              exact ⟨j, by omega, hj2, hj3⟩

theorem tick_spec (t : HeapTimer) (clock : Nat → Int) (r : HeapTimer × List TimerNode × Nat)
    (hlen : t.heap_.length ≤ HEAP_MAX) (hM : MinHeap t.heap_) (h : tick t clock = some r) :
    MinHeap r.1.heap_ ∧ r.1.heap_.length ≤ t.heap_.length ∧
      List.Perm (r.2.1 ++ r.1.heap_) t.heap_ ∧
      (∀ node ∈ r.2.1, ∃ j, j < r.2.2 ∧ toMS (node.expires - clock j) ≤ 0) ∧
      (r.1.heap_ = [] ∨
        (1 ≤ r.2.2 ∧ ∀ node ∈ r.1.heap_, 0 < toMS (node.expires - clock (r.2.2 - 1)))) := by
  unfold tick at h
  by_cases h0 : t.heap_.length = 0
  · rw [if_pos h0] at h
    simp only [Option.some.injEq] at h
    rw [← h]
    have hnil : t.heap_ = [] := List.eq_nil_of_length_eq_zero h0
    exact ⟨hM, Nat.le_refl _, by simp, by simp, Or.inl hnil⟩
  · rw [if_neg h0] at h
    obtain ⟨hMr, hlr, newly, hfired, hperm, hexp, hrest, _⟩ :=
      tickLoop_spec _ t clock 0 [] r hlen hM h
    simp only [List.nil_append] at hfired
    rw [hfired]
    refine ⟨hMr, hlr, hperm, ?_, hrest⟩
    intro nd hnd
    obtain ⟨j, _, hj2, hj3⟩ := hexp nd hnd
    exact ⟨j, hj2, hj3⟩

theorem tickLoop_index (fuel : Nat) : ∀ (t : HeapTimer) (clock : Nat → Int) (k : Nat)
    (fired : List TimerNode) (r : HeapTimer × List TimerNode × Nat),
    t.heap_.length ≤ HEAP_MAX → IndexInv t → tickLoop fuel t clock k fired = some r →
    IndexInv r.1 := by
  induction fuel with
  | zero => intro t clock k fired r _ _ h; simp [tickLoop] at h
  | succ fuel ih =>
    intro t clock k fired r hlen hI h
    unfold tickLoop at h
    cases hh : t.heap_.head? with
    | none =>
      simp only [hh, Option.some.injEq] at h
      rw [← h]; exact hI
    | some node =>
      simp only [hh] at h
      by_cases hc : toMS (node.expires - clock k) > 0
      · rw [if_pos hc] at h
        simp only [Option.some.injEq] at h
        rw [← h]; exact hI
      · rw [if_neg hc] at h
        cases hp : pop t with
        | none => simp [hp] at h
        | some t1 =>
          simp only [hp, Option.some_bind] at h
          have hd := pop_eq t t1 hp
          have hI1 := del_index t t1 0 hlen hI hd
          have hl1 := del_length t t1 0 hlen hd
          exact ih t1 clock (k + 1) (fired ++ [node]) r (by omega) hI1 h

theorem tick_index (t : HeapTimer) (clock : Nat → Int) (r : HeapTimer × List TimerNode × Nat)
    (hlen : t.heap_.length ≤ HEAP_MAX) (hI : IndexInv t) (h : tick t clock = some r) :
    IndexInv r.1 := by
  unfold tick at h
  by_cases h0 : t.heap_.length = 0
  · rw [if_pos h0] at h
    simp only [Option.some.injEq] at h
    rw [← h]; exact hI
  · rw [if_neg h0] at h
    exact tickLoop_index _ t clock 0 [] r hlen hI h

theorem find_eq_some_iff (m : RefMap) (hn : (m.map Prod.fst).Nodup) (x : Int) (v : Nat) :
    RefMap.find m x = some v ↔ (x, v) ∈ m := by
  induction m with
  | nil => simp [RefMap.find]
  | cons e rest ih =>
    obtain ⟨k1, v1⟩ := e
    rw [List.map_cons, List.nodup_cons] at hn
    simp only [RefMap.find, List.mem_cons, Prod.mk.injEq]
    by_cases h : k1 = x
    · rw [if_pos h]
      constructor
      · intro hv
        exact Or.inl ⟨h.symm, (Option.some.inj hv).symm⟩
      · rintro (⟨_, hv⟩ | hmem)
        · rw [hv]
        · exfalso
          apply hn.1
          rw [h]
          exact List.mem_map.mpr ⟨(x, v), hmem, rfl⟩
    · rw [if_neg h, ih hn.2]
      constructor
      · intro hmem; exact Or.inr hmem
      · rintro (⟨hx, _⟩ | hmem)
        · exact absurd hx.symm h
        · exact hmem

theorem IndexInv_iff (t : HeapTimer) : IndexInv t ↔ IndexConsistent t := by
  constructor
  · rintro ⟨h1, h2, h3⟩
    refine ⟨h3, ?_, ?_, ?_, ?_⟩
    · rw [List.nodup_iff_getElem?_ne_getElem?]
      intro i j hij hj
      simp only [List.length_map] at hj
      have hi : i < t.heap_.length := by omega
      simp only [List.getElem?_map, List.getElem?_eq_getElem hi, List.getElem?_eq_getElem hj,
        Option.map_some', ne_eq, Option.some.injEq]
      intro he
      have a := h1 i _ (List.getElem?_eq_getElem hi)
      have b := h1 j _ (List.getElem?_eq_getElem hj)
      rw [he, b] at a
      have := Option.some.inj a
      omega
    · intro x hx
      obtain ⟨v, hv⟩ := (RefMap.mem_keys_iff _ _).mp hx
      obtain ⟨node, hn1, hn2⟩ := h2 x v hv
      rw [← hn2]
      exact List.mem_map_of_mem _ (List.getElem?_mem hn1)
    · intro x hx
      rw [RefMap.mem_keys_iff]
      obtain ⟨node, hn, hid⟩ := List.mem_map.mp hx
      obtain ⟨k, hk, hget⟩ := List.getElem_of_mem hn
      refine ⟨k, ?_⟩
      rw [← hid]
      exact h1 k node (by rw [List.getElem?_eq_getElem hk, hget])
    · intro e he
      obtain ⟨node, hn1, hn2⟩ := h2 e.1 e.2 ((find_eq_some_iff _ h3 _ _).mpr he)
      rw [hn1, Option.map_some', hn2]
  · rintro ⟨h3, h4, h5a, h5b, h6⟩
    have h2 : ∀ id i, t.ref_.find id = some i →
        ∃ node, t.heap_[i]? = some node ∧ node.id = id := by
      intro x v hv
      have := h6 (x, v) ((find_eq_some_iff _ h3 _ _).mp hv)
      simp only [] at this
      cases hg : t.heap_[v]? with
      | none => rw [hg] at this; exact Option.noConfusion this
      | some node =>
        rw [hg, Option.map_some'] at this
        exact ⟨node, rfl, Option.some.inj this⟩
    refine ⟨?_, h2, h3⟩
    intro i node hi
    have hmem : node.id ∈ t.heap_.map TimerNode.id :=
      List.mem_map_of_mem _ (List.getElem?_mem hi)
    obtain ⟨v, hv⟩ := (RefMap.mem_keys_iff _ _).mp (h5b node.id hmem)
    obtain ⟨nd, hn1, hn2⟩ := h2 _ v hv
    rw [hv]
    congr 1
    by_contra hne
    have hil := getElem?_lt _ _ _ hi
    have hvl := getElem?_lt _ _ _ hn1
    rw [List.nodup_iff_getElem?_ne_getElem?] at h4
    rcases Nat.lt_or_gt_of_ne hne with hlt | hgt
    · have := h4 v i hlt (by simp; exact hil)
      simp only [List.getElem?_map, hi, hn1, Option.map_some', ne_eq, Option.some.injEq] at this
      exact this hn2
    · have := h4 i v hgt (by simp; exact hvl)
      simp only [List.getElem?_map, hi, hn1, Option.map_some', ne_eq, Option.some.injEq] at this
      exact this hn2.symm

theorem run_order (op : TimerOp) (t t1 : HeapTimer)
    (hop : ∀ now id timeout, op ≠ TimerOp.adjust now id timeout)
    (hlen : t.heap_.length < HEAP_MAX) (hM : MinHeap t.heap_) (h : op.run t = some t1) :
    MinHeap t1.heap_ := by
  cases op with
  | add now id timeout cb => exact (add_order t t1 now id timeout cb hlen hM h).1
  | adjust now id timeout => exact absurd rfl (hop now id timeout)
  | doWork id =>
    simp only [TimerOp.run] at h
    cases hd : doWork t id with
    | none => simp [hd] at h
    | some r =>
      simp only [hd, Option.map_some', Option.some.injEq] at h
      rcases doWork_unfold t id r hd with hr | ⟨i, node, _, _, hdel, _⟩
      · rw [← h, hr]; exact hM
      · rw [← h]
        exact (del_spec t r.1 i (by omega) hM hdel).1
  | pop => exact (del_spec t t1 0 (by omega) hM (pop_eq t t1 h)).1
  | tick clock =>
    simp only [TimerOp.run] at h
    cases hd : tick t clock with
    | none => simp [hd] at h
    | some r =>
      simp only [hd, Option.map_some', Option.some.injEq] at h
      rw [← h]
      exact (tick_spec t clock r (by omega) hM hd).1
  | clear =>
    simp only [TimerOp.run, Option.some.injEq] at h
    rw [← h]
    intro i hi
    simp [clear] at hi

theorem run_index (op : TimerOp) (t t1 : HeapTimer)
    (hlen : t.heap_.length < HEAP_MAX) (hI : IndexInv t) (h : op.run t = some t1) :
    IndexInv t1 := by
  cases op with
  | add now id timeout cb => exact add_index t t1 now id timeout cb hI h
  | adjust now id timeout => exact adjust_index t t1 now id timeout hI h
  | doWork id =>
    simp only [TimerOp.run] at h
    cases hd : doWork t id with
    | none => simp [hd] at h
    | some r =>
      simp only [hd, Option.map_some', Option.some.injEq] at h
      rcases doWork_unfold t id r hd with hr | ⟨i, node, _, _, hdel, _⟩
      · rw [← h, hr]; exact hI
      · rw [← h]
        exact del_index t r.1 i (by omega) hI hdel
  | pop => exact del_index t t1 0 (by omega) hI (pop_eq t t1 h)
  | tick clock =>
    simp only [TimerOp.run] at h
    cases hd : tick t clock with
    | none => simp [hd] at h
    | some r =>
      simp only [hd, Option.map_some', Option.some.injEq] at h
      rw [← h]
      exact tick_index t clock r (by omega) hI hd
  | clear =>
    simp only [TimerOp.run, Option.some.injEq] at h
    rw [← h]
    refine ⟨?_, ?_, ?_⟩
    · intro i node hi; simp [clear] at hi
    · intro id i hi; simp [clear, RefMap.find] at hi
    · simp [clear]

/-- Min-heap order of the heaps that are produced: if
`heap[(i-1)/2].expires ≤ heap[i].expires` holds for every index `i ≥ 1` before
`add` (with a new or an already present id), `doWork`, `pop` or `tick` (or
`clear`) and the operation produces a heap, the order holds for every index of
that heap.  `adjust`, which sifts down only, is left out.  Nothing is said
here about whether a heap is produced: a sift-up that reaches the root reads
outside `heap_` (`sift_up_from_root_yields_no_heap`). -/
theorem timer_ops_keep_heap_order (op : TimerOp) (t t1 : HeapTimer)
    (hop : ∀ now id timeout, op ≠ TimerOp.adjust now id timeout)
    (hlen : t.heap_.length < HEAP_MAX) (hM : MinHeap t.heap_) (h : op.run t = some t1) :
    MinHeap t1.heap_ :=
  run_order op t t1 hop hlen hM h

/-- An instance of `timer_ops_keep_heap_order`: `add` with the id of the last
of four nodes and an earlier deadline, which sifts the node up one level. -/
theorem timer_ops_keep_heap_order_witness :
    MinHeap [{ id := 1, expires := 10, cb := 0 }, { id := 4, expires := 15000000, cb := 7 },
      { id := 3, expires := 30, cb := 0 }, { id := 2, expires := 20000000, cb := 0 }] :=
  timer_ops_keep_heap_order (TimerOp.add 0 4 15 7)
    { heap_ := [{ id := 1, expires := 10, cb := 0 }, { id := 2, expires := 20000000, cb := 0 },
        { id := 3, expires := 30, cb := 0 }, { id := 4, expires := 40000000, cb := 0 }],
      ref_ := [(1, 0), (2, 1), (3, 2), (4, 3)] }
    { heap_ := [{ id := 1, expires := 10, cb := 0 }, { id := 4, expires := 15000000, cb := 7 },
        { id := 3, expires := 30, cb := 0 }, { id := 2, expires := 20000000, cb := 0 }],
      ref_ := [(4, 1), (2, 3), (1, 0), (3, 2)] }
    (by intro _ _ _ h; cases h) (by decide) (by decide) (by decide)

/-- Index consistency of the states that are produced: the empty timer is
index-consistent, and whenever `add`, `adjust`, `doWork`, `pop`, `tick` or
`clear` on an index-consistent timer produces a state, `ref_` has exactly the
ids stored in `heap_` as keys, each id once, and `heap_[ref_[id]].id == id`
there.  Nothing is said here about whether a state is produced: the first
`add` on the empty timer produces none (`first_add_yields_no_state`). -/
theorem timer_index_consistent :
    IndexConsistent empty ∧
    ∀ (op : TimerOp) (t t1 : HeapTimer), t.heap_.length < HEAP_MAX → IndexConsistent t →
      op.run t = some t1 → IndexConsistent t1 := by
  refine ⟨by decide, ?_⟩
  intro op t t1 hlen hI h
  exact (IndexInv_iff t1).mp (run_index op t t1 hlen ((IndexInv_iff t).mpr hI) h)

/-- An instance of `timer_index_consistent`: `doWork` on the root of a
four-node heap, which moves the last node to the root and sifts it down. -/
theorem timer_index_consistent_witness :
    IndexConsistent
      { heap_ := [{ id := 2, expires := 20, cb := 0 }, { id := 4, expires := 25, cb := 0 },
          { id := 3, expires := 30, cb := 0 }],
        ref_ := [(4, 1), (2, 0), (3, 2)] } :=
  timer_index_consistent.2 (TimerOp.doWork 1)
    { heap_ := [{ id := 1, expires := 10, cb := 0 }, { id := 2, expires := 20, cb := 0 },
        { id := 3, expires := 30, cb := 0 }, { id := 4, expires := 25, cb := 0 }],
      ref_ := [(1, 0), (2, 1), (3, 2), (4, 3)] }
    { heap_ := [{ id := 2, expires := 20, cb := 0 }, { id := 4, expires := 25, cb := 0 },
        { id := 3, expires := 30, cb := 0 }],
      ref_ := [(4, 1), (2, 0), (3, 2)] }
    (by decide) (by decide) (by decide)

/-- C9 (evaluation at the failing input): with one node that expires 5 ms
after the clock reading taken by `tick` and a second reading 7 ms after that
first one, `GetNextTick` returns `-2` although the heap is not empty: `res` is
a `size_t`, so `res < 0` never holds. -/
theorem GetNextTick_negative_with_nonempty_heap :
    GetNextTick { heap_ := [{ id := 1, expires := 5000000, cb := 0 }], ref_ := [(1, 0)] }
        (fun k => if k = 0 then 0 else 7000000)
      = some ({ heap_ := [{ id := 1, expires := 5000000, cb := 0 }], ref_ := [(1, 0)] }, [], -2) := by
  decide

/-- C10 as stated fails: a single node that expires half a millisecond after
`now = 0` is fired and removed by `tick` although its `expires` is later than
`now`. -/
theorem tick_fires_node_later_than_now :
    tick { heap_ := [{ id := 1, expires := 500000, cb := 7 }], ref_ := [(1, 0)] } (fun _ => 0)
        = some ({ heap_ := [], ref_ := [] }, [{ id := 1, expires := 500000, cb := 7 }], 1) ∧
      ¬ (({ id := 1, expires := 500000, cb := 7 } : TimerNode).expires ≤ 0) := by
  decide

/-- C10 (amended): on a min-heap and with every clock reading equal to `now`,
a `tick` that completes invokes, once each, the callbacks of exactly the nodes
whose `expires` is less than one millisecond after `now` and removes exactly
those nodes; every node left has `expires` at least one millisecond after
`now`. -/
theorem tick_fires_exactly_within_ms (t : HeapTimer) (now : Int)
    (r : HeapTimer × List TimerNode × Nat)
    (hlen : t.heap_.length ≤ HEAP_MAX) (hM : MinHeap t.heap_)
    (h : tick t (fun _ => now) = some r) :
    List.Perm (r.2.1 ++ r.1.heap_) t.heap_ ∧
      (∀ node ∈ r.2.1, node.expires - now < TICKS_PER_MS) ∧
      (∀ node ∈ r.1.heap_, TICKS_PER_MS ≤ node.expires - now) := by
  obtain ⟨_, _, hperm, hfired, hrest⟩ := tick_spec t (fun _ => now) r hlen hM h
  refine ⟨hperm, ?_, ?_⟩
  · intro node hn
    obtain ⟨j, _, hj⟩ := hfired node hn
    have := toMS_pos_iff (node.expires - now)
    unfold TICKS_PER_MS
    omega
  · intro node hn
    rcases hrest with hnil | ⟨_, hall⟩
    · rw [hnil] at hn
      exact absurd hn (List.not_mem_nil _)
    · have := hall node hn
      unfold TICKS_PER_MS
      exact (toMS_pos_iff _).mp this

/-- Witness for C10: of three nodes the root has expired at `now = 20`; it is
fired and removed, the other two stay. -/
theorem tick_fires_exactly_within_ms_witness :
    List.Perm
        (([{ id := 1, expires := 10, cb := 0 }] : List TimerNode) ++
          [{ id := 2, expires := 5000000, cb := 0 }, { id := 3, expires := 7000000, cb := 0 }])
        [{ id := 1, expires := 10, cb := 0 }, { id := 2, expires := 5000000, cb := 0 },
          { id := 3, expires := 7000000, cb := 0 }] ∧
      (∀ node ∈ [({ id := 1, expires := 10, cb := 0 } : TimerNode)],
        node.expires - 20 < TICKS_PER_MS) ∧
      (∀ node ∈ [({ id := 2, expires := 5000000, cb := 0 } : TimerNode),
          { id := 3, expires := 7000000, cb := 0 }], TICKS_PER_MS ≤ node.expires - 20) :=
  tick_fires_exactly_within_ms
    { heap_ := [{ id := 1, expires := 10, cb := 0 }, { id := 2, expires := 5000000, cb := 0 },
        { id := 3, expires := 7000000, cb := 0 }],
      ref_ := [(1, 0), (2, 1), (3, 2)] } 20
    ({ heap_ := [{ id := 2, expires := 5000000, cb := 0 }, { id := 3, expires := 7000000, cb := 0 }],
       ref_ := [(3, 1), (2, 0)] },
      [{ id := 1, expires := 10, cb := 0 }], 2)
    (by decide) (by decide) (by decide)

theorem SwapNode_length (t t1 : HeapTimer) (i j : Nat) (h : SwapNode_ t i j = some t1) :
    t1.heap_.length = t.heap_.length := by
  obtain ⟨ni, nj, _, _, hheap, _⟩ := SwapNode_eq _ _ _ _ h
  rw [hheap]; simp

/-- The bound on the iterations of `siftup_` is never the reason for `none`:
from position `i`, any bound above `i` gives the same result. -/
theorem siftupLoop_fuel (i : Nat) : ∀ (t : HeapTimer) (f1 f2 : Nat),
    i < t.heap_.length → t.heap_.length ≤ HEAP_MAX → i < f1 → i < f2 →
    siftupLoop f1 t i = siftupLoop f2 t i := by
  induction i using Nat.strong_induction_on with
  | _ i ih =>
    intro t f1 f2 hi hlen h1 h2
    obtain ⟨g1, rfl⟩ : ∃ g, f1 = g + 1 := ⟨f1 - 1, by omega⟩
    obtain ⟨g2, rfl⟩ : ∃ g, f2 = g + 1 := ⟨f2 - 1, by omega⟩
    unfold siftupLoop
    simp only []
    cases hj : t.heap_[szSub i 1 / 2]? with
    | none => rfl
    | some nj =>
      obtain ⟨hi1, hp⟩ := parent_facts t i nj hlen hi hj
      cases hii : t.heap_[i]? with
      | none => rfl
      | some ni =>
        simp only []
        by_cases hlt : nj.expires < ni.expires
        · rw [if_pos hlt, if_pos hlt]
        · rw [if_neg hlt, if_neg hlt]
          cases hs : SwapNode_ t i (szSub i 1 / 2) with
          | none => rfl
          | some t1 =>
            simp only [Option.some_bind]
            have hl1 := SwapNode_length _ _ _ _ hs
            rw [hp]
            exact ih ((i - 1) / 2) (by omega) t1 g1 g2 (by omega) (by omega) (by omega) (by omega)

/-- The bound on the iterations of `siftdown_` is never the reason for `none`. -/
theorem siftdownLoop_fuel (n : Nat) (m : Nat) : ∀ (t : HeapTimer) (p f1 f2 : Nat),
    n - p ≤ m → p < t.heap_.length → t.heap_.length ≤ HEAP_MAX → m < f1 → m < f2 →
    siftdownLoop f1 t p n = siftdownLoop f2 t p n := by
  induction m with
  | zero =>
    intro t p f1 f2 hm hp hlen h1 h2
    obtain ⟨g1, rfl⟩ : ∃ g, f1 = g + 1 := ⟨f1 - 1, by omega⟩
    obtain ⟨g2, rfl⟩ : ∃ g, f2 = g + 1 := ⟨f2 - 1, by omega⟩
    have hm' : HEAP_MAX = 9223372036854775807 := rfl
    unfold siftdownLoop
    simp only []
    rw [child_eq p (by omega), if_neg (by omega), if_neg (by omega)]
  | succ m ih =>
    intro t p f1 f2 hm hp hlen h1 h2
    obtain ⟨g1, rfl⟩ : ∃ g, f1 = g + 1 := ⟨f1 - 1, by omega⟩
    obtain ⟨g2, rfl⟩ : ∃ g, f2 = g + 1 := ⟨f2 - 1, by omega⟩
    have hm' : HEAP_MAX = 9223372036854775807 := rfl
    unfold siftdownLoop
    simp only []
    rw [child_eq p (by omega)]
    by_cases hc : 2 * p + 1 < n
    · rw [if_pos hc, if_pos hc]
      cases hpk : pickChild t (2 * p + 1) n with
      | none => rfl
      | some cn =>
        obtain ⟨c, nc⟩ := cn
        obtain ⟨hcc, hcase, _, _⟩ := pickChild_spec t _ n c nc (by unfold SIZE_MOD; omega) hpk
        cases hpp : t.heap_[p]? with
        | none => rfl
        | some np =>
          simp only []
          by_cases hlt : np.expires < nc.expires
          · rw [if_pos hlt, if_pos hlt]
          · rw [if_neg hlt, if_neg hlt]
            cases hs : SwapNode_ t p c with
            | none => rfl
            | some t1 =>
              simp only [Option.some_bind]
              have hl1 := SwapNode_length _ _ _ _ hs
              have hcl := getElem?_lt _ _ _ hcc
              exact ih t1 c g1 g2 (by omega) (by omega) (by omega) (by omega) (by omega)
    · rw [if_neg hc, if_neg hc]

/-- The bound on the iterations of `tick` is never the reason for `none`. -/
theorem tickLoop_fuel (m : Nat) : ∀ (t : HeapTimer) (clock : Nat → Int) (k : Nat)
    (fired : List TimerNode) (f1 f2 : Nat),
    t.heap_.length ≤ m → t.heap_.length ≤ HEAP_MAX → m < f1 → m < f2 →
    tickLoop f1 t clock k fired = tickLoop f2 t clock k fired := by
  induction m with
  | zero =>
    intro t clock k fired f1 f2 hm hlen h1 h2
    obtain ⟨g1, rfl⟩ : ∃ g, f1 = g + 1 := ⟨f1 - 1, by omega⟩
    obtain ⟨g2, rfl⟩ : ∃ g, f2 = g + 1 := ⟨f2 - 1, by omega⟩
    have hnil : t.heap_ = [] := List.eq_nil_of_length_eq_zero (by omega)
    unfold tickLoop
    simp [hnil]
  | succ m ih =>
    intro t clock k fired f1 f2 hm hlen h1 h2
    obtain ⟨g1, rfl⟩ : ∃ g, f1 = g + 1 := ⟨f1 - 1, by omega⟩
    obtain ⟨g2, rfl⟩ : ∃ g, f2 = g + 1 := ⟨f2 - 1, by omega⟩
    unfold tickLoop
    cases hh : t.heap_.head? with
    | none => rfl
    | some node =>
      simp only []
      by_cases hc : toMS (node.expires - clock k) > 0
      · rw [if_pos hc, if_pos hc]
      · rw [if_neg hc, if_neg hc]
        cases hp : pop t with
        | none => rfl
        | some t1 =>
          simp only [Option.some_bind]
          have hl1 := del_length t t1 0 hlen (pop_eq t t1 hp)
          exact ih t1 clock (k + 1) (fired ++ [node]) g1 g2 (by omega) (by omega) (by omega)
            (by omega)

/-- The loop of `siftdown_` completes when its indices are inside the vector. -/
theorem siftdownLoop_total (n : Nat) (m : Nat) : ∀ (t : HeapTimer) (p fuel : Nat),
    n - p ≤ m → p < n → n ≤ t.heap_.length → t.heap_.length ≤ HEAP_MAX → m < fuel →
    ∃ r, siftdownLoop fuel t p n = some r := by
  induction m with
  | zero => intro t p fuel h1 h2 _ _ _; omega
  | succ m ih =>
    intro t p fuel h1 hp hn hlen hf
    obtain ⟨f, rfl⟩ : ∃ f, fuel = f + 1 := ⟨fuel - 1, by omega⟩
    have hH : HEAP_MAX = 9223372036854775807 := rfl
    have hS : SIZE_MOD = 18446744073709551616 := rfl
    have hc := child_eq p (by omega)
    rw [siftdownLoop, hc]
    by_cases hcn : 2 * p + 1 < n
    · rw [if_pos hcn]
      obtain ⟨nl, hnl⟩ : ∃ nl, t.heap_[2 * p + 1]? = some nl :=
        ⟨t.heap_[2 * p + 1], List.getElem?_eq_getElem (by omega)⟩
      obtain ⟨np, hnp⟩ : ∃ np, t.heap_[p]? = some np :=
        ⟨t.heap_[p], List.getElem?_eq_getElem (by omega)⟩
      have hadd : szAdd (2 * p + 1) 1 = 2 * p + 1 + 1 := szAdd_of_lt (by omega)
      obtain ⟨c, nc, hpick, hcl, hcp⟩ : ∃ c nc, pickChild t (2 * p + 1) n = some (c, nc) ∧
          c < n ∧ p < c := by
        unfold pickChild
        rw [hnl, hadd]
        by_cases h2 : 2 * p + 1 + 1 < n
        · obtain ⟨nr, hnr⟩ : ∃ nr, t.heap_[2 * p + 1 + 1]? = some nr :=
            ⟨t.heap_[2 * p + 1 + 1], List.getElem?_eq_getElem (by omega)⟩
          simp only [if_pos h2, hnr]
          by_cases hlt : nr.expires < nl.expires
          · exact ⟨_, _, by rw [if_pos hlt], h2, by omega⟩
          · exact ⟨_, _, by rw [if_neg hlt], hcn, by omega⟩
        · exact ⟨2 * p + 1, nl, by simp only [if_neg h2], hcn, by omega⟩
      simp only [hpick, hnp]
      by_cases hlt : np.expires < nc.expires
      · rw [if_pos hlt]; exact ⟨_, rfl⟩
      · rw [if_neg hlt]
        obtain ⟨ncc, hncc⟩ : ∃ ncc, t.heap_[c]? = some ncc :=
          ⟨t.heap_[c], List.getElem?_eq_getElem (by omega)⟩
        have hsw : SwapNode_ t p c
            = some { heap_ := (t.heap_.set p ncc).set c np,
                     ref_ := (t.ref_.assign ncc.id p).assign np.id c } := by
          unfold SwapNode_
          simp only [hnp, hncc]
        rw [hsw, Option.some_bind]
        exact ih _ c f (by omega) hcl (by simp only [List.length_set]; exact hn)
          (by simp only [List.length_set]; exact hlen) (by omega)
    · rw [if_neg hcn]; exact ⟨_, rfl⟩

theorem siftdown_total (t : HeapTimer) (i n : Nat) (hi : i < n) (hn : n ≤ t.heap_.length)
    (hlen : t.heap_.length ≤ HEAP_MAX) : ∃ r, siftdown_ t i n = some r := by
  obtain ⟨r, hr⟩ := siftdownLoop_total n (n - i) t i (n + 1) (le_refl _) hi hn hlen (by omega)
  unfold siftdown_
  rw [if_pos (by omega), hr]
  exact ⟨_, rfl⟩

/-- Raising the expiration at position `i` of an ordered heap leaves only the
edges below `i` to repair. -/
theorem DownInv_set_later (h : List TimerNode) (i : Nat) (node a : TimerNode) (hM : MinHeap h)
    (hg : h[i]? = some node) (hle : node.expires ≤ a.expires) :
    DownInv (h.set i a) i h.length := by
  have hi : i < h.length := getElem?_lt h i node hg
  have hnew : expAt (h.set i a) i = a.expires := by
    apply expAt_of_get
    rw [List.getElem?_set_self hi]
  have hold : expAt h i = node.expires := expAt_of_get h i node hg
  constructor
  · intro k hk h1 hpar
    by_cases hki : k = i
    · rw [hki] at hpar h1 ⊢
      rw [hnew, expAt_set_ne h i _ a hpar]
      have := hM i hi h1
      omega
    · rw [expAt_set_ne h i k a hki, expAt_set_ne h i _ a hpar]
      exact hM k hk h1
  · intro k hk h1 hpar hp1
    have hki : k ≠ i := by omega
    have hpi : (i - 1) / 2 ≠ i := by omega
    rw [expAt_set_ne h i k a hki, expAt_set_ne h i _ a hpi]
    have a1 := hM i hi hp1
    have a2 := hM k hk h1
    rw [hpar] at a2
    omega

/-- `adjust` with a new expiration not earlier than the old one. -/
theorem adjust_later (t : HeapTimer) (now id timeout : Int) (i : Nat)
    (hlen : t.heap_.length < HEAP_MAX) (hM : MinHeap t.heap_) (hI : IndexInv t)
    (hf : t.ref_.find id = some i)
    (hle : ∀ nd ∈ t.heap_, nd.id = id → nd.expires ≤ now + MS timeout) :
    ∃ t1, adjust t now id timeout = some t1 ∧ MinHeap t1.heap_ ∧ IndexInv t1 ∧
      ∃ j nd, t1.ref_.find id = some j ∧ t1.heap_[j]? = some nd ∧ nd.id = id ∧
        nd.expires = now + MS timeout := by
  obtain ⟨node, hg, hnid⟩ := hI.2.1 id i hf
  have hi : i < t.heap_.length := getElem?_lt t.heap_ i node hg
  have hnode : node.expires ≤ now + MS timeout :=
    hle node (List.getElem?_mem hg) hnid
  have hD := DownInv_set_later t.heap_ i node { node with expires := now + MS timeout } hM hg
    hnode
  have hls : (t.heap_.set i { node with expires := now + MS timeout }).length
      = t.heap_.length := List.length_set _ _ _
  obtain ⟨r, hr⟩ := siftdown_total
    { t with heap_ := t.heap_.set i { node with expires := now + MS timeout } } i
    t.heap_.length hi (by rw [hls]) (by rw [hls]; omega)
  have hadj : adjust t now id timeout = some r.1 := by
    unfold adjust
    rw [if_neg (by omega), hf]
    simp only [hg, hls, hr, Option.map_some']
  have hspec := siftdown_spec t.heap_.length
    { t with heap_ := t.heap_.set i { node with expires := now + MS timeout } } i r
    (t.heap_.set i { node with expires := now + MS timeout }) hi (by rw [hls])
    (by rw [hls]; omega) hD
    ⟨by rw [hls], fun _ _ => rfl, List.Perm.refl _⟩ hr
  obtain ⟨hMr, hFl, _, hFp⟩ := hspec
  have hI1 : IndexInv r.1 := adjust_index t r.1 now id timeout hI hadj
  refine ⟨r.1, hadj, ?_, hI1, ?_⟩
  · unfold MinHeap
    rw [hFl, hls]
    exact hMr
  · have hmem : ({ node with expires := now + MS timeout } : TimerNode) ∈ r.1.heap_ := by
      apply hFp.symm.subset
      exact List.getElem?_mem (List.getElem?_set_self (by omega))
    obtain ⟨j, hj⟩ := List.mem_iff_getElem?.mp hmem
    have := hI1.1 j _ hj
    simp only [hnid] at this
    exact ⟨j, _, this, hj, hnid, rfl⟩

/-- C30: for a heap (shorter than `2^63 - 1`) that satisfies min-heap order and
index consistency and an id present in it, if the new expiration
`now + timeout` is not earlier than the current expiration of the node of that
id, then `adjust(id, timeout)` completes, the heap again satisfies min-heap
order and index consistency, and the node `heap_[ref_[id]]` has the id and the
new expiration. -/
theorem adjust_extended_deadline_keeps_heap (t : HeapTimer) (now id timeout : Int)
    (hlen : t.heap_.length < HEAP_MAX) (hM : MinHeap t.heap_) (hI : IndexConsistent t)
    (hid : id ∈ t.ref_.map Prod.fst)
    (hle : ∀ nd ∈ t.heap_, nd.id = id → nd.expires ≤ now + MS timeout) :
    ∃ t1, adjust t now id timeout = some t1 ∧ MinHeap t1.heap_ ∧ IndexConsistent t1 ∧
      ∃ j nd, t1.ref_.find id = some j ∧ t1.heap_[j]? = some nd ∧ nd.id = id ∧
        nd.expires = now + MS timeout := by
  obtain ⟨e, he, hfst⟩ := List.mem_map.mp hid
  have hf : t.ref_.find id = some e.2 := by
    rw [find_eq_some_iff t.ref_ hI.1 id e.2, ← hfst]
    exact he
  obtain ⟨t1, h1, h2, h3, h4⟩ :=
    adjust_later t now id timeout e.2 hlen hM ((IndexInv_iff t).mpr hI) hf hle
  exact ⟨t1, h1, h2, (IndexInv_iff t1).mp h3, h4⟩

/-- Witness for C30: the root of a heap of three nodes gets a deadline later
than both children and sinks to the left child's place. -/
theorem adjust_extended_deadline_keeps_heap_witness :
    ∃ t1, adjust
        { heap_ := [{ id := 5, expires := 10, cb := 0 }, { id := 6, expires := 20, cb := 0 },
            { id := 7, expires := 30, cb := 0 }],
          ref_ := [(5, 0), (6, 1), (7, 2)] } 25 5 0 = some t1 ∧
      MinHeap t1.heap_ ∧ IndexConsistent t1 ∧
      ∃ j nd, t1.ref_.find 5 = some j ∧ t1.heap_[j]? = some nd ∧ nd.id = 5 ∧
        nd.expires = 25 + MS 0 :=
  adjust_extended_deadline_keeps_heap
    { heap_ := [{ id := 5, expires := 10, cb := 0 }, { id := 6, expires := 20, cb := 0 },
        { id := 7, expires := 30, cb := 0 }],
      ref_ := [(5, 0), (6, 1), (7, 2)] } 25 5 0 (by decide) (by decide) (by decide) (by decide)
    (by decide)

/-- C23 (evaluation at the failing inputs): `siftup_(0)` computes the parent
index `(0 - 1) / 2` on `size_t`, which is `2^63 - 1`, and reads `heap_` there,
outside the vector (`none` in the model); `while (j >= 0)` never stops the
loop, `j` being unsigned.  So `add` on an empty timer, `pop` on a heap of two
nodes, and `siftup_(1)` on two nodes with equal expirations (which swaps and
goes on from the root) all read an out-of-range slot. -/
theorem siftup_reads_outside_heap_at_root :
    szSub 0 1 / 2 = 9223372036854775807 ∧
    add empty 0 5 1000 7 = none ∧
    pop { heap_ := [{ id := 5, expires := 10, cb := 0 }, { id := 6, expires := 20, cb := 0 }],
          ref_ := [(5, 0), (6, 1)] } = none ∧
    siftup_ { heap_ := [{ id := 5, expires := 10, cb := 0 }, { id := 6, expires := 10, cb := 0 }],
              ref_ := [(5, 0), (6, 1)] } 1 = none := by
  decide

/-- C7 (evaluation at the failing inputs): the empty heap is in min-heap order,
and `add(5, 1000, cb)` on the empty timer appends the node and calls
`siftup_(0)`, which reads `heap_[(0 - 1) / 2]` outside the vector, so no heap
results.  The same happens when `add` brings a new earliest deadline to an
ordered heap of one node (the node is swapped to the root and the loop goes on
from there), and when `doWork` removes the root of an ordered heap of two
nodes (the last node is swapped to the root, does not sink, and is sifted up
from index 0). -/
theorem sift_up_from_root_yields_no_heap :
    MinHeap empty.heap_ ∧ (TimerOp.add 0 5 1000 7).run empty = none ∧
    MinHeap [{ id := 5, expires := 10000000, cb := 0 }] ∧
    (TimerOp.add 0 6 3 0).run
      { heap_ := [{ id := 5, expires := 10000000, cb := 0 }], ref_ := [(5, 0)] } = none ∧
    MinHeap [{ id := 5, expires := 10, cb := 0 }, { id := 6, expires := 20, cb := 0 }] ∧
    (TimerOp.doWork 5).run
      { heap_ := [{ id := 5, expires := 10, cb := 0 }, { id := 6, expires := 20, cb := 0 }],
        ref_ := [(5, 0), (6, 1)] } = none := by
  decide

/-- C8 (evaluation at the failing input): the empty timer is index-consistent,
and the first `add` on it, whatever the clock reading, id, timeout and
callback, produces no state: with `id < 0` the `assert` fails, otherwise the
node is appended at index 0 and `siftup_(0)` reads `heap_[(0 - 1) / 2]`,
an index outside the vector. -/
theorem first_add_yields_no_state (now id timeout : Int) (cb : Nat) :
    IndexConsistent empty ∧ (TimerOp.add now id timeout cb).run empty = none := by
  refine ⟨by decide, ?_⟩
  simp only [TimerOp.run, add]
  by_cases h : id < 0
  · rw [if_pos h]
  · rw [if_neg h]
    have hs : szSub 0 1 / 2 = 9223372036854775807 := by decide
    simp [empty, RefMap.find, siftup_, siftupLoop, hs]

end HeapTimer

/-! ## HTTP request, response and connection -/

namespace HttpRequest

theorem StrMap_find_assign (m : StrMap) (k v x : Str) :
    StrMap.find (StrMap.assign m k v) x = if k = x then some v else StrMap.find m x := by
  unfold StrMap.assign
  simp only [StrMap.find]
  by_cases h : k = x
  · simp [h]
  · rw [if_neg h, if_neg h]
    induction m with
    | nil => simp [StrMap.find]
    | cons e rest ih =>
      obtain ⟨k1, v1⟩ := e
      by_cases h1 : k1 = k
      · subst h1
        simp only [List.filter_cons, ne_eq, not_true_eq_false, decide_False, Bool.false_eq_true,
          if_false, StrMap.find, if_neg h]
        exact ih
      · simp only [List.filter_cons, ne_eq, h1, not_false_eq_true, decide_True, if_true,
          StrMap.find]
        rw [ih]

theorem find_foldl_assign (hs : List (Str × Str)) : ∀ (m : StrMap) (x : Str),
    StrMap.find (hs.foldl (fun m h => StrMap.assign m h.1 h.2) m) x =
      match lastValue hs x with
      | some v => some v
      | none => StrMap.find m x := by
  induction hs with
  | nil => intro m x; simp [lastValue]
  | cons h tl ih =>
    intro m x
    rw [List.foldl_cons, ih]
    simp only [lastValue]
    cases hl : lastValue tl x with
    | some v => simp
    | none =>
      simp only [StrMap_find_assign]
      by_cases hx : h.1 = x
      · simp [hx]
      · simp [hx]

theorem mem_of_lastValue (hs : List (Str × Str)) (x : Str) :
    ∀ v, lastValue hs x = some v → x ∈ hs.map Prod.fst := by
  induction hs with
  | nil => intro v hl; simp [lastValue] at hl
  | cons b tl ih =>
    intro v hl
    simp only [lastValue] at hl
    cases hl2 : lastValue tl x with
    | some w => exact List.mem_cons_of_mem _ (ih w hl2)
    | none =>
      rw [hl2] at hl
      simp only at hl
      by_cases hb : b.1 = x
      · rw [List.map_cons, ← hb]; exact List.mem_cons_self _ _
      · rw [if_neg hb] at hl; exact Option.noConfusion hl

theorem lastValue_of_nodup (hs : List (Str × Str)) (hn : (hs.map Prod.fst).Nodup)
    (h : Str × Str) (hm : h ∈ hs) : lastValue hs h.1 = some h.2 := by
  induction hs with
  | nil => exact absurd hm (List.not_mem_nil _)
  | cons a tl ih =>
    rw [List.map_cons, List.nodup_cons] at hn
    simp only [lastValue]
    rcases List.mem_cons.mp hm with he | ht
    · subst he
      have : lastValue tl h.1 = none := by
        cases hl : lastValue tl h.1 with
        | none => rfl
        | some v => exact absurd (mem_of_lastValue tl h.1 v hl) hn.1
      rw [this]
      simp
    · rw [ih hn.2 ht]

/-- C3 (evaluation at the failing input): for the form body `k=%20`, sent by
POST with `Content-Type: application/x-www-form-urlencoded`, `GetPost("k")`
after parsing is the three bytes `%32`, not the space that `%20` encodes: the
scan stores the decimal digits of the decoded value behind the `%`. -/
theorem GetPost_percent20_is_percent32 :
    (parse rejectAll
        (Init { state_ := .FINISH, method_ := [], path_ := [], version_ := [], body_ := [],
                header_ := [], post_ := [] })
        (Buffer.ofBytes (bytes
          "POST /x HTTP/1.1\r\nContent-Type: application/x-www-form-urlencoded\r\n\r\nk=%20"))).bind
      (fun r => r.1.GetPost (bytes "k"))
      = some (bytes "%32") ∧
    bytes "%32" ≠ bytes " " := by
  decide

theorem rewritePath_eq_defaultPage (p : Str) : rewritePath p = defaultPage p := by
  unfold rewritePath defaultPage
  by_cases h0 : p = bytes "/"
  · rw [if_pos h0, if_pos h0]
  · rw [if_neg h0, if_neg h0]
    by_cases h1 : p = bytes "/index"
    · rw [h1]; decide
    by_cases h2 : p = bytes "/register"
    · rw [h2]; decide
    by_cases h3 : p = bytes "/login"
    · rw [h3]; decide
    by_cases h4 : p = bytes "/welcome"
    · rw [h4]; decide
    by_cases h5 : p = bytes "/video"
    · rw [h5]; decide
    by_cases h6 : p = bytes "/picture"
    · rw [h6]; decide
    have hc : DEFAULT_HTML.contains p = false := by
      simp [DEFAULT_HTML, h1, h2, h3, h4, h5, h6]
    rw [hc]
    simp [h1, h2, h3, h4, h5, h6]

theorem defaultPage_idem (p : Str) : defaultPage (defaultPage p) = defaultPage p := by
  by_cases h0 : p = bytes "/"
  · rw [h0]; decide
  by_cases h1 : p = bytes "/index"
  · rw [h1]; decide
  by_cases h2 : p = bytes "/register"
  · rw [h2]; decide
  by_cases h3 : p = bytes "/login"
  · rw [h3]; decide
  by_cases h4 : p = bytes "/welcome"
  · rw [h4]; decide
  by_cases h5 : p = bytes "/video"
  · rw [h5]; decide
  by_cases h6 : p = bytes "/picture"
  · rw [h6]; decide
  have e : defaultPage p = p := by
    unfold defaultPage
    simp [h0, h1, h2, h3, h4, h5, h6]
  rw [e, e]

/-- C19: `ParsePath_` changes the path only, and the new path is the one the
description gives: `/` becomes `/index.html`, each of `/index`, `/register`,
`/login`, `/welcome`, `/video`, `/picture` gets `.html` appended, every other
path is left unchanged; applying `ParsePath_` twice equals applying it once. -/
theorem ParsePath_rewrites_default_pages (r : HttpRequest) :
    ParsePath_ r = { r with path_ := defaultPage r.path_ } ∧
    ParsePath_ (ParsePath_ r) = ParsePath_ r := by
  unfold ParsePath_
  simp only [rewritePath_eq_defaultPage, defaultPage_idem, and_self]

/-- C17 (evaluation at the failing input): registration of the user `bob` with
password `pw` on a database that has no such user returns `true` whatever the
outcome of the INSERT statement, so also when the INSERT fails: after
`if (mysql_query(sql, order)) { flag = false; }` the code assigns
`flag = true` unconditionally. -/
theorem UserVerify_register_ignores_insert_failure (insertOk : Str → Bool) :
    (UserVerify { select := fun _ => some [], insertOk := insertOk } { connQue_ := [1] }
        (bytes "bob") (bytes "pw") false).map Prod.fst = some true := by
  rfl

theorem formLoop_end (fuel n : Nat) (s : FormScan) (h : ¬ s.i < n) :
    formLoop (fuel + 1) n s = some s := by
  rw [formLoop, if_neg h]

/-- One iteration of the form scan on a byte that is none of `=`, `+`, `%`, `&`. -/
theorem formLoop_plain_step (fuel n : Nat) (body : Str) (m : StrMap) (key : Str) (i j c : Nat)
    (hi : i < n) (hg : body[i]? = some c) (hc : c ≠ 61 ∧ c ≠ 38 ∧ c ≠ 43 ∧ c ≠ 37) :
    formLoop (fuel + 1) n { body := body, post := m, key := key, i := i, j := j } =
      formLoop fuel n { body := body, post := m, key := key, i := i + 1, j := j } := by
  rw [formLoop]
  simp only [if_pos hi, hg, if_neg hc.1, if_neg hc.2.2.1, if_neg hc.2.2.2, if_neg hc.2.1,
    Option.some_bind]

/-- One iteration of the form scan on `=`. -/
theorem formLoop_eq_step (fuel n : Nat) (body : Str) (m : StrMap) (key : Str) (i j : Nat)
    (hi : i < n) (hg : body[i]? = some 61) :
    formLoop (fuel + 1) n { body := body, post := m, key := key, i := i, j := j } =
      formLoop fuel n
        { body := body, post := m, key := slice body j (i - j), i := i + 1, j := i + 1 } := by
  rw [formLoop]
  simp only [if_pos hi, hg, if_true, Option.some_bind]

/-- One iteration of the form scan on `&`. -/
theorem formLoop_amp_step (fuel n : Nat) (body : Str) (m : StrMap) (key : Str) (i j : Nat)
    (hi : i < n) (hg : body[i]? = some 38) :
    formLoop (fuel + 1) n { body := body, post := m, key := key, i := i, j := j } =
      formLoop fuel n
        { body := body, post := m.assign key (slice body j (i - j)), key := key, i := i + 1,
          j := i + 1 } := by
  rw [formLoop]
  have a : ¬ (38 : Nat) = 61 := by decide
  have b : ¬ (38 : Nat) = 43 := by decide
  have c : ¬ (38 : Nat) = 37 := by decide
  simp only [if_pos hi, hg, if_neg a, if_neg b, if_neg c, if_true, Option.some_bind]

theorem getElem?_mid (pre : Str) (c : Nat) (post : Str) :
    (pre ++ c :: post)[pre.length]? = some c := by
  rw [List.getElem?_append_right (le_refl _)]
  simp

/-- The scan over a run of bytes none of which is `=`, `+`, `%`, `&`. -/
theorem formLoop_plain_run (seg : Str) : PlainText seg →
    ∀ (fuel : Nat) (pre post : Str) (m : StrMap) (key : Str) (j : Nat),
      formLoop (fuel + seg.length) (pre ++ (seg ++ post)).length
          { body := pre ++ (seg ++ post), post := m, key := key, i := pre.length, j := j } =
        formLoop fuel (pre ++ (seg ++ post)).length
          { body := pre ++ (seg ++ post), post := m, key := key, i := pre.length + seg.length,
            j := j } := by
  induction seg with
  | nil => intro _ fuel pre post m key j; rfl
  | cons c seg ih =>
    intro hp fuel pre post m key j
    have hc := hp c (List.mem_cons_self _ _)
    have hp2 : PlainText seg := fun x hx => hp x (List.mem_cons_of_mem _ hx)
    have hg : (pre ++ (c :: seg ++ post))[pre.length]? = some c :=
      getElem?_mid pre c (seg ++ post)
    have hlt : pre.length < (pre ++ (c :: seg ++ post)).length := by
      simp only [List.length_append, List.length_cons]
      omega
    have e : fuel + (c :: seg).length = (fuel + seg.length) + 1 := by
      simp only [List.length_cons]; omega
    rw [e, formLoop_plain_step _ _ _ m key _ j c hlt hg hc]
    have hb : pre ++ (c :: seg ++ post) = (pre ++ [c]) ++ (seg ++ post) := by simp
    have hl : pre.length + 1 = (pre ++ [c]).length := by simp
    rw [hb, hl, ih hp2 fuel (pre ++ [c]) post m key j]
    have e2 : (pre ++ [c]).length + seg.length = pre.length + (c :: seg).length := by
      simp only [List.length_append, List.length_cons, List.length_nil]; omega
    rw [e2]

theorem slice_mid (pre seg post : Str) :
    slice (pre ++ (seg ++ post)) pre.length seg.length = seg := by
  unfold slice
  rw [List.drop_left, List.take_left]

/-- The scan over a pair `k=v&`. -/
theorem formLoop_pair (k v : Str) (hk : PlainText k) (hv : PlainText v) (fuel : Nat)
    (pre post : Str) (m : StrMap) (key : Str) :
    formLoop (fuel + (k.length + v.length + 2)) (pre ++ (k ++ 61 :: (v ++ 38 :: post))).length
        { body := pre ++ (k ++ 61 :: (v ++ 38 :: post)), post := m, key := key,
          i := pre.length, j := pre.length } =
      formLoop fuel (pre ++ (k ++ 61 :: (v ++ 38 :: post))).length
        { body := pre ++ (k ++ 61 :: (v ++ 38 :: post)), post := m.assign k v, key := k,
          i := pre.length + (k.length + v.length + 2),
          j := pre.length + (k.length + v.length + 2) } := by
  have e1 : fuel + (k.length + v.length + 2) = (fuel + (v.length + 1) + 1) + k.length := by omega
  rw [e1, formLoop_plain_run k hk _ pre (61 :: (v ++ 38 :: post)) m key pre.length]
  have hg1 : (pre ++ (k ++ 61 :: (v ++ 38 :: post)))[pre.length + k.length]? = some 61 := by
    have := getElem?_mid (pre ++ k) 61 (v ++ 38 :: post)
    rw [List.length_append, List.append_assoc pre k _] at this
    exact this
  have hl1 : pre.length + k.length < (pre ++ (k ++ 61 :: (v ++ 38 :: post))).length := by
    simp only [List.length_append, List.length_cons]; omega
  rw [formLoop_eq_step _ _ _ m key _ _ hl1 hg1]
  have e0 : pre.length + k.length - pre.length = k.length := by omega
  rw [e0, slice_mid pre k]
  have hb2 : pre ++ (k ++ 61 :: (v ++ 38 :: post)) = (pre ++ k ++ [61]) ++ (v ++ 38 :: post) := by
    simp
  have hl2 : pre.length + k.length + 1 = (pre ++ k ++ [61]).length := by
    simp only [List.length_append, List.length_cons, List.length_nil]
  have e2 : fuel + (v.length + 1) = (fuel + 1) + v.length := by omega
  rw [e2, hb2, hl2, formLoop_plain_run v hv _ (pre ++ k ++ [61]) (38 :: post) m k _]
  have hg3 : ((pre ++ k ++ [61]) ++ (v ++ 38 :: post))[(pre ++ k ++ [61]).length + v.length]?
      = some 38 := by
    have := getElem?_mid (pre ++ k ++ [61] ++ v) 38 post
    rw [List.length_append (pre ++ k ++ [61]) v,
      List.append_assoc (pre ++ k ++ [61]) v (38 :: post)] at this
    exact this
  have hl3 : (pre ++ k ++ [61]).length + v.length
      < ((pre ++ k ++ [61]) ++ (v ++ 38 :: post)).length := by
    simp only [List.length_append, List.length_cons]; omega
  rw [formLoop_amp_step _ _ _ m k _ _ hl3 hg3]
  have e4 : (pre ++ k ++ [61]).length + v.length - (pre ++ k ++ [61]).length = v.length := by
    omega
  rw [e4, slice_mid (pre ++ k ++ [61]) v]
  have e6 : (pre ++ k ++ [61]).length + v.length + 1 = pre.length + (k.length + v.length + 2) := by
    simp only [List.length_append, List.length_cons, List.length_nil]; omega
  rw [e6]

/-- The whole scan of a body of plain pairs. -/
theorem formLoop_formBody (last : Str × Str) (hl : PlainText last.1 ∧ PlainText last.2)
    (init : List (Str × Str)) : (∀ p ∈ init, PlainText p.1 ∧ PlainText p.2) →
    ∀ (extra : Nat) (pre : Str) (m : StrMap) (key : Str),
      formLoop (extra + ((formBody init last).length + 1)) (pre ++ formBody init last).length
          { body := pre ++ formBody init last, post := m, key := key, i := pre.length,
            j := pre.length } =
        some { body := pre ++ formBody init last,
               post := init.foldl (fun m p => StrMap.assign m p.1 p.2) m, key := last.1,
               i := (pre ++ formBody init last).length,
               j := (pre ++ formBody init last).length - last.2.length } := by
  induction init with
  | nil =>
    intro _ extra pre m key
    obtain ⟨k, v⟩ := last
    simp only [formBody, List.foldl_nil]
    have e1 : extra + ((k ++ 61 :: v).length + 1) = (extra + 1 + v.length + 1) + k.length := by
      simp only [List.length_append, List.length_cons]; omega
    rw [e1, formLoop_plain_run k hl.1 _ pre (61 :: v) m key pre.length]
    have hg1 : (pre ++ (k ++ 61 :: v))[pre.length + k.length]? = some 61 := by
      have := getElem?_mid (pre ++ k) 61 v
      rw [List.length_append, List.append_assoc pre k _] at this
      exact this
    have hl1 : pre.length + k.length < (pre ++ (k ++ 61 :: v)).length := by
      simp only [List.length_append, List.length_cons]; omega
    rw [formLoop_eq_step _ _ _ m key _ _ hl1 hg1]
    have e0 : pre.length + k.length - pre.length = k.length := by omega
    rw [e0, slice_mid pre k]
    have hb2 : pre ++ (k ++ 61 :: v) = (pre ++ k ++ [61]) ++ (v ++ []) := by simp
    have hl2 : pre.length + k.length + 1 = (pre ++ k ++ [61]).length := by
      simp only [List.length_append, List.length_cons, List.length_nil]
    rw [hb2, hl2, formLoop_plain_run v hl.2 _ (pre ++ k ++ [61]) [] m k _]
    rw [formLoop_end]
    · have e3 : (pre ++ k ++ [61]).length + v.length = ((pre ++ k ++ [61]) ++ (v ++ [])).length := by
        simp only [List.length_append, List.length_cons, List.length_nil]; omega
      have e4 : ((pre ++ k ++ [61]) ++ (v ++ [])).length - v.length = (pre ++ k ++ [61]).length := by
        simp only [List.length_append, List.length_cons, List.length_nil]; omega
      rw [e3, e4]
    · simp only [List.length_append, List.length_cons, List.length_nil]; omega
  | cons p rest ih =>
    intro hall extra pre m key
    obtain ⟨hk, hv⟩ := hall p (List.mem_cons_self _ _)
    have hrest : ∀ q ∈ rest, PlainText q.1 ∧ PlainText q.2 :=
      fun q hq => hall q (List.mem_cons_of_mem _ hq)
    simp only [formBody, List.foldl_cons]
    have e1 : extra + ((p.1 ++ 61 :: (p.2 ++ 38 :: formBody rest last)).length + 1)
        = (extra + ((formBody rest last).length + 1)) + (p.1.length + p.2.length + 2) := by
      simp only [List.length_append, List.length_cons]; omega
    rw [e1, formLoop_pair p.1 p.2 hk hv _ pre (formBody rest last) m key]
    have hb : pre ++ (p.1 ++ 61 :: (p.2 ++ 38 :: formBody rest last))
        = (pre ++ (p.1 ++ 61 :: (p.2 ++ [38]))) ++ formBody rest last := by simp
    have hlen : pre.length + (p.1.length + p.2.length + 2)
        = (pre ++ (p.1 ++ 61 :: (p.2 ++ [38]))).length := by
      simp only [List.length_append, List.length_cons, List.length_nil]; omega
    rw [hb, hlen, ih hrest extra (pre ++ (p.1 ++ 61 :: (p.2 ++ [38]))) (m.assign p.1 p.2) p.1]

theorem formBody_suffix (last : Str × Str) (init : List (Str × Str)) :
    ∃ X, formBody init last = X ++ last.2 ∧ 0 < X.length := by
  induction init with
  | nil => exact ⟨last.1 ++ [61], by simp [formBody], by simp⟩
  | cons p rest ih =>
    obtain ⟨X, hX, _⟩ := ih
    exact ⟨p.1 ++ 61 :: (p.2 ++ 38 :: X), by simp [formBody, hX], by simp⟩

theorem find_foldl_nil (hs : List (Str × Str)) (x : Str) :
    StrMap.find (hs.foldl (fun m h => StrMap.assign m h.1 h.2) []) x = lastValue hs x := by
  rw [find_foldl_assign]
  cases lastValue hs x <;> rfl

/-- `ParseFromUrlencoded_` on a body of plain pairs, starting from an empty
form map: it completes, and `GetPost` gives `formValue`. -/
theorem ParseFromUrlencoded_formBody (r : HttpRequest) (init : List (Str × Str))
    (last : Str × Str) (hall : ∀ p ∈ init, PlainText p.1 ∧ PlainText p.2)
    (hl : PlainText last.1 ∧ PlainText last.2) (hb : r.body_ = formBody init last)
    (hp : r.post_ = []) :
    ∃ r1, ParseFromUrlencoded_ r = some r1 ∧ r1.body_ = r.body_ ∧
      ∀ k, k ≠ [] → GetPost r1 k = some (formValue init last k) := by
  obtain ⟨X, hX, hXpos⟩ := formBody_suffix last init
  have hscan := formLoop_formBody last hl init hall 0 [] [] []
  simp only [List.nil_append, List.length_nil, Nat.zero_add] at hscan
  have hlen : (formBody init last).length = X.length + last.2.length := by
    rw [hX, List.length_append]
  have hne : ¬ (formBody init last).length = 0 := by omega
  have hslice : slice (formBody init last)
      ((formBody init last).length - last.2.length)
      ((formBody init last).length - ((formBody init last).length - last.2.length))
        = last.2 := by
    have e1 : (formBody init last).length - last.2.length = X.length := by omega
    have e2 : (formBody init last).length - X.length = last.2.length := by omega
    rw [e1, e2, hX]
    unfold slice
    rw [List.drop_left, List.take_length]
  have hfind := find_foldl_nil init
  unfold ParseFromUrlencoded_
  rw [hb, hp, if_neg hne, hscan]
  simp only [Option.some_bind]
  rw [if_pos (Nat.sub_le _ _), hslice]
  by_cases hc : StrMap.count (init.foldl (fun m p => StrMap.assign m p.1 p.2) []) last.1 = 0 ∧
      (formBody init last).length - last.2.length < (formBody init last).length
  · rw [if_pos hc]
    refine ⟨_, rfl, rfl, ?_⟩
    intro k hk
    have hcount : lastValue init last.1 = none := by
      have := hc.1
      unfold StrMap.count at this
      rw [hfind] at this
      cases hlv : lastValue init last.1 with
      | none => rfl
      | some v => rw [hlv] at this; simp at this
    unfold GetPost formValue
    rw [if_neg hk]
    simp only [StrMap.count, StrMap_find_assign, hfind]
    by_cases hkl : last.1 = k
    · rw [if_pos hkl, ← hkl, hcount]
      simp
    · rw [if_neg hkl]
      cases lastValue init k with
      | none => simp [hkl]
      | some v => simp
  · rw [if_neg hc]
    refine ⟨_, rfl, rfl, ?_⟩
    intro k hk
    unfold GetPost formValue
    rw [if_neg hk]
    simp only [StrMap.count, hfind]
    cases hlv : lastValue init k with
    | some v => simp
    | none =>
      simp only [Option.isSome_none, Bool.false_eq_true, if_false]
      by_cases hkl : last.1 = k
      · rw [if_pos hkl]
        have hcnt : StrMap.count (init.foldl (fun m p => StrMap.assign m p.1 p.2) []) last.1
            = 0 := by
          unfold StrMap.count
          rw [hfind, hkl, hlv]
          rfl
        have hv0 : last.2.length = 0 := by
          by_contra hv
          exact hc ⟨hcnt, by omega⟩
        rw [List.length_eq_zero.mp hv0]
        simp
      · rw [if_neg hkl]
        simp

theorem formValue_of_nodup (init : List (Str × Str)) (last : Str × Str)
    (hd : ((init ++ [last]).map Prod.fst).Nodup) (p : Str × Str) (hp : p ∈ init ++ [last]) :
    formValue init last p.1 = p.2 := by
  rw [List.map_append, List.nodup_append] at hd
  obtain ⟨hdi, _, hdisj⟩ := hd
  unfold formValue
  rcases List.mem_append.mp hp with hi | hl
  · rw [lastValue_of_nodup init hdi p hi]
  · have hpl : p = last := List.mem_singleton.mp hl
    rw [hpl]
    have hnone : lastValue init last.1 = none := by
      cases hlv : lastValue init last.1 with
      | none => rfl
      | some v =>
        exact absurd (mem_of_lastValue init last.1 v hlv)
          (fun hm => hdisj hm (by simp))
    rw [hnone]
    simp

/-- C14: for a form body `k1=v1&k2=v2&...&kn=vn` (`n >= 1`, given as the pairs
closed by `&` and the last pair) with pairwise distinct non-empty keys, where
no key or value contains `=`, `&`, `+` or `%` (values may be empty), of a
length that fits the `int` index of the scan, `ParseFromUrlencoded_` on a
request with an empty form map completes and afterwards `GetPost(ki)` returns
`vi` for every `i`. -/
theorem GetPost_plain_pairs (r : HttpRequest) (init : List (Str × Str)) (last : Str × Str)
    (hplain : ∀ p ∈ init ++ [last], PlainText p.1 ∧ PlainText p.2)
    (hkeys : ∀ p ∈ init ++ [last], p.1 ≠ [])
    (hdistinct : ((init ++ [last]).map Prod.fst).Nodup)
    (_hint : (formBody init last).length < 2147483648)
    (hb : r.body_ = formBody init last) (hp : r.post_ = []) :
    ∃ r1, ParseFromUrlencoded_ r = some r1 ∧
      ∀ p ∈ init ++ [last], GetPost r1 p.1 = some p.2 := by
  obtain ⟨r1, h1, _, hget⟩ := ParseFromUrlencoded_formBody r init last
    (fun p hm => hplain p (List.mem_append_left _ hm))
    (hplain last (List.mem_append_right _ (List.mem_singleton_self _))) hb hp
  refine ⟨r1, h1, ?_⟩
  intro p hm
  rw [hget p.1 (hkeys p hm), formValue_of_nodup init last hdistinct p hm]

/-- Witness for C14: the body `user=bob&lang=&pw=x1`. -/
theorem GetPost_plain_pairs_witness :
    ∃ r1, ParseFromUrlencoded_
        { state_ := .BODY, method_ := bytes "POST", path_ := bytes "/x", version_ := bytes "1.1",
          body_ := formBody [(bytes "user", bytes "bob"), (bytes "lang", bytes "")]
            (bytes "pw", bytes "x1"),
          header_ := [], post_ := [] } = some r1 ∧
      ∀ p ∈ [(bytes "user", bytes "bob"), (bytes "lang", bytes "")] ++ [(bytes "pw", bytes "x1")],
        GetPost r1 p.1 = some p.2 :=
  GetPost_plain_pairs _ [(bytes "user", bytes "bob"), (bytes "lang", bytes "")]
    (bytes "pw", bytes "x1") (by decide) (by decide) (by decide) (by decide) rfl rfl

/-- C15 (evaluation at the failing input): for the form body `a=1&a=2&b=3`,
sent by POST with `Content-Type: application/x-www-form-urlencoded`,
`GetPost("a")` after parsing is `2`, the value of the second occurrence of
`a`, not `1`: a pair closed by `&` is stored with `post_[key] = value`, which
overwrites the value stored before.  The pair that ends the body is stored
under the guard `post_.count(key) == 0`, so for the body `a=1&a=2` the same
call gives `1`, the first value. -/
theorem GetPost_duplicate_key_keeps_later_value :
    formBody [(bytes "a", bytes "1"), (bytes "a", bytes "2")] (bytes "b", bytes "3")
      = bytes "a=1&a=2&b=3" ∧
    (parse rejectAll
        (Init { state_ := .FINISH, method_ := [], path_ := [], version_ := [], body_ := [],
                header_ := [], post_ := [] })
        (Buffer.ofBytes (bytes
          "POST /x HTTP/1.1\r\nContent-Type: application/x-www-form-urlencoded\r\n\r\na=1&a=2&b=3"))).bind
      (fun r => r.1.GetPost (bytes "a"))
      = some (bytes "2") ∧
    bytes "2" ≠ bytes "1" ∧
    (parse rejectAll
        (Init { state_ := .FINISH, method_ := [], path_ := [], version_ := [], body_ := [],
                header_ := [], post_ := [] })
        (Buffer.ofBytes (bytes
          "POST /x HTTP/1.1\r\nContent-Type: application/x-www-form-urlencoded\r\n\r\na=1&a=2"))).bind
      (fun r => r.1.GetPost (bytes "a"))
      = some (bytes "1") := by
  decide

/-- What the scan does with repeated keys, which is not what the
specification asks for (first value kept): for a form body of pairs `k=v`
joined by `&` (no key or value contains `=`, `&`, `+` or `%`; keys may
repeat), parsed into an empty form map, `GetPost(key)` for a non-empty key is
the value of the last pair with that key among the pairs closed by `&`; when
no such pair has the key it is the value of the final pair if that has the
key, and empty otherwise. -/
theorem GetPost_repeated_keys (r : HttpRequest) (init : List (Str × Str)) (last : Str × Str)
    (key : Str) (hplain : ∀ p ∈ init ++ [last], PlainText p.1 ∧ PlainText p.2)
    (hkey : key ≠ []) (_hint : (formBody init last).length < 2147483648)
    (hb : r.body_ = formBody init last) (hp : r.post_ = []) :
    ∃ r1, ParseFromUrlencoded_ r = some r1 ∧
      GetPost r1 key = some (formValue init last key) ∧
      (∀ v, lastValue init key = some v → GetPost r1 key = some v) ∧
      (lastValue init key = none → last.1 = key → GetPost r1 key = some last.2) := by
  obtain ⟨r1, h1, _, hget⟩ := ParseFromUrlencoded_formBody r init last
    (fun p hm => hplain p (List.mem_append_left _ hm))
    (hplain last (List.mem_append_right _ (List.mem_singleton_self _))) hb hp
  refine ⟨r1, h1, hget key hkey, ?_, ?_⟩
  · intro v hv
    rw [hget key hkey]
    unfold formValue
    rw [hv]
  · intro hn hl
    rw [hget key hkey]
    unfold formValue
    rw [hn]
    simp [hl]

/-- An instance of `GetPost_repeated_keys`: the body `a=1&a=2&a=3` and the key
`a`. -/
theorem GetPost_repeated_keys_witness :
    ∃ r1, ParseFromUrlencoded_
        { state_ := .BODY, method_ := bytes "POST", path_ := bytes "/x", version_ := bytes "1.1",
          body_ := formBody [(bytes "a", bytes "1"), (bytes "a", bytes "2")]
            (bytes "a", bytes "3"),
          header_ := [], post_ := [] } = some r1 ∧
      GetPost r1 (bytes "a")
        = some (formValue [(bytes "a", bytes "1"), (bytes "a", bytes "2")]
            (bytes "a", bytes "3") (bytes "a")) ∧
      (∀ v, lastValue [(bytes "a", bytes "1"), (bytes "a", bytes "2")] (bytes "a") = some v →
        GetPost r1 (bytes "a") = some v) ∧
      (lastValue [(bytes "a", bytes "1"), (bytes "a", bytes "2")] (bytes "a") = none →
        (bytes "a", bytes "3").1 = bytes "a" → GetPost r1 (bytes "a") = some (bytes "3")) :=
  GetPost_repeated_keys _ [(bytes "a", bytes "1"), (bytes "a", bytes "2")]
    (bytes "a", bytes "3") (bytes "a") (by decide) (by decide) (by decide) rfl rfl

/-- C24 (evaluation at the failing inputs): on the body `a=%` the scan reads
`body_[4]`, one past the terminating NUL of a string of size 3, and on `a=%4`
it writes `body_[4]`, the position `body.size()`: both are accesses outside
the body (`none` in the model), the `%` case having no check that two more
characters follow.  On `a=%41` every access is inside the body. -/
theorem form_scan_leaves_body_on_trailing_percent :
    ParseFromUrlencoded_
      { state_ := .BODY, method_ := bytes "POST", path_ := bytes "/x", version_ := bytes "1.1",
        body_ := bytes "a=%", header_ := [], post_ := [] } = none ∧
    ParseFromUrlencoded_
      { state_ := .BODY, method_ := bytes "POST", path_ := bytes "/x", version_ := bytes "1.1",
        body_ := bytes "a=%4", header_ := [], post_ := [] } = none ∧
    (ParseFromUrlencoded_
      { state_ := .BODY, method_ := bytes "POST", path_ := bytes "/x", version_ := bytes "1.1",
        body_ := bytes "a=%41", header_ := [], post_ := [] }).isSome = true ∧
    parse rejectAll
        (Init { state_ := .FINISH, method_ := [], path_ := [], version_ := [], body_ := [],
                header_ := [], post_ := [] })
        (Buffer.ofBytes (bytes
          "POST /x HTTP/1.1\r\nContent-Type: application/x-www-form-urlencoded\r\n\r\na=%")) = none := by
  decide

/-- C27 (evaluation at the failing input): the buffer holds one complete POST
request whose body `a=1` has no CR LF.  `parse` returns `true` in state
`FINISH`, and the buffer still has the 3 bytes of the body readable: the loop
leaves by `if (lineEnd == buff.BeginWrite()) break;` before
`RetrieveUntil`.  A following `parse` of the same buffer, as `process()` does
on a keep-alive connection, takes `a=1` for a request line and returns
`false`. -/
theorem parse_leaves_body_in_buffer :
    (parse rejectAll
        (Init { state_ := .FINISH, method_ := [], path_ := [], version_ := [], body_ := [],
                header_ := [], post_ := [] })
        (Buffer.ofBytes (bytes
          "POST /x HTTP/1.1\r\nContent-Type: application/x-www-form-urlencoded\r\nConnection: keep-alive\r\n\r\na=1"))).map
      (fun r => (r.2.2, r.1.state_, r.1.body_, r.2.1.ReadableBytes, r.2.1.readable))
      = some (true, PARSE_STATE.FINISH, bytes "a=1", 3, bytes "a=1") ∧
    (parse rejectAll
        (Init { state_ := .FINISH, method_ := [], path_ := [], version_ := [], body_ := [],
                header_ := [], post_ := [] })
        (Buffer.ofBytes (bytes
          "POST /x HTTP/1.1\r\nContent-Type: application/x-www-form-urlencoded\r\nConnection: keep-alive\r\n\r\na=1"))).bind
      (fun r => (parse rejectAll (Init r.1) r.2.1).map fun r2 => r2.2.2)
      = some false := by
  decide

/-- C29 (evaluation at the failing input): a login of `bob` with the right
password on a pool whose queue holds the handles 1 and 2.  `UserVerify`
returns `true` and the queue afterwards holds 2, 1, 1: three entries for two
connections, the handle 1 twice.  `SqlConnRAII(&sql, ...)` is an unnamed
temporary, so its destructor returns the connection at the end of that
statement, and `FreeConn(sql)` returns it a second time at the end. -/
theorem UserVerify_returns_connection_twice :
    (UserVerify { select := fun _ => some [(bytes "bob", bytes "pw")], insertOk := fun _ => true }
        { connQue_ := [1, 2] } (bytes "bob") (bytes "pw") true).map
      (fun r => (r.1, r.2.connQue_)) = some (true, [2, 1, 1]) ∧
    ([2, 1, 1] : List Nat).length ≠ ([1, 2] : List Nat).length := by
  decide

end HttpRequest

namespace HttpResponse

set_option maxRecDepth 100000

theorem to_string_length (n : Nat) (h : n < 10 ^ 19) : (to_string (n : Int)).length ≤ 19 := by
  have e : to_string (n : Int) = bytes (Nat.repr n) := rfl
  rw [e]
  unfold bytes
  rw [List.length_map]
  exact Nat.repr_length n 19 (by decide) h

theorem statusCode_cases (c : Int) :
    statusCode c = 200 ∨ statusCode c = 400 ∨ statusCode c = 403 ∨ statusCode c = 404 := by
  unfold statusCode
  by_cases h : c = 200 ∨ c = 400 ∨ c = 403 ∨ c = 404
  · rw [if_pos h]; exact h
  · rw [if_neg h]; right; left; rfl

theorem lookup_status (c : Int) :
    (match CODE_STATUS.lookup c with
      | some _ => c
      | none => 400) = statusCode c := by
  unfold statusCode
  by_cases h1 : c = 200
  · rw [h1]; rfl
  by_cases h2 : c = 400
  · rw [h2]; rfl
  by_cases h3 : c = 403
  · rw [h3]; rfl
  by_cases h4 : c = 404
  · rw [h4]; rfl
  have hn : CODE_STATUS.lookup c = none := by
    have b1 : (c == 200) = false := beq_eq_false_iff_ne.mpr h1
    have b2 : (c == 400) = false := beq_eq_false_iff_ne.mpr h2
    have b3 : (c == 403) = false := beq_eq_false_iff_ne.mpr h3
    have b4 : (c == 404) = false := beq_eq_false_iff_ne.mpr h4
    simp only [CODE_STATUS, List.lookup, b1, b2, b3, b4]
  rw [hn]
  simp [h1, h2, h3, h4]

theorem stateLine_length (c : Int) :
    (bytes "HTTP/1.1 " ++ to_string (statusCode c) ++ bytes " " ++
      (CODE_STATUS.lookup (statusCode c)).getD [] ++ bytes "\r\n").length ≤ 28 := by
  rcases statusCode_cases c with h | h | h | h <;> rw [h] <;> decide

theorem AddStateLine_spec (r : HttpResponse) (b : Buffer) (hinv : b.Inv)
    (hcap : b.buffer_.length < SIZE_MOD) (hfit : b.writePos_ + 64 < SIZE_MOD) :
    ∃ b1, AddStateLine_ r b = some ({ r with code_ := statusCode r.code_ }, b1) ∧ b1.Inv ∧
      b1.buffer_.length < SIZE_MOD ∧ b1.writePos_ ≤ b.writePos_ + 28 ∧
      b1.readable = b.readable ++ (bytes "HTTP/1.1 " ++ to_string (statusCode r.code_) ++
        bytes " " ++ (CODE_STATUS.lookup (statusCode r.code_)).getD [] ++ bytes "\r\n") := by
  have hl := stateLine_length r.code_
  obtain ⟨b1, h1, i1, c1, r1, w1⟩ := Buffer.Append_bound b
    (bytes "HTTP/1.1 " ++ to_string (statusCode r.code_) ++ bytes " " ++
      (CODE_STATUS.lookup (statusCode r.code_)).getD [] ++ bytes "\r\n") hinv hcap (by omega)
  refine ⟨b1, ?_, i1, c1, by omega, r1⟩
  have h := lookup_status r.code_
  unfold AddStateLine_
  cases hk : CODE_STATUS.lookup r.code_ with
  | some v =>
    rw [hk] at h
    simp only at h ⊢
    rw [← h] at h1 ⊢
    rw [h1]
    rfl
  | none =>
    rw [hk] at h
    simp only at h ⊢
    rw [← h] at h1 ⊢
    rw [h1]
    rfl

theorem lookup_mem_snd (l : List (Str × Str)) (k v : Str) (h : l.lookup k = some v) :
    v ∈ l.map Prod.snd := by
  induction l with
  | nil => simp [List.lookup] at h
  | cons e rest ih =>
    obtain ⟨k1, v1⟩ := e
    simp only [List.lookup] at h
    cases hb : (k == k1) with
    | true =>
      rw [hb] at h
      simp only [Option.some.injEq] at h
      rw [List.map_cons, ← h]
      exact List.mem_cons_self _ _
    | false =>
      rw [hb] at h
      exact List.mem_cons_of_mem _ (ih h)

theorem GetFileType_length (r : HttpResponse) : (GetFileType_ r).length ≤ 21 := by
  have hall : ∀ t ∈ SUFFIX_TYPE.map Prod.snd, t.length ≤ 21 := by decide
  unfold GetFileType_
  cases findLastOf r.path_ 46 with
  | none => simp only; decide
  | some idx =>
    simp only
    cases hl : SUFFIX_TYPE.lookup (r.path_.drop idx) with
    | none => simp only; decide
    | some t => exact hall t (lookup_mem_snd _ _ _ hl)

theorem AddHeader_spec (r : HttpResponse) (b : Buffer) (hinv : b.Inv)
    (hcap : b.buffer_.length < SIZE_MOD) (hfit : b.writePos_ + 128 < SIZE_MOD) :
    ∃ b1, AddHeader_ r b = some b1 ∧ b1.Inv ∧ b1.buffer_.length < SIZE_MOD ∧
      b1.writePos_ ≤ b.writePos_ + 96 ∧
      b1.readable = b.readable ++
        (bytes "Connection: " ++
          (if r.isKeepAlive_ then
            bytes "keep-alive\r\n" ++ bytes "keep-alive: max=6, timeout=120\r\n"
           else bytes "close\r\n") ++
          (bytes "Content-type: " ++ GetFileType_ r ++ bytes "\r\n")) := by
  have hm := GetFileType_length r
  have l1 : (bytes "Connection: ").length = 12 := by decide
  have l2 : (bytes "keep-alive\r\n").length = 12 := by decide
  have l3 : (bytes "keep-alive: max=6, timeout=120\r\n").length = 32 := by decide
  have l4 : (bytes "close\r\n").length = 7 := by decide
  have l5 : (bytes "Content-type: " ++ GetFileType_ r ++ bytes "\r\n").length ≤ 37 := by
    have a : (bytes "Content-type: ").length = 14 := by decide
    have c : (bytes "\r\n").length = 2 := by decide
    simp only [List.length_append, a, c]
    omega
  obtain ⟨b1, h1, i1, c1, r1, w1⟩ := Buffer.Append_bound b (bytes "Connection: ") hinv hcap
    (by omega)
  unfold AddHeader_
  rw [h1, Option.some_bind]
  cases hk : r.isKeepAlive_ with
  | true =>
    obtain ⟨b3, h3, i3, c3, r3, w3⟩ := Buffer.Append_bound2 b1 (bytes "keep-alive\r\n")
      (bytes "keep-alive: max=6, timeout=120\r\n") i1 c1 (by omega)
    obtain ⟨b4, h4, i4, c4, r4, w4⟩ := Buffer.Append_bound b3
      (bytes "Content-type: " ++ GetFileType_ r ++ bytes "\r\n") i3 c3 (by omega)
    refine ⟨b4, ?_, i4, c4, by omega, ?_⟩
    · simp only [if_true, h3, Option.some_bind, h4]
    · rw [r4, r3, r1]
      simp only [if_true, List.append_assoc]
  | false =>
    obtain ⟨b3, h3, i3, c3, r3, w3⟩ := Buffer.Append_bound b1 (bytes "close\r\n") i1 c1
      (by omega)
    obtain ⟨b4, h4, i4, c4, r4, w4⟩ := Buffer.Append_bound b3
      (bytes "Content-type: " ++ GetFileType_ r ++ bytes "\r\n") i3 c3 (by omega)
    refine ⟨b4, ?_, i4, c4, by omega, ?_⟩
    · simp only [Bool.false_eq_true, if_false, h3, Option.some_bind, h4]
    · rw [r4, r3, r1]
      simp only [Bool.false_eq_true, if_false, List.append_assoc]

theorem ErrorContent_spec (r : HttpResponse) (b : Buffer)
    (hcode : r.code_ = 200 ∨ r.code_ = 400 ∨ r.code_ = 403 ∨ r.code_ = 404) (hinv : b.Inv)
    (hcap : b.buffer_.length < SIZE_MOD) (hfit : b.writePos_ + 512 < SIZE_MOD) :
    ∃ b1 s, ErrorContent r b (bytes "File NotFound!") = some b1 ∧ b1.Inv ∧
      b1.buffer_.length < SIZE_MOD ∧ b1.readable = b.readable ++ s := by
  have key : ∀ s1 s2 : Str, s1.length + s2.length ≤ 400 →
      ∃ b1 s, (b.AppendStr s1).bind (fun x => x.AppendStr s2) = some b1 ∧ b1.Inv ∧
        b1.buffer_.length < SIZE_MOD ∧ b1.readable = b.readable ++ s := by
    intro s1 s2 hl
    obtain ⟨b2, h2, i2, c2, r2, _⟩ := Buffer.Append_bound2 b s1 s2 hinv hcap (by omega)
    exact ⟨b2, s1 ++ s2, h2, i2, c2, r2⟩
  unfold ErrorContent
  rcases hcode with h | h | h | h <;> rw [h] <;> exact key _ _ (by decide)

theorem AddContent_total (fs : FileSys) (r : HttpResponse) (b : Buffer)
    (hcode : r.code_ = 200 ∨ r.code_ = 400 ∨ r.code_ = 403 ∨ r.code_ = 404)
    (hsize : r.mmFileStat_.size < 10 ^ 19) (hinv : b.Inv)
    (hcap : b.buffer_.length < SIZE_MOD) (hfit : b.writePos_ + 512 < SIZE_MOD) :
    ∃ r1 b1 s, AddContent_ fs r b = some (r1, b1) ∧ r1.code_ = r.code_ ∧ b1.Inv ∧
      b1.buffer_.length < SIZE_MOD ∧ b1.readable = b.readable ++ s := by
  have herr : ∃ r1 b1 s,
      (ErrorContent r b (bytes "File NotFound!")).map (fun x => (r, x)) = some (r1, b1) ∧
        r1.code_ = r.code_ ∧ b1.Inv ∧ b1.buffer_.length < SIZE_MOD ∧
        b1.readable = b.readable ++ s := by
    obtain ⟨b1, s, h1, i1, c1, r1⟩ := ErrorContent_spec r b hcode hinv hcap hfit
    exact ⟨r, b1, s, by rw [h1]; rfl, rfl, i1, c1, r1⟩
  unfold AddContent_
  cases fs.canOpen (r.srcDir_ ++ r.path_) with
  | false => simpa using herr
  | true =>
    simp only [if_true]
    cases fs.mmap (r.srcDir_ ++ r.path_) r.mmFileStat_.size with
    | none => simpa using herr
    | some file =>
      simp only
      have hl := to_string_length r.mmFileStat_.size hsize
      have a : (bytes "Content-length: ").length = 16 := by decide
      have c : (bytes "\r\n\r\n").length = 4 := by decide
      obtain ⟨b1, h1, i1, c1, r1, _⟩ := Buffer.Append_bound b
        (bytes "Content-length: " ++ to_string r.mmFileStat_.size ++ bytes "\r\n\r\n") hinv hcap
        (by simp only [List.length_append, a, c]; omega)
      exact ⟨{ r with mmFile_ := some file }, b1, _, by rw [h1]; rfl, rfl, i1, c1, r1⟩

theorem ErrorHtml_code (fs : FileSys) (r : HttpResponse) :
    (ErrorHtml_ fs r).code_ = r.code_ ∧ (ErrorHtml_ fs r).isKeepAlive_ = r.isKeepAlive_ ∧
    ((ErrorHtml_ fs r).mmFileStat_ = r.mmFileStat_ ∨
      ∃ p, fs.stat p = some (ErrorHtml_ fs r).mmFileStat_) := by
  unfold ErrorHtml_
  cases CODE_PATH.lookup r.code_ with
  | none => exact ⟨rfl, rfl, Or.inl rfl⟩
  | some page =>
    simp only
    cases hs : fs.stat (r.srcDir_ ++ page) with
    | none => exact ⟨rfl, rfl, Or.inl rfl⟩
    | some st => exact ⟨rfl, rfl, Or.inr ⟨_, hs⟩⟩

/-- The three writers of `MakeResponse` in a row complete and put the status
line of the coerced code first. -/
theorem writers_total (fs : FileSys) (r : HttpResponse) (b : Buffer)
    (hsize : r.mmFileStat_.size < 10 ^ 19) (hinv : b.Inv)
    (hcap : b.buffer_.length < SIZE_MOD) (hfit : b.writePos_ + 1024 < SIZE_MOD) :
    ∃ r3 b3 rest,
      ((AddStateLine_ r b).bind fun p =>
        (AddHeader_ p.1 p.2).bind fun b2 => AddContent_ fs p.1 b2) = some (r3, b3) ∧
      r3.code_ = statusCode r.code_ ∧ b3.Inv ∧ b3.buffer_.length < SIZE_MOD ∧
      b3.readable = b.readable ++
        ((bytes "HTTP/1.1 " ++ to_string (statusCode r.code_) ++ bytes " " ++
          (CODE_STATUS.lookup (statusCode r.code_)).getD [] ++ bytes "\r\n") ++ rest) := by
  obtain ⟨b1, h1, i1, c1, w1, r1⟩ := AddStateLine_spec r b hinv hcap (by omega)
  obtain ⟨b2, h2, i2, c2, w2, r2⟩ :=
    AddHeader_spec { r with code_ := statusCode r.code_ } b1 i1 c1 (by omega)
  obtain ⟨r3, b3, s, h3, hc3, i3, c3, r3'⟩ :=
    AddContent_total fs { r with code_ := statusCode r.code_ } b2 (statusCode_cases r.code_)
      hsize i2 c2 (by omega)
  obtain ⟨H, r2⟩ : ∃ H, b2.readable = b1.readable ++ H := ⟨_, r2⟩
  refine ⟨r3, b3, H ++ s, ?_, hc3, i3, c3, ?_⟩
  · rw [h1, Option.some_bind]
    simp only [h2, Option.some_bind, h3]
  · rw [r3', r2, r1, List.append_assoc, List.append_assoc]

theorem MakeResponse_select (fs : FileSys) (r : HttpResponse) (buff : Buffer)
    (h0 : r.mmFileStat_.size < 10 ^ 19)
    (hstat : ∀ p st, fs.stat p = some st → st.size < 2 ^ 63) :
    ∃ r1 : HttpResponse, r1.code_ = selectedCode r.code_ (fs.stat (r.srcDir_ ++ r.path_)) ∧
      r1.mmFileStat_.size < 10 ^ 19 ∧
      MakeResponse fs r buff =
        (AddStateLine_ (ErrorHtml_ fs r1) buff).bind fun p =>
          (AddHeader_ p.1 p.2).bind fun b2 => AddContent_ fs p.1 b2 := by
  unfold MakeResponse
  cases hst : fs.stat (r.srcDir_ ++ r.path_) with
  | none => exact ⟨{ r with code_ := 404 }, rfl, h0, rfl⟩
  | some st =>
    have hs : st.size < 10 ^ 19 := lt_trans (hstat _ _ hst) (by decide)
    simp only
    by_cases hd : st.isDir = true
    · exact ⟨{ r with code_ := 404, mmFileStat_ := st }, by simp [selectedCode, hd], hs,
        by simp only [hd, if_true]⟩
    · by_cases ho : st.otherRead = true
      · by_cases hc : r.code_ = -1
        · exact ⟨{ r with code_ := 200, mmFileStat_ := st }, by simp [selectedCode, hd, ho, hc],
            hs, by simp only [hd, ho, hc, if_true, if_false, not_true_eq_false]; rfl⟩
        · exact ⟨{ r with mmFileStat_ := st }, by simp [selectedCode, hd, ho, hc], hs,
            by simp only [hd, ho, hc, if_true, if_false, not_true_eq_false]; rfl⟩
      · exact ⟨{ r with code_ := 403, mmFileStat_ := st }, by simp [selectedCode, hd, ho], hs,
          by simp only [hd, ho, if_true, if_false, not_false_eq_true]; rfl⟩

theorem statusCode_of_known (c : Int) (st : Option FileStat)
    (h : c = -1 ∨ c = 200 ∨ c = 400 ∨ c = 403 ∨ c = 404) :
    statusCode (selectedCode c st) = selectedCode c st := by
  unfold selectedCode
  cases st with
  | none => rfl
  | some f =>
    simp only
    by_cases hd : f.isDir = true
    · rw [if_pos hd]; rfl
    · rw [if_neg hd]
      by_cases ho : f.otherRead = false
      · rw [if_pos ho]; rfl
      · rw [if_neg ho]
        rcases h with h | h | h | h | h <;> rw [h] <;> rfl

theorem MakeResponse_total (fs : FileSys) (r : HttpResponse) (buff : Buffer)
    (h0 : r.mmFileStat_.size < 10 ^ 19)
    (hstat : ∀ p st, fs.stat p = some st → st.size < 2 ^ 63)
    (hinv : buff.Inv) (hcap : buff.buffer_.length < SIZE_MOD)
    (hfit : buff.writePos_ + 1024 < SIZE_MOD) :
    ∃ r3 b3 rest, MakeResponse fs r buff = some (r3, b3) ∧
      r3.code_ = statusCode (selectedCode r.code_ (fs.stat (r.srcDir_ ++ r.path_))) ∧
      b3.Inv ∧ b3.buffer_.length < SIZE_MOD ∧
      b3.readable = buff.readable ++
        ((bytes "HTTP/1.1 " ++ to_string r3.code_ ++ bytes " " ++
          (CODE_STATUS.lookup r3.code_).getD [] ++ bytes "\r\n") ++ rest) := by
  obtain ⟨r1, hc1, hs1, he⟩ := MakeResponse_select fs r buff h0 hstat
  obtain ⟨e1, _, e3⟩ := ErrorHtml_code fs r1
  have hs2 : (ErrorHtml_ fs r1).mmFileStat_.size < 10 ^ 19 := by
    rcases e3 with e | ⟨p, e⟩
    · rw [e]; exact hs1
    · exact lt_trans (hstat _ _ e) (by decide)
  obtain ⟨r3, b3, rest, hw, hc3, i3, c3, rr⟩ :=
    writers_total fs (ErrorHtml_ fs r1) buff hs2 hinv hcap hfit
  rw [e1, hc1] at hc3
  rw [e1, hc1, ← hc3] at rr
  exact ⟨r3, b3, rest, by rw [he, hw], hc3, i3, c3, rr⟩

theorem siteWithIndex_sizes : ∀ p st, siteWithIndex.stat p = some st → st.size < 2 ^ 63 := by
  intro p st h
  simp only [siteWithIndex] at h
  by_cases hp : p = bytes "/srv/www/index.html"
  · rw [if_pos hp] at h
    rw [← Option.some.inj h]
    decide
  · rw [if_neg hp] at h
    exact Option.noConfusion h

/-- C11 as stated fails for an initial code outside 200, 400, 403, 404: with
code 500 given to `Init` and a world-readable regular file, the selection
keeps 500, but the response is made with code 400: `AddStateLine_` replaces a
code that has no reason phrase, and the status line is
`HTTP/1.1 400 Bad Request`. -/
theorem MakeResponse_code_500_becomes_400 :
    selectedCode 500 (siteWithIndex.stat (bytes "/srv/www" ++ bytes "/index.html")) = 500 ∧
    ((Init new (bytes "/srv/www") (bytes "/index.html") false 500).bind fun r =>
        MakeResponse siteWithIndex r (Buffer.mk0 256)).map
      (fun p => (p.1.code_, p.2.readable.take 26))
      = some (400, bytes "HTTP/1.1 400 Bad Request\r\n") := by
  decide

/-- C11 (amended): for every code `c` given to `Init` and every outcome of
`stat` on root + path, `MakeResponse` completes, and the code of the response
(the one in its status line, which is the first thing appended) is the
selected code with every value other than 200, 400, 403, 404 replaced by 400,
where the selected code is 404 if the `stat` fails or the target is a
directory, otherwise 403 if the file lacks the world-readable bit, otherwise
200 if `c` is -1, otherwise `c`.  So for `c` among -1, 200, 400, 403, 404 the
code of the response is the selected code.  (File sizes are `off_t` values; the
write position leaves 1024 bytes below `2^64`.) -/
theorem MakeResponse_status_selection (fs : FileSys) (r0 : HttpResponse) (srcDir path : Str)
    (keepAlive : Bool) (c : Int) (buff : Buffer) (hsrc : srcDir ≠ [])
    (hstat : ∀ p st, fs.stat p = some st → st.size < 2 ^ 63)
    (hinv : buff.Inv) (hcap : buff.buffer_.length < SIZE_MOD)
    (hfit : buff.writePos_ + 1024 < SIZE_MOD) :
    ∃ r b1 rest,
      ((Init r0 srcDir path keepAlive c).bind fun r1 => MakeResponse fs r1 buff) = some (r, b1) ∧
      r.code_ = statusCode (selectedCode c (fs.stat (srcDir ++ path))) ∧
      (c = -1 ∨ c = 200 ∨ c = 400 ∨ c = 403 ∨ c = 404 →
        r.code_ = selectedCode c (fs.stat (srcDir ++ path))) ∧
      b1.readable = buff.readable ++
        ((bytes "HTTP/1.1 " ++ to_string r.code_ ++ bytes " " ++
          (CODE_STATUS.lookup r.code_).getD [] ++ bytes "\r\n") ++ rest) := by
  obtain ⟨r3, b3, rest, hm, hc, _, _, hr⟩ :=
    MakeResponse_total fs
      { code_ := c, isKeepAlive_ := keepAlive, path_ := path, srcDir_ := srcDir,
        mmFile_ := none, mmFileStat_ := { isDir := false, otherRead := false, size := 0 } }
      buff (by show (0 : Nat) < 10 ^ 19; decide) hstat hinv hcap hfit
  refine ⟨r3, b3, rest, ?_, hc, ?_, hr⟩
  · unfold Init
    rw [if_neg hsrc, Option.some_bind]
    exact hm
  · intro hk
    rw [hc]
    exact statusCode_of_known c _ hk

/-- Witness for C11: code -1 and the readable file `/srv/www/index.html`. -/
theorem MakeResponse_status_selection_witness :
    ∃ r b1 rest,
      ((Init new (bytes "/srv/www") (bytes "/index.html") false (-1)).bind fun r1 =>
        MakeResponse siteWithIndex r1 (Buffer.mk0 256)) = some (r, b1) ∧
      r.code_ = statusCode
        (selectedCode (-1) (siteWithIndex.stat (bytes "/srv/www" ++ bytes "/index.html"))) ∧
      ((-1 : Int) = -1 ∨ (-1 : Int) = 200 ∨ (-1 : Int) = 400 ∨ (-1 : Int) = 403 ∨
          (-1 : Int) = 404 →
        r.code_ = selectedCode (-1)
          (siteWithIndex.stat (bytes "/srv/www" ++ bytes "/index.html"))) ∧
      b1.readable = (Buffer.mk0 256).readable ++
        ((bytes "HTTP/1.1 " ++ to_string r.code_ ++ bytes " " ++
          (CODE_STATUS.lookup r.code_).getD [] ++ bytes "\r\n") ++ rest) :=
  MakeResponse_status_selection siteWithIndex new (bytes "/srv/www") (bytes "/index.html") false
    (-1) (Buffer.mk0 256) (by decide) siteWithIndex_sizes (by decide) (by decide) (by decide)

theorem findIdx?_lt_length (l : List Nat) (p : Nat → Bool) (k : Nat)
    (h : l.findIdx? p = some k) : k < l.length := by
  have := List.findIdx?_of_eq_some h
  by_contra hk
  rw [List.getElem?_eq_none (by omega)] at this
  simp at this

theorem findLastOf_cons (c : Nat) (rest : Str) (x : Nat) :
    findLastOf (c :: rest) x =
      match findLastOf rest x with
      | some idx => some (idx + 1)
      | none => if c = x then some 0 else none := by
  unfold findLastOf
  simp only [List.reverse_cons, List.indexOf?, List.findIdx?_append, List.length_cons,
    List.length_reverse]
  cases hk : rest.reverse.findIdx? (fun y => y == x) with
  | some k =>
    have hlt := findIdx?_lt_length _ _ _ hk
    rw [List.length_reverse] at hlt
    simp only [Option.or_some, Option.some.injEq]
    omega
  | none =>
    simp only [Option.none_or, List.findIdx?_cons, List.findIdx?_nil]
    by_cases hc : c = x
    · simp [hc]
    · simp [hc]

theorem findLastOf_suffix (s : Str) :
    (findLastOf s 46).map (fun idx => s.drop idx) = lastDotSuffix s := by
  induction s with
  | nil => rfl
  | cons c rest ih =>
    rw [findLastOf_cons]
    simp only [lastDotSuffix]
    cases hf : findLastOf rest 46 with
    | some idx =>
      rw [hf] at ih
      simp only [Option.map_some'] at ih
      rw [← ih]
      rfl
    | none =>
      rw [hf] at ih
      simp only [Option.map_none'] at ih
      rw [← ih]
      by_cases hc : c = 46
      · simp [hc]
      · simp [hc]

theorem GetFileType_eq_mimeOf (r : HttpResponse) : GetFileType_ r = mimeOf r.path_ := by
  have h := findLastOf_suffix r.path_
  unfold GetFileType_ mimeOf
  rw [← h]
  cases findLastOf r.path_ 46 with
  | none => rfl
  | some idx => rfl

theorem AddContent_file (fs : FileSys) (r : HttpResponse) (b : Buffer) (file : List Nat)
    (hopen : fs.canOpen (r.srcDir_ ++ r.path_) = true)
    (hmap : fs.mmap (r.srcDir_ ++ r.path_) r.mmFileStat_.size = some file)
    (hsize : r.mmFileStat_.size < 10 ^ 19) (hinv : b.Inv)
    (hcap : b.buffer_.length < SIZE_MOD) (hfit : b.writePos_ + 512 < SIZE_MOD) :
    ∃ b1, AddContent_ fs r b = some ({ r with mmFile_ := some file }, b1) ∧ b1.Inv ∧
      b1.readable = b.readable ++
        (bytes "Content-length: " ++ to_string r.mmFileStat_.size ++ bytes "\r\n\r\n") := by
  have hl := to_string_length r.mmFileStat_.size hsize
  have a : (bytes "Content-length: ").length = 16 := by decide
  have c : (bytes "\r\n\r\n").length = 4 := by decide
  obtain ⟨b1, h1, i1, _, r1, _⟩ := Buffer.Append_bound b
    (bytes "Content-length: " ++ to_string r.mmFileStat_.size ++ bytes "\r\n\r\n") hinv hcap
    (by simp only [List.length_append, a, c]; omega)
  refine ⟨b1, ?_, i1, r1⟩
  unfold AddContent_
  rw [if_pos hopen, hmap]
  simp only [h1, Option.map_some']

/-- C12: for a path `p` that names an existing, world-readable regular file of
size `s` which opens and maps successfully, `Init(root, p, keepAlive, 200)`
followed by `MakeResponse` completes with code 200 and the file mapped, and
appends to the write buffer exactly `HTTP/1.1 200 OK` CR LF, then
`Connection: keep-alive` CR LF `keep-alive: max=6, timeout=120` CR LF if
`keepAlive` else `Connection: close` CR LF, then `Content-type: <MIME>` CR LF
with the MIME type the table gives for the suffix of `p` from its last `.`
(`text/plain` when there is no `.` or no entry), then
`Content-length: <s in decimal>` CR LF CR LF.  (`s` is an `off_t` value; the
write position leaves 1024 bytes below `2^64`.) -/
theorem MakeResponse_head_bytes (fs : FileSys) (r0 : HttpResponse) (root p : Str)
    (keepAlive : Bool) (st : FileStat) (file : List Nat) (buff : Buffer) (hroot : root ≠ [])
    (hstat : fs.stat (root ++ p) = some st) (hreg : st.isDir = false)
    (hread : st.otherRead = true) (hsz : st.size < 2 ^ 63)
    (hopen : fs.canOpen (root ++ p) = true) (hmap : fs.mmap (root ++ p) st.size = some file)
    (hinv : buff.Inv) (hcap : buff.buffer_.length < SIZE_MOD)
    (hfit : buff.writePos_ + 1024 < SIZE_MOD) :
    ∃ r b1,
      ((Init r0 root p keepAlive 200).bind fun r1 => MakeResponse fs r1 buff) = some (r, b1) ∧
      r.code_ = 200 ∧ r.mmFile_ = some file ∧
      b1.readable = buff.readable ++ responseHead keepAlive p st.size := by
  have hs : st.size < 10 ^ 19 := lt_trans hsz (by decide)
  obtain ⟨b1, h1, i1, c1, w1, r1⟩ := AddStateLine_spec
    { code_ := 200, isKeepAlive_ := keepAlive, path_ := p, srcDir_ := root, mmFile_ := none,
      mmFileStat_ := st } buff hinv hcap (by omega)
  obtain ⟨b2, h2, i2, c2, w2, r2⟩ := AddHeader_spec
    { code_ := 200, isKeepAlive_ := keepAlive, path_ := p, srcDir_ := root, mmFile_ := none,
      mmFileStat_ := st } b1 i1 c1 (by omega)
  obtain ⟨b3, h3, i3, r3⟩ := AddContent_file fs
    { code_ := 200, isKeepAlive_ := keepAlive, path_ := p, srcDir_ := root, mmFile_ := none,
      mmFileStat_ := st } b2 file hopen hmap hs i2 c2 (by omega)
  dsimp only at h1 h2 h3 r1 r2 r3
  refine ⟨{ code_ := 200, isKeepAlive_ := keepAlive, path_ := p, srcDir_ := root,
            mmFile_ := some file, mmFileStat_ := st }, b3, ?_, rfl, rfl, ?_⟩
  · unfold Init
    rw [if_neg hroot, Option.some_bind]
    unfold MakeResponse
    simp only [hstat, hreg, hread, Bool.false_eq_true, if_false, not_true_eq_false]
    have he : ErrorHtml_ fs
        { code_ := 200, isKeepAlive_ := keepAlive, path_ := p, srcDir_ := root, mmFile_ := none,
          mmFileStat_ := st }
        = { code_ := 200, isKeepAlive_ := keepAlive, path_ := p, srcDir_ := root,
            mmFile_ := none, mmFileStat_ := st } := rfl
    have hne : ¬ ((200 : Int) = -1) := by decide
    rw [if_neg hne, he]
    have hsc : statusCode 200 = 200 := rfl
    rw [hsc] at h1
    rw [h1, Option.some_bind]
    simp only [h2, Option.some_bind, h3]
  · rw [r3, r2, r1, GetFileType_eq_mimeOf]
    have hsc : statusCode 200 = 200 := rfl
    rw [hsc]
    unfold responseHead
    cases keepAlive with
    | true =>
      simp only [if_true, List.append_assoc, List.append_cancel_left_eq]
      rfl
    | false =>
      simp only [Bool.false_eq_true, if_false, List.append_assoc, List.append_cancel_left_eq]
      rfl

/-- Witness for C12: `/srv/www/index.html` of 5 bytes, without keep-alive. -/
theorem MakeResponse_head_bytes_witness :
    ∃ r b1,
      ((Init new (bytes "/srv/www") (bytes "/index.html") false 200).bind fun r1 =>
        MakeResponse siteWithIndex r1 (Buffer.mk0 256)) = some (r, b1) ∧
      r.code_ = 200 ∧ r.mmFile_ = some (bytes "HELLO") ∧
      b1.readable = (Buffer.mk0 256).readable ++ responseHead false (bytes "/index.html") 5 :=
  MakeResponse_head_bytes siteWithIndex new (bytes "/srv/www") (bytes "/index.html") false
    { isDir := false, otherRead := true, size := 5 } (bytes "HELLO") (Buffer.mk0 256)
    (by decide) (by decide) rfl rfl (by decide) (by decide) (by decide) (by decide) (by decide)
    (by decide)

end HttpResponse

namespace HttpConn

set_option maxRecDepth 100000

/-- C2 (evaluation at the failing input): the read buffer holds
`GET /index` CR LF CR LF, whose first line has no `HTTP/` version, and the
source root is a directory; `process` answers with the status line
`HTTP/1.1 404 Not Found`, not `400 Bad Request`: `MakeResponse` runs `stat` on
the source root itself, the request path being empty, and replaces the code
400 given to `Init`. -/
theorem process_malformed_request_line_gives_404 :
    HttpRequest.matchRequestLine (bytes "GET /index") = none ∧
    (process rootWith404 rejectAll (bytes "/srv/resources/")
        (withInput (bytes "GET /index\r\n\r\n"))).map
      (fun r => (r.2, r.1.response_.code_, r.1.writeBuff_.readable.take 24))
      = some (true, 404, bytes "HTTP/1.1 404 Not Found\r\n") := by
  decide

theorem slice_drop (l : List Nat) (pos n d : Nat) :
    (slice l pos n).drop d = slice l (pos + d) (n - d) := by
  unfold slice
  rw [List.drop_take, List.drop_drop, Nat.add_comm]

theorem slice_zero (l : List Nat) (pos : Nat) : slice l pos 0 = [] := by
  unfold slice
  exact List.take_zero _

/-- C13 as stated fails for `ToWriteBytes()`: it returns the `size_t` sum of
the two lengths as an `int`.  With slot 0 empty and slot 1 holding a file of
`2^31` bytes it is `-2^31`, and after one iteration with `writev` result 1 it
is `2^31 - 1`: it has not decreased by 1. -/
theorem ToWriteBytes_wraps_for_large_file :
    sendingLargeFile.iov0.len = sendingLargeFile.writeBuff_.ReadableBytes ∧
    ToWriteBytes sendingLargeFile = -2147483648 ∧
    (sendingLargeFile.writeStep 1).map ToWriteBytes = some 2147483647 ∧
    (2147483647 : Int) ≠ -2147483648 - 1 := by
  decide

/-- C13 (amended): for slots where slot 0 lies in the write buffer and has the
length `ReadableBytes()`, and for a `writev` result `len` with
`0 < len <= slot0.len + slot1.len`, one iteration of `write` completes and
leaves the slots describing exactly the bytes of (slot 0 bytes ++ slot 1
bytes) after its first `len` bytes; slot 0 is consumed before slot 1
(`slot0.len` drops by `min(len, slot0.len)`, `slot1.len` by the rest); the sum
`slot0.len + slot1.len` decreases by exactly `len`; `slot0.len` stays equal to
`ReadableBytes()`; and `ToWriteBytes()`, an `int`, decreases by exactly `len`
when the sum before is below `2^31`. -/
theorem writeStep_accounting (c : HttpConn) (len : Nat) (hinv : c.writeBuff_.Inv)
    (hcap : c.writeBuff_.buffer_.length < SIZE_MOD)
    (h0 : c.iov0.len = c.writeBuff_.ReadableBytes)
    (hb0 : c.iov0.base + c.iov0.len ≤ c.writeBuff_.buffer_.length)
    (htot : c.iov0.len + c.iov1.len < SIZE_MOD)
    (hpos : 0 < len) (hle : len ≤ c.iov0.len + c.iov1.len) :
    ∃ c1, c.writeStep len = some c1 ∧
      c1.slotBytes = c.slotBytes.drop len ∧
      c1.iov0.len = c.iov0.len - len ∧
      c1.iov1.len = c.iov1.len - (len - c.iov0.len) ∧
      c1.iov0.len + c1.iov1.len + len = c.iov0.len + c.iov1.len ∧
      c1.iov0.len = c1.writeBuff_.ReadableBytes ∧
      (c.iov0.len + c.iov1.len < 2147483648 → c1.ToWriteBytes = c.ToWriteBytes - len) := by
  have hsum : szAdd c.iov0.len c.iov1.len = c.iov0.len + c.iov1.len := szAdd_of_lt htot
  have hl0 : (slice c.writeBuff_.buffer_ c.iov0.base c.iov0.len).length = c.iov0.len :=
    length_slice _ _ _ hb0
  have hne : ¬ szAdd c.iov0.len c.iov1.len = 0 := by rw [hsum]; omega
  have hwrap : ∀ c1 : HttpConn, c1.iov0.len + c1.iov1.len + len = c.iov0.len + c.iov1.len →
      c.iov0.len + c.iov1.len < 2147483648 → c1.ToWriteBytes = c.ToWriteBytes - len := by
    intro c1 he hlt
    unfold ToWriteBytes
    rw [hsum, szAdd_of_lt (by omega)]
    unfold wrapInt32
    rw [Int.emod_eq_of_lt (by omega) (by omega), Int.emod_eq_of_lt (by omega) (by omega)]
    omega
  unfold writeStep
  rw [if_neg hne]
  by_cases hgt : len > c.iov0.len
  · rw [if_pos hgt]
    have hd : szSub len c.iov0.len = len - c.iov0.len := szSub_of_le (by omega) (by omega)
    have hd1 : szSub c.iov1.len (len - c.iov0.len) = c.iov1.len - (len - c.iov0.len) :=
      szSub_of_le (by omega) (by omega)
    have hdrop : c.slotBytes.drop len
        = slice (c.response_.mmFile_.getD []) (c.iov1.base + (len - c.iov0.len))
            (c.iov1.len - (len - c.iov0.len)) := by
      unfold slotBytes
      rw [List.drop_append_eq_append_drop, hl0, List.drop_of_length_le (by omega),
        List.nil_append, slice_drop]
    simp only [hd, hd1]
    by_cases hz : c.iov0.len = 0
    · rw [if_neg (by simpa using hz)]
      refine ⟨_, rfl, ?_, ?_, rfl, ?_, ?_, ?_⟩
      · rw [hdrop]
        simp only [slotBytes, hz, slice_zero, List.nil_append]
      · simp only [hz]; omega
      · simp only; omega
      · simp only; exact h0
      · intro hlt
        exact hwrap _ (by simp only; omega) hlt
    · rw [if_pos (by simpa using hz)]
      refine ⟨_, rfl, ?_, ?_, rfl, ?_, ?_, ?_⟩
      · rw [hdrop]
        simp only [slotBytes, slice_zero, List.nil_append]
      · simp only; omega
      · simp only; omega
      · simp only [Buffer.RetrieveAll, Buffer.ReadableBytes]
        decide
      · intro hlt
        exact hwrap _ (by simp only; omega) hlt
  · rw [if_neg hgt]
    have hle0 : len ≤ c.iov0.len := by omega
    obtain ⟨wb, hwb, hi1, hc1, hr1⟩ :=
      Buffer.Retrieve_spec c.writeBuff_ len hinv hcap (by rw [← h0]; exact hle0)
    have hd : szSub c.iov0.len len = c.iov0.len - len := szSub_of_le hle0 (by omega)
    have hbuf : wb.buffer_ = c.writeBuff_.buffer_ ∧ wb.ReadableBytes = c.iov0.len - len := by
      unfold Buffer.Retrieve at hwb
      rw [if_pos (by rw [← h0]; exact hle0)] at hwb
      have e := Option.some.inj hwb
      have hrb : c.writeBuff_.ReadableBytes = c.writeBuff_.writePos_ - c.writeBuff_.readPos_ :=
        szSub_of_le hinv.1 (by have := hinv.2; omega)
      have hadd : szAdd c.writeBuff_.readPos_ len = c.writeBuff_.readPos_ + len :=
        szAdd_of_lt (by have := hinv.2; have := hinv.1; omega)
      rw [← e]
      refine ⟨rfl, ?_⟩
      simp only [Buffer.ReadableBytes, hadd]
      rw [szSub_of_le (by omega) (by have := hinv.2; omega)]
      omega
    rw [hwb, Option.map_some', hd]
    refine ⟨_, rfl, ?_, rfl, ?_, ?_, ?_, ?_⟩
    · simp only [slotBytes, hbuf.1]
      rw [List.drop_append_eq_append_drop, hl0, slice_drop]
      have : len - c.iov0.len = 0 := by omega
      rw [this, List.drop_zero]
    · simp only; omega
    · simp only; omega
    · simp only; exact hbuf.2.symm
    · intro hlt
      exact hwrap _ (by simp only; omega) hlt

/-- Witness for C13: 4 bytes in slot 0, 3 bytes in slot 1, `writev` sends 5. -/
theorem writeStep_accounting_witness :
    ∃ c1, sendingSmallFile.writeStep 5 = some c1 ∧
      c1.slotBytes = sendingSmallFile.slotBytes.drop 5 ∧
      c1.iov0.len = sendingSmallFile.iov0.len - 5 ∧
      c1.iov1.len = sendingSmallFile.iov1.len - (5 - sendingSmallFile.iov0.len) ∧
      c1.iov0.len + c1.iov1.len + 5 = sendingSmallFile.iov0.len + sendingSmallFile.iov1.len ∧
      c1.iov0.len = c1.writeBuff_.ReadableBytes ∧
      (sendingSmallFile.iov0.len + sendingSmallFile.iov1.len < 2147483648 →
        c1.ToWriteBytes = sendingSmallFile.ToWriteBytes - ((5 : Nat) : Int)) :=
  writeStep_accounting sendingSmallFile 5 (by decide) (by decide) (by decide) (by decide)
    (by decide) (by decide) (by decide)

/-- C26 (evaluation at the failing input): level-triggered mode, 20004 bytes
to send, and `writev` sends 12000 of them.  8004 bytes remain, which is not
more than 10240, so the loop of `write` ends with `len = 12000`; in `OnWrite_`
`ToWriteBytes()` is not 0 and `ret` is not negative, so control falls through
to `CloseConn_`: the connection is closed with 8004 bytes unsent.  In
edge-triggered mode the loop goes on to the `EAGAIN` of the next `writev` and
the fd is re-armed for writable. -/
theorem OnWrite_closes_with_unsent_bytes :
    (OnWrite_ false 0 [.wrote 12000] sendingFile20000).map
      (fun r => (r.2, r.1.ToWriteBytes)) = some (WriteAction.close, 8004) ∧
    (OnWrite_ true 0 [.wrote 12000, .error EAGAIN] sendingFile20000).map
      (fun r => (r.2, r.1.ToWriteBytes)) = some (WriteAction.rearmWrite, 8004) := by
  decide

end HttpConn

namespace ConnTable

theorem wrapInt32_of_range (z : Int) (h1 : -2147483648 ≤ z) (h2 : z < 2147483648) :
    HttpConn.wrapInt32 z = z := by
  unfold HttpConn.wrapInt32
  rw [Int.emod_eq_of_lt (by omega) (by omega)]
  omega

theorem filter_set_length (f : HttpConn → Bool) (l : List HttpConn) :
    ∀ (i : Nat) (c c1 : HttpConn), l[i]? = some c →
      ((l.set i c1).filter f).length + (if f c then 1 else 0)
        = (l.filter f).length + (if f c1 then 1 else 0) := by
  induction l with
  | nil => intro i c c1 h; simp at h
  | cons a rest ih =>
    intro i c c1 h
    cases i with
    | zero =>
      simp only [List.getElem?_cons_zero, Option.some.injEq] at h
      subst h
      simp only [List.set_cons_zero, List.filter_cons]
      cases f a <;> cases f c1 <;> simp
    | succ j =>
      simp only [List.getElem?_cons_succ] at h
      have := ih j c c1 h
      simp only [List.set_cons_succ, List.filter_cons]
      cases f a <;> simp <;> omega

theorem openCount_le (s : ConnTable) : s.openCount ≤ s.conns.length := by
  unfold openCount
  exact List.length_filter_le _ _

/-- One call on a table whose count is right keeps it right. -/
theorem step_count (s : ConnTable) (call : ConnCall) (h0 : s.userCount = s.openCount)
    (hlen : s.conns.length < 2147483648) (hv : call.InRange s.conns.length)
    (hc : s.InitOnClosed [call]) :
    ∃ s1, s.step call = some s1 ∧ s1.userCount = s1.openCount ∧
      s1.conns.length = s.conns.length := by
  have hle := openCount_le s
  cases call with
  | init i fd =>
    obtain ⟨hi, hfd⟩ := hv
    obtain ⟨c, hg⟩ : ∃ c, s.conns[i]? = some c := ⟨s.conns[i], List.getElem?_eq_getElem hi⟩
    have hclosed : c.isClose_ = true := by
      have := hc.1
      simp only [hg, Option.map_some', Option.some.injEq] at this
      exact this
    have hset := filter_set_length (fun c => !c.isClose_) s.conns i c
      { c with fd_ := fd, writeBuff_ := c.writeBuff_.RetrieveAll,
               readBuff_ := c.readBuff_.RetrieveAll, isClose_ := false } hg
    simp only [hclosed, Bool.not_true, Bool.false_eq_true, if_false, Bool.not_false,
      if_true, Nat.add_zero] at hset
    refine ⟨{ userCount := HttpConn.wrapInt32 (s.userCount + 1),
              conns := s.conns.set i
                { c with fd_ := fd, writeBuff_ := c.writeBuff_.RetrieveAll,
                         readBuff_ := c.readBuff_.RetrieveAll, isClose_ := false } }, ?_, ?_, ?_⟩
    · simp only [step, hg, HttpConn.init, if_pos hfd, Option.map_some']
    · have hle2 : ((s.conns.set i
          { c with fd_ := fd, writeBuff_ := c.writeBuff_.RetrieveAll,
                   readBuff_ := c.readBuff_.RetrieveAll, isClose_ := false }).filter
            (fun c => !c.isClose_)).length ≤ s.conns.length := by
        have := List.length_filter_le (fun c : HttpConn => !c.isClose_)
          (s.conns.set i
            { c with fd_ := fd, writeBuff_ := c.writeBuff_.RetrieveAll,
                     readBuff_ := c.readBuff_.RetrieveAll, isClose_ := false })
        rw [List.length_set] at this
        exact this
      simp only [openCount] at h0 ⊢
      rw [wrapInt32_of_range _ (by omega) (by omega), hset, h0]
      push_cast
      rfl
    · simp only [List.length_set]
  | close i =>
    have hi : i < s.conns.length := hv
    obtain ⟨c, hg⟩ : ∃ c, s.conns[i]? = some c := ⟨s.conns[i], List.getElem?_eq_getElem hi⟩
    refine ⟨{ userCount := (c.Close s.userCount).2,
              conns := s.conns.set i (c.Close s.userCount).1 }, ?_, ?_, ?_⟩
    · simp only [step, hg]
    · have hset := filter_set_length (fun c => !c.isClose_) s.conns i c
        (c.Close s.userCount).1 hg
      simp only [openCount] at h0 hle ⊢
      cases hcl : c.isClose_ with
      | true =>
        simp only [HttpConn.Close, hcl, Bool.true_eq_false, if_false, Bool.not_true,
          Bool.false_eq_true, Nat.add_zero] at hset ⊢
        rw [hset, h0]
      | false =>
        simp only [HttpConn.Close, hcl, if_true, Bool.not_true, Bool.false_eq_true, if_false,
          Bool.not_false, Nat.add_zero] at hset ⊢
        rw [wrapInt32_of_range _ (by omega) (by omega), h0, ← hset]
        push_cast
        omega
    · simp only [List.length_set]

theorem run_count (calls : List ConnCall) : ∀ (s : ConnTable),
    s.userCount = s.openCount → s.conns.length < 2147483648 →
    (∀ call ∈ calls, call.InRange s.conns.length) → s.InitOnClosed calls →
    ∃ s1, s.run calls = some s1 ∧ s1.userCount = s1.openCount := by
  induction calls with
  | nil => intro s h0 _ _ _; exact ⟨s, rfl, h0⟩
  | cons call rest ih =>
    intro s h0 hlen hv hok
    have hok1 : s.InitOnClosed [call] := by
      simp only [InitOnClosed] at hok ⊢
      refine ⟨hok.1, ?_⟩
      cases s.step call <;> trivial
    obtain ⟨s1, hs, h1, hl1⟩ :=
      step_count s call h0 hlen (hv call (List.mem_cons_self _ _)) hok1
    have hok2 : s1.InitOnClosed rest := by
      simp only [InitOnClosed, hs] at hok
      exact hok.2
    obtain ⟨s2, hr, h2⟩ := ih s1 h1 (by rw [hl1]; exact hlen)
      (fun x hx => by rw [hl1]; exact hv x (List.mem_cons_of_mem _ hx)) hok2
    exact ⟨s2, by simp only [run, hs, Option.some_bind, hr], h2⟩

/-- C20: for every sequence of `init` and `Close` calls on the connections of a
table (fewer than `2^31` connections, each call on a connection of the table,
`init` with a descriptor `> 0`) that starts with `userCount` equal to the
number of open connections and applies `init` only to a closed connection, all
calls complete and afterwards `userCount` equals the number of connections
whose closed flag is `false` and is not negative; and `Close` on an already
closed connection leaves `userCount` and the closed flag unchanged. -/
theorem userCount_counts_open_connections (s : ConnTable) (calls : List ConnCall)
    (h0 : s.userCount = s.openCount) (hlen : s.conns.length < 2147483648)
    (hv : ∀ call ∈ calls, call.InRange s.conns.length) (hok : s.InitOnClosed calls) :
    (∃ s1, s.run calls = some s1 ∧ s1.userCount = s1.openCount ∧ 0 ≤ s1.userCount) ∧
    ∀ (c : HttpConn) (n : Int), c.isClose_ = true →
      (c.Close n).2 = n ∧ (c.Close n).1.isClose_ = true := by
  refine ⟨?_, ?_⟩
  · obtain ⟨s1, hr, h1⟩ := run_count calls s h0 hlen hv hok
    exact ⟨s1, hr, h1, by rw [h1]; exact Int.natCast_nonneg _⟩
  · intro c n hc
    simp only [HttpConn.Close, hc, Bool.true_eq_false, if_false, and_self]

/-- Witness for C20: three fresh connections; connection 0 is opened, closed,
closed again and opened again, connection 2 is opened. -/
theorem userCount_counts_open_connections_witness :
    (∃ s1, (fresh 3).run [.init 0 5, .close 0, .close 0, .init 2 6, .init 0 7] = some s1 ∧
      s1.userCount = s1.openCount ∧ 0 ≤ s1.userCount) ∧
    ∀ (c : HttpConn) (n : Int), c.isClose_ = true →
      (c.Close n).2 = n ∧ (c.Close n).1.isClose_ = true :=
  userCount_counts_open_connections (fresh 3)
    [.init 0 5, .close 0, .close 0, .init 2 6, .init 0 7] (by decide) (by decide) (by decide)
    (by decide)

end ConnTable

namespace Log

set_option maxRecDepth 1000000

/-- C25 (evaluation at the failing input): an `info` line whose message formats
to 1200 bytes, on the empty log buffer of 1024 bytes.  After the time stamp
(27 bytes) and the level title (9 bytes) 988 bytes are writable; `vsnprintf`
stores 987 bytes and a NUL and returns 1200, and `HasWritten(1200)` is called
with `1200 > WritableBytes()`: the write position becomes 1236, above the
capacity 1024, and the following `Append("\n\0", 2)` copies outside the region
(`none` in the model).  A message of 100 bytes gives a line. -/
theorem Log_write_HasWritten_beyond_writable :
    (beforeMessage (Buffer.mk0 1024) 1 (bytes "2024-01-01 12:00:00.000000 ")).bind
      (fun b1 => (formatMessage b1 (List.replicate 1200 120)).map fun r =>
        (b1.WritableBytes, r.2, (r.1.HasWritten (HeapTimer.sizeOfInt r.2)).writePos_,
          r.1.buffer_.length))
      = some (988, 1200, 1236, 1024) ∧
    write (Buffer.mk0 1024) 1 (bytes "2024-01-01 12:00:00.000000 ") (List.replicate 1200 120)
      false = none ∧
    (write (Buffer.mk0 1024) 1 (bytes "2024-01-01 12:00:00.000000 ") (List.replicate 100 120)
      false).isSome = true := by
  decide

end Log

namespace WebServer

set_option maxRecDepth 100000

theorem find_none_not_key (m : ConnMap) (fd : Int) (h : ConnMap.find m fd = none) :
    fd ∉ m.map Prod.fst := by
  induction m with
  | nil => simp
  | cons e rest ih =>
    obtain ⟨k, c⟩ := e
    simp only [ConnMap.find] at h
    by_cases hk : k = fd
    · rw [if_pos hk] at h; exact Option.noConfusion h
    · rw [if_neg hk] at h
      simp only [List.map_cons, List.mem_cons, not_or]
      exact ⟨fun e => hk e.symm, ih h⟩

theorem keys_map_replace (m : ConnMap) (fd : Int) (c : HttpConn) :
    (m.map fun e => if e.1 = fd then (fd, c) else e).map Prod.fst = m.map Prod.fst := by
  induction m with
  | nil => rfl
  | cons e rest ih =>
    simp only [List.map_cons, ih]
    by_cases hk : e.1 = fd
    · simp [hk]
    · simp [hk]

/-- The keys after storing into `m[fd]`. -/
theorem keys_assign (m : ConnMap) (fd : Int) (c : HttpConn) :
    (ConnMap.assign m fd c).map Prod.fst =
      if (ConnMap.find m fd).isSome then m.map Prod.fst else fd :: m.map Prod.fst := by
  unfold ConnMap.assign
  cases h : ConnMap.find m fd with
  | some v => simp only [Option.isSome_some, if_true]; exact keys_map_replace m fd c
  | none => simp

/-- The invariant of the map: distinct keys, and every connection is stored
under its own descriptor. -/
theorem assign_inv (m : ConnMap) (fd : Int) (c : HttpConn) (hc : c.fd_ = fd)
    (hn : (m.map Prod.fst).Nodup) (hfd : ∀ e ∈ m, e.2.fd_ = e.1) :
    ((ConnMap.assign m fd c).map Prod.fst).Nodup ∧
      ∀ e ∈ ConnMap.assign m fd c, e.2.fd_ = e.1 := by
  constructor
  · rw [keys_assign]
    cases h : ConnMap.find m fd with
    | some v => simpa using hn
    | none =>
      simp only [Option.isSome_none, Bool.false_eq_true, if_false]
      exact List.nodup_cons.mpr ⟨find_none_not_key m fd h, hn⟩
  · intro e he
    unfold ConnMap.assign at he
    cases h : ConnMap.find m fd with
    | some v =>
      rw [h] at he
      simp only [List.mem_map] at he
      obtain ⟨a, ha, hae⟩ := he
      by_cases hk : a.1 = fd
      · rw [if_pos hk] at hae
        rw [← hae]; exact hc
      · rw [if_neg hk] at hae
        rw [← hae]; exact hfd a ha
    | none =>
      rw [h] at he
      rcases List.mem_cons.mp he with he1 | he1
      · rw [he1]; exact hc
      · exact hfd e he1

theorem find_fd (m : ConnMap) (fd : Int) (c : HttpConn) (hfd : ∀ e ∈ m, e.2.fd_ = e.1)
    (h : ConnMap.find m fd = some c) : c.fd_ = fd := by
  induction m with
  | nil => simp [ConnMap.find] at h
  | cons e rest ih =>
    obtain ⟨k, v⟩ := e
    simp only [ConnMap.find] at h
    by_cases hk : k = fd
    · rw [if_pos hk] at h
      have := hfd (k, v) (List.mem_cons_self _ _)
      rw [← Option.some.inj h, ← hk]
      exact this
    · rw [if_neg hk] at h
      exact ih (fun e he => hfd e (List.mem_cons_of_mem _ he)) h

theorem step_inv (w w1 : WebServer) (call : ServerCall)
    (hn : (w.users_.map Prod.fst).Nodup) (hfd : ∀ e ∈ w.users_, e.2.fd_ = e.1)
    (h : w.step call = some w1) :
    (w1.users_.map Prod.fst).Nodup ∧ ∀ e ∈ w1.users_, e.2.fd_ = e.1 := by
  cases call with
  | addClient fd now =>
    simp only [step, AddClient_] at h
    by_cases hpos : fd > 0
    · rw [if_pos hpos] at h
      simp only [HttpConn.init, if_pos hpos, Option.some_bind] at h
      cases ht : (if w.timeoutMS_ > 0 then w.timer_.add now fd w.timeoutMS_ fd.toNat
          else some w.timer_) with
      | none => rw [ht] at h; exact Option.noConfusion h
      | some t1 =>
        rw [ht] at h
        simp only [Option.map_some', Option.some.injEq] at h
        rw [← h]
        exact assign_inv w.users_ fd _ rfl hn hfd
    · rw [if_neg hpos] at h; exact Option.noConfusion h
  | closeConn fd =>
    simp only [step, CloseConn_] at h
    cases hf : ConnMap.find w.users_ fd with
    | none => rw [hf] at h; exact Option.noConfusion h
    | some c =>
      rw [hf] at h
      simp only [Option.some.injEq] at h
      rw [← h]
      have hc : (c.Close w.userCount).1.fd_ = fd := by
        have := find_fd w.users_ fd c hfd hf
        unfold HttpConn.Close
        by_cases hcl : c.isClose_ = false
        · simp only [hcl, if_true]; exact this
        · simp only [hcl, if_false]; exact this
      exact assign_inv w.users_ fd _ hc hn hfd

theorem run_inv (calls : List ServerCall) : ∀ (w w1 : WebServer),
    (w.users_.map Prod.fst).Nodup → (∀ e ∈ w.users_, e.2.fd_ = e.1) →
    w.run calls = some w1 →
    (w1.users_.map Prod.fst).Nodup ∧ ∀ e ∈ w1.users_, e.2.fd_ = e.1 := by
  induction calls with
  | nil =>
    intro w w1 hn hfd h
    simp only [run, Option.some.injEq] at h
    rw [← h]; exact ⟨hn, hfd⟩
  | cons call rest ih =>
    intro w w1 hn hfd h
    simp only [run] at h
    cases hs : w.step call with
    | none => rw [hs] at h; exact Option.noConfusion h
    | some w2 =>
      rw [hs, Option.some_bind] at h
      obtain ⟨hn2, hfd2⟩ := step_inv w w2 call hn hfd hs
      exact ih w2 w1 hn2 hfd2 h

/-- `CloseConn_` leaves the keys of the map as they are. -/
theorem CloseConn_keys (w w1 : WebServer) (fd : Int) (h : w.CloseConn_ fd = some w1) :
    w1.users_.map Prod.fst = w.users_.map Prod.fst := by
  simp only [CloseConn_] at h
  cases hf : ConnMap.find w.users_ fd with
  | none => rw [hf] at h; exact Option.noConfusion h
  | some c =>
    rw [hf] at h
    simp only [Option.some.injEq] at h
    rw [← h]
    simp only [keys_assign, hf, Option.isSome_some, if_true]

/-- C21 as stated fails: after `AddClient_(5, addr)` and `CloseConn_(&users_[5])`
(idle timeout 0) the map still has the key 5, and the connection stored under
it is closed.  `CloseConn_` calls `epoller_->DelFd` and `client->Close()` and
erases nothing from `users_`. -/
theorem closed_connection_stays_in_map :
    ((start 0).run [.addClient 5 0, .closeConn 5]).map
      (fun w => w.users_.map fun e => (e.1, e.2.fd_, e.2.isClose_)) = some [(5, 5, true)] := by
  decide

/-- C21 (amended): in every server state reached from the constructed server
through calls of `AddClient_` and `CloseConn_`, the map has each key once,
every connection of the map is stored under its own fd, and so the fd of every
open connection is a key of the map; `CloseConn_` leaves the keys as they are
(a closed connection stays in the map). -/
theorem open_connection_fd_is_key (timeoutMS : Int) (calls : List ServerCall) (w : WebServer)
    (h : (start timeoutMS).run calls = some w) :
    (w.users_.map Prod.fst).Nodup ∧
    (∀ e ∈ w.users_, e.2.fd_ = e.1) ∧
    (∀ e ∈ w.users_, e.2.isClose_ = false → e.2.fd_ ∈ w.users_.map Prod.fst) ∧
    (∀ fd w1, w.CloseConn_ fd = some w1 → w1.users_.map Prod.fst = w.users_.map Prod.fst) := by
  obtain ⟨hn, hfd⟩ := run_inv calls (start timeoutMS) w List.nodup_nil
    (fun e he => absurd he (List.not_mem_nil _)) h
  refine ⟨hn, hfd, ?_, fun fd w1 h1 => CloseConn_keys w w1 fd h1⟩
  intro e he _
  rw [hfd e he]
  exact List.mem_map.mpr ⟨e, he, rfl⟩

/-- Witness for C21: two clients are added and the first is closed. -/
theorem open_connection_fd_is_key_witness :
    ∃ w, (start 0).run [.addClient 5 0, .addClient 6 0, .closeConn 5] = some w ∧
      (w.users_.map Prod.fst).Nodup ∧
      (∀ e ∈ w.users_, e.2.fd_ = e.1) ∧
      (∀ e ∈ w.users_, e.2.isClose_ = false → e.2.fd_ ∈ w.users_.map Prod.fst) ∧
      (∀ fd w1, w.CloseConn_ fd = some w1 →
        w1.users_.map Prod.fst = w.users_.map Prod.fst) :=
  ⟨_, rfl, open_connection_fd_is_key 0 [.addClient 5 0, .addClient 6 0, .closeConn 5] _ rfl⟩

end WebServer

end TinyWebServer
